import Mathlib

/-!
# A shallow embedding of `stringbuilder.h`

The growable character buffer of `stringbuilder.h` is embedded as pure functions.

* `size_t` values are natural numbers; every `size_t` computation of the source is
  reduced modulo `2 ^ w`, where `w` is the width of `size_t` (a parameter).  Offsets
  obtained by pointer arithmetic wrap in the same way.
* A byte is a natural number, NUL is `0`.  A heap block is the list of its bytes, a
  pointer into a block is the block together with an offset, and a `const char *`
  argument is the list of the bytes that start at the pointer (for a C string: the
  characters, the terminator, and whatever follows).  A read or write outside a block,
  and a string function on bytes without terminator, has no defined result (`none`).
* `realloc` is an oracle: the stream of the outcomes of the successive calls is threaded
  through every operation.  An outcome is either failure or the indeterminate content
  of the freshly obtained bytes.
* A loop of the source is a recursion on a fuel counter; running out of fuel is `none`.
  The theorems show that the results are defined (`some`) under their hypotheses.
* The formatting capability (`vsnprintf`) is not part of the repository: a template with
  its arguments is given by its full rendering, and the call stores a bounded part of it.
* A finite sequence of calls is a derivation of `Reachable` or `ReachableText`, with an
  allocator of its own at every call; a step of `Reachable` is a call that returns and
  does not overflow a `size_t` (`Call.noOverflow`), and the calls with well-formed
  arguments (`Call.valid`) that do not overflow are shown to return.
-/

namespace SB

/-! ## Memory and the allocator -/

/-- Outcome of one `realloc` call: `none` is failure (`NULL`), `some junk` is success,
where `junk i` is the indeterminate value of the `i`-th byte that was not copied. -/
abbrev AllocOutcome := Option (Nat → Nat)

/-- The outcomes of the successive `realloc` calls. -/
abbrev Allocator := Nat → AllocOutcome

/-- The allocator after one call has been served. -/
def Allocator.next (a : Allocator) : Allocator := fun i => a (i + 1)

/-- The call `realloc(old, n)`: on success the block has `n` bytes, the first
`min n (size of old)` of which are those of `old`; on failure `old` is untouched. -/
def realloc (a : Allocator) (old : Option (List Nat)) (n : Nat) :
    Option (List Nat) × Allocator :=
  match a 0 with
  | none => (none, a.next)
  | some junk =>
    let o := old.getD []
    (some (o.take n ++ (List.range (n - o.length)).map junk), a.next)

/-- Read `n` bytes at offset `off` of a block. -/
def peek (m : List Nat) (off n : Nat) : Option (List Nat) :=
  if off + n ≤ m.length then some ((m.drop off).take n) else none

/-- Write the bytes `src` at offset `off` of a block. -/
def poke (m : List Nat) (off : Nat) (src : List Nat) : Option (List Nat) :=
  if off + src.length ≤ m.length then
    some (m.take off ++ src ++ m.drop (off + src.length))
  else none

/-- The string that starts at a pointer: the bytes before the first NUL.  There is
no result when no NUL is found inside the object. -/
def cstr : List Nat → Option (List Nat)
  | [] => none
  | c :: cs => if c = 0 then some [] else (cstr cs).map (fun r => c :: r)

/-- The library function `strlen`. -/
def strlen (s : List Nat) : Option Nat := (cstr s).map List.length

/-- Offset of the first occurrence of `needle` in `hay`, if any. -/
def findSub (needle : List Nat) : List Nat → Option Nat
  | [] => if needle = [] then some 0 else none
  | c :: cs =>
    if needle.isPrefixOf (c :: cs) then some 0
    else (findSub needle cs).map (fun i => i + 1)

/-- The library function `strstr`: the outer `none` is an unterminated argument, the
inner one is the `NULL` result. -/
def strstr (hay needle : List Nat) : Option (Option Nat) :=
  match cstr hay, cstr needle with
  | some h, some n => some (findSub n h)
  | _, _ => none

/-! ## The buffer -/

/-- The `StringBuilder` struct: `value` is `none` for `NULL`, otherwise the heap block. -/
structure StringBuilder where
  value : Option (List Nat)
  length : Nat
  capacity : Nat
deriving DecidableEq

/-- The effect of `sb_init` on the struct it is given. -/
def sb_init : StringBuilder := { value := none, length := 0, capacity := 0 }

/-- The function `sb_create`. -/
def sb_create : StringBuilder := sb_init

/-- The doubling loop of `sb_ensure_capacity`:
`while (capacity < min_capacity && capacity > 0) capacity *= 2;` -/
def growLoop (w min_capacity : Nat) : Nat → Nat → Option Nat
  | 0, _ => none
  | fuel + 1, capacity =>
    if capacity < min_capacity ∧ capacity > 0 then
      growLoop w min_capacity fuel (capacity * 2 % 2 ^ w)
    else some capacity

/-- The function `sb_ensure_capacity`; the Boolean is the returned value. -/
def sb_ensure_capacity (w : Nat) (a : Allocator) (sb : StringBuilder) (min_capacity : Nat) :
    Option (Bool × StringBuilder × Allocator) :=
  if sb.capacity < min_capacity then
    match growLoop w min_capacity (w + 1) (16 % 2 ^ w) with
    | none => none
    | some capacity =>
      if capacity = 0 then some (false, sb, a)
      else
        match realloc a sb.value capacity with
        | (none, a1) => some (false, sb, a1)
        | (some value, a1) =>
          some (true, { sb with value := some value, capacity := capacity }, a1)
  else some (true, sb, a)

/-- The function `sb_create_and_allocate`. -/
def sb_create_and_allocate (w : Nat) (a : Allocator) (capacity : Nat) :
    Option (StringBuilder × Allocator) :=
  let sb := sb_init
  if 0 < capacity then
    match sb_ensure_capacity w a sb capacity with
    | none => none
    | some (false, sb1, a1) => some (sb1, a1)
    | some (true, sb1, a1) =>
      match sb1.value with
      | none => none
      | some m =>
        match poke m 0 [0] with
        | none => none
        | some m1 => some ({ sb1 with value := some m1 }, a1)
  else some (sb, a)

/-- The function `sb_append_ex`; `value` is the object the pointer refers to. -/
def sb_append_ex (w : Nat) (a : Allocator) (sb : StringBuilder) (value : List Nat)
    (length : Nat) : Option (StringBuilder × Allocator) :=
  if 0 < length then
    match sb_ensure_capacity w a sb ((sb.length + length + 1) % 2 ^ w) with
    | none => none
    | some (false, sb1, a1) => some (sb1, a1)
    | some (true, sb1, a1) =>
      match sb1.value with
      | none => none
      | some m =>
        match peek value 0 length with
        | none => none
        | some bytes =>
          match poke m sb1.length bytes with
          | none => none
          | some m1 =>
            let len := (sb1.length + length) % 2 ^ w
            match poke m1 len [0] with
            | none => none
            | some m2 => some ({ sb1 with value := some m2, length := len }, a1)
  else some (sb, a)

/-- The function `sb_append`; the argument is `none` for `NULL`. -/
def sb_append (w : Nat) (a : Allocator) (sb : StringBuilder) (value : Option (List Nat)) :
    Option (StringBuilder × Allocator) :=
  match value with
  | none => some (sb, a)
  | some v =>
    match strlen v with
    | none => none
    | some n => sb_append_ex w a sb v n

/-- The constant `STRING_BUILDER_NEWLINE`, as the bytes of the literal. -/
def STRING_BUILDER_NEWLINE : List Nat := [10, 0]

/-- The function `sb_append_line`. -/
def sb_append_line (w : Nat) (a : Allocator) (sb : StringBuilder) (value : Option (List Nat)) :
    Option (StringBuilder × Allocator) :=
  match sb_append w a sb value with
  | none => none
  | some (sb1, a1) => sb_append w a1 sb1 (some STRING_BUILDER_NEWLINE)

/-- The function `sb_append_char`. -/
def sb_append_char (w : Nat) (a : Allocator) (sb : StringBuilder) (value : Nat) :
    Option (StringBuilder × Allocator) :=
  if value ≠ 0 then sb_append_ex w a sb [value] 1 else some (sb, a)

/-- Unsigned subtraction of `size_t` values: `a - b` modulo `2 ^ w`. -/
def subw (w a b : Nat) : Nat := (a + (2 ^ w - b % 2 ^ w)) % 2 ^ w

/-- The function `sb_insert_ex`.  Pointer arithmetic wraps like `size_t` arithmetic. -/
def sb_insert_ex (w : Nat) (a : Allocator) (sb : StringBuilder) (index : Nat)
    (value : List Nat) (length : Nat) : Option (StringBuilder × Allocator) :=
  if index < sb.length then
    if 0 < length then
      match sb_ensure_capacity w a sb ((sb.length + length + 1) % 2 ^ w) with
      | none => none
      | some (false, sb1, a1) => some (sb1, a1)
      | some (true, sb1, a1) =>
        match sb1.value with
        | none => none
        | some m =>
          match peek m index (subw w sb1.length index) with
          | none => none
          | some tail =>
            match poke m ((index + length) % 2 ^ w) tail with
            | none => none
            | some m1 =>
              match peek value 0 length with
              | none => none
              | some bytes =>
                match poke m1 index bytes with
                | none => none
                | some m2 =>
                  let len := (sb1.length + length) % 2 ^ w
                  match poke m2 len [0] with
                  | none => none
                  | some m3 => some ({ sb1 with value := some m3, length := len }, a1)
    else some (sb, a)
  else sb_append_ex w a sb value length

/-- The function `sb_insert`; the argument is `none` for `NULL`. -/
def sb_insert (w : Nat) (a : Allocator) (sb : StringBuilder) (index : Nat)
    (value : Option (List Nat)) : Option (StringBuilder × Allocator) :=
  match value with
  | none => some (sb, a)
  | some v =>
    match strlen v with
    | none => none
    | some n => sb_insert_ex w a sb index v n

/-- The two branches of `sb_remove` before the terminator is written: the block and
the new length. -/
def sb_remove_shift (w : Nat) (sb : StringBuilder) (m : List Nat) (index length : Nat) :
    Option (List Nat × Nat) :=
  if (index + length) % 2 ^ w < sb.length then
    let num_chars_to_move := subw w (subw w sb.length length) index
    match peek m ((index + length) % 2 ^ w) num_chars_to_move with
    | none => none
    | some bytes =>
      match poke m index bytes with
      | none => none
      | some m1 => some (m1, subw w sb.length length)
  else some (m, index)

/-- The function `sb_remove`. -/
def sb_remove (w : Nat) (sb : StringBuilder) (index length : Nat) : Option StringBuilder :=
  if index ≥ sb.length ∨ length = 0 then some sb
  else
    match sb.value with
    | none => none
    | some m =>
      match sb_remove_shift w sb m index length with
      | none => none
      | some (m1, len) =>
        match poke m1 len [0] with
        | none => none
        | some m2 => some { sb with value := some m2, length := len }

/-- The equal-length loop of `sb_replace`; `mt` is the offset of `match` in the block. -/
def replaceEqLoop (old_value new_value : List Nat) (old_length new_length : Nat) :
    Nat → List Nat → Option Nat → Option (List Nat)
  | _, m, none => some m
  | 0, _, some _ => none
  | fuel + 1, m, some mt =>
    match peek new_value 0 new_length with
    | none => none
    | some bytes =>
      match poke m mt bytes with
      | none => none
      | some m1 =>
        match strstr (m1.drop (mt + old_length)) old_value with
        | none => none
        | some r => replaceEqLoop old_value new_value old_length new_length fuel m1
            (r.map (fun i => mt + old_length + i))

/-- The unequal-length loop of `sb_replace`; `start` and `mt` are offsets in the
block `m` of the buffer, the result is `tmp` and the final `start`. -/
def replaceNeLoop (w : Nat) (m old_value new_value : List Nat) (old_length new_length : Nat) :
    Nat → Allocator → StringBuilder → Nat → Option Nat →
      Option (StringBuilder × Nat × Allocator)
  | _, a, tmp, start, none => some (tmp, start, a)
  | 0, _, _, _, some _ => none
  | fuel + 1, a, tmp, start, some mt =>
    match sb_append_ex w a tmp (m.drop start) (mt - start) with
    | none => none
    | some (tmp1, a1) =>
      match sb_append_ex w a1 tmp1 new_value new_length with
      | none => none
      | some (tmp2, a2) =>
        match strstr (m.drop (mt + old_length)) old_value with
        | none => none
        | some r => replaceNeLoop w m old_value new_value old_length new_length fuel a2 tmp2
            (mt + old_length) (r.map (fun i => mt + old_length + i))

/-- The function `sb_replace`; the arguments are `none` for `NULL`. -/
def sb_replace (w : Nat) (a : Allocator) (sb : StringBuilder)
    (old_value new_value : Option (List Nat)) : Option (StringBuilder × Allocator) :=
  match old_value, new_value with
  | some old, some new =>
    if sb.length = 0 then some (sb, a)
    else
      match strlen old, strlen new, sb.value with
      | some old_length, some new_length, some m =>
        match strstr m old with
        | none => none
        | some none => some (sb, a)
        | some (some mt) =>
          if old_length = 0 then some (sb, a)
          else if old_length = new_length then
            match replaceEqLoop old new old_length new_length (m.length + 1) m (some mt) with
            | none => none
            | some m1 => some ({ sb with value := some m1 }, a)
          else
            match replaceNeLoop w m old new old_length new_length (m.length + 1) a
                sb_create 0 (some mt) with
            | none => none
            | some (tmp, start, a1) =>
              match m.get? start with
              | none => none
              | some c =>
                if c ≠ 0 then sb_append_ex w a1 tmp (m.drop start) (subw w sb.length start)
                else some (tmp, a1)
      | _, _, _ => none
  | _, _ => some (sb, a)

/-- The function `sb_clear`. -/
def sb_clear (sb : StringBuilder) : Option StringBuilder :=
  match sb.value with
  | none => some { sb with length := 0 }
  | some m =>
    match poke m 0 [0] with
    | none => none
    | some m1 => some { sb with value := some m1, length := 0 }

/-- Modelled from the spec: the formatting capability (`vsnprintf`), which is not part of
the repository.  For a template and arguments whose full rendering is `r`, a call with
destination size `size` stores the first `size - 1` bytes of `r` and a terminator (nothing
when `size` is 0), and returns the length of `r`.  The result is the stored bytes and the
returned value. -/
def vsnprintf (size : Nat) (r : List Nat) : List Nat × Nat :=
  (if size = 0 then [] else r.take (size - 1) ++ [0], r.length)

/-- The function `sb_append_format_list`.  The template and its arguments are given by
what the formatting capability makes of them: `none` for an encoding error (a negative
result), `some r` for the full rendering `r`.  The scratch array `buffer` is the bytes the
first call has stored in it. -/
def sb_append_format_list (w : Nat) (a : Allocator) (sb : StringBuilder)
    (rendering : Option (List Nat)) : Option (StringBuilder × Allocator) :=
  match rendering with
  | none => some (sb, a)
  | some r =>
    let buffer := (vsnprintf 4096 r).1
    let length := (vsnprintf 4096 r).2
    if length < 4096 then sb_append_ex w a sb buffer length
    else
      match sb_ensure_capacity w a sb ((sb.length + length + 1) % 2 ^ w) with
      | none => none
      | some (false, sb1, a1) => some (sb1, a1)
      | some (true, sb1, a1) =>
        match sb1.value with
        | none => none
        | some m =>
          match poke m sb1.length (vsnprintf ((length + 1) % 2 ^ w) r).1 with
          | none => none
          | some m1 =>
            some ({ sb1 with value := some m1, length := (sb1.length + length) % 2 ^ w }, a1)

/-- The function `sb_append_format`. -/
def sb_append_format (w : Nat) (a : Allocator) (sb : StringBuilder)
    (rendering : Option (List Nat)) : Option (StringBuilder × Allocator) :=
  sb_append_format_list w a sb rendering

/-- The literal `"Some content..."` of `main`. -/
def strSomeContent : List Nat :=
  [83, 111, 109, 101, 32, 99, 111, 110, 116, 101, 110, 116, 46, 46, 46, 0]

/-- The literal `" More content."` of `main`. -/
def strMoreContent : List Nat :=
  [32, 77, 111, 114, 101, 32, 99, 111, 110, 116, 101, 110, 116, 46, 0]

/-- The literal `"First! "` of `main`. -/
def strFirst : List Nat := [70, 105, 114, 115, 116, 33, 32, 0]

/-- The 38 characters `Some number: 69 and a string: "nice".` and a newline: the rendering
of the template of `main` with the arguments 69 and `"nice"`. -/
def renderedLine : List Nat :=
  [83, 111, 109, 101, 32, 110, 117, 109, 98, 101, 114, 58, 32, 54, 57, 32, 97, 110, 100, 32,
   97, 32, 115, 116, 114, 105, 110, 103, 58, 32, 34, 110, 105, 99, 101, 34, 46, 10]

/-- The 75 characters that `main` is to print: `First! Some content... More content.`, a
newline, `Some number: 69 and a string: "nice".` and a newline. -/
def expectedOutput : List Nat :=
  [70, 105, 114, 115, 116, 33, 32, 83, 111, 109, 101, 32, 99, 111, 110, 116, 101, 110, 116,
   46, 46, 46, 32, 77, 111, 114, 101, 32, 99, 111, 110, 116, 101, 110, 116, 46, 10, 83, 111,
   109, 101, 32, 110, 117, 109, 98, 101, 114, 58, 32, 54, 57, 32, 97, 110, 100, 32, 97, 32,
   115, 116, 114, 105, 110, 103, 58, 32, 34, 110, 105, 99, 101, 34, 46, 10]

/-- The first four calls of `main` on a fresh buffer; `rendering` is what the formatting
capability makes of the template and its arguments. -/
def main_calls (w : Nat) (a : Allocator) (rendering : Option (List Nat)) :
    Option (StringBuilder × Allocator) :=
  match sb_append w a sb_create (some strSomeContent) with
  | none => none
  | some (sb1, a1) =>
    match sb_append_line w a1 sb1 (some strMoreContent) with
    | none => none
    | some (sb2, a2) =>
      match sb_append_format w a2 sb2 rendering with
      | none => none
      | some (sb3, a3) => sb_insert w a3 sb3 0 (some strFirst)

/-- The calls `sb_append_char(c_1)`, ..., `sb_append_char(c_n)`, in this order. -/
def appendChars (w : Nat) : Allocator → StringBuilder → List Nat →
    Option (StringBuilder × Allocator)
  | a, sb, [] => some (sb, a)
  | a, sb, c :: cs =>
    match sb_append_char w a sb c with
    | none => none
    | some (sb1, a1) => appendChars w a1 sb1 cs

/-! ## Observations on a buffer -/

/-- The bytes of the heap block of a buffer (none when `value` is `NULL`). -/
def StringBuilder.block (sb : StringBuilder) : List Nat := sb.value.getD []

/-- The content of a buffer: the first `length` bytes of its block. -/
def StringBuilder.content (sb : StringBuilder) : List Nat := sb.block.take sb.length

/-- The block of a buffer has exactly `capacity` bytes. -/
def WF (sb : StringBuilder) : Prop := sb.block.length = sb.capacity

/-- The buffer invariant of the data model: `length <= capacity`, and when
`capacity > 0` the byte at offset `length` is the terminator. -/
def Inv (sb : StringBuilder) : Prop :=
  WF sb ∧ sb.length ≤ sb.capacity ∧ (0 < sb.capacity → sb.block.get? sb.length = some 0)

instance (sb : StringBuilder) : Decidable (WF sb) := by unfold WF; infer_instance

instance (sb : StringBuilder) : Decidable (Inv sb) := by unfold Inv; infer_instance

/-- Every call of the allocator succeeds. -/
def Allocator.succeeds (a : Allocator) : Prop := ∀ i, (a i).isSome = true

/-! ## Sequences of calls -/

/-- A call of one of the operations on the buffer, with its arguments. -/
inductive Call where
  | ensure_capacity (min_capacity : Nat)
  | append_ex (value : List Nat) (length : Nat)
  | insert_ex (index : Nat) (value : List Nat) (length : Nat)
  | remove (index length : Nat)
  | replace (old_value new_value : Option (List Nat))
  | clear

/-- The effect of a call on the buffer and on the allocator. -/
def Call.run (w : Nat) (a : Allocator) (sb : StringBuilder) :
    Call → Option (StringBuilder × Allocator)
  | Call.ensure_capacity min_capacity =>
    (sb_ensure_capacity w a sb min_capacity).map (fun r => r.2)
  | Call.append_ex value length => sb_append_ex w a sb value length
  | Call.insert_ex index value length => sb_insert_ex w a sb index value length
  | Call.remove index length => (sb_remove w sb index length).map (fun s => (s, a))
  | Call.replace old_value new_value => sb_replace w a sb old_value new_value
  | Call.clear => (sb_clear sb).map (fun s => (s, a))

/-- The arguments of a call are what the interface asks for: the source object of
`sb_append_ex` and `sb_insert_ex` has at least `length` bytes, and each text argument of
`sb_replace` is `NULL` or a terminated string. -/
def Call.valid : Call → Prop
  | Call.ensure_capacity _ => True
  | Call.append_ex value length => length ≤ value.length
  | Call.insert_ex _ value length => length ≤ value.length
  | Call.remove _ _ => True
  | Call.replace old_value new_value =>
    (∀ v, old_value = some v → (strlen v).isSome = true) ∧
      (∀ v, new_value = some v → (strlen v).isSome = true)
  | Call.clear => True

/-- The sum `sb->length + length + 1` that `sb_append_ex` and `sb_insert_ex` pass to
`sb_ensure_capacity` is a `size_t` value, that is, it does not overflow; for `length` 0 the
sum is not computed. -/
def sizeFits (w : Nat) (sb : StringBuilder) (length : Nat) : Bool :=
  decide (0 < length → sb.length + length + 1 < 2 ^ w)

/-- No `sb_append_ex` call of the unequal-length loop of `sb_replace` overflows: the
recursion is that of `replaceNeLoop`, with `sizeFits` asked of each of the two calls of a
round. -/
def replaceNeLoopFits (w : Nat) (m old_value new_value : List Nat)
    (old_length new_length : Nat) :
    Nat → Allocator → StringBuilder → Nat → Option Nat → Bool
  | _, _, _, _, none => true
  | 0, _, _, _, some _ => true
  | fuel + 1, a, tmp, start, some mt =>
    sizeFits w tmp (mt - start) &&
      match sb_append_ex w a tmp (m.drop start) (mt - start) with
      | none => true
      | some (tmp1, a1) =>
        sizeFits w tmp1 new_length &&
          match sb_append_ex w a1 tmp1 new_value new_length with
          | none => true
          | some (tmp2, a2) =>
            match strstr (m.drop (mt + old_length)) old_value with
            | none => true
            | some r => replaceNeLoopFits w m old_value new_value old_length new_length fuel
                a2 tmp2 (mt + old_length) (r.map (fun i => mt + old_length + i))

/-- No `sb_append_ex` call that `sb_replace` makes overflows: those of the unequal-length
loop and the one that appends the rest of the text.  The equal-length path and the early
returns make no such call. -/
def sb_replace_fits (w : Nat) (a : Allocator) (sb : StringBuilder)
    (old_value new_value : Option (List Nat)) : Bool :=
  match old_value, new_value with
  | some old, some new =>
    match strlen old, strlen new, sb.value with
    | some old_length, some new_length, some m =>
      match strstr m old with
      | some (some mt) =>
        if sb.length = 0 ∨ old_length = 0 ∨ old_length = new_length then true
        else
          replaceNeLoopFits w m old new old_length new_length (m.length + 1) a sb_create 0
              (some mt) &&
            match replaceNeLoop w m old new old_length new_length (m.length + 1) a
                sb_create 0 (some mt) with
            | some (tmp, start, _) =>
              match m.get? start with
              | some c => if c ≠ 0 then sizeFits w tmp (subw w sb.length start) else true
              | none => true
            | none => true
      | _ => true
    | _, _, _ => true
  | _, _ => true

/-- The proviso on a call: it does not overflow a `size_t` in `length + inputLen + 1`
(`sb_append_ex`, `sb_insert_ex`, and the `sb_append_ex` calls that `sb_replace` makes) or
in `index + deleteLen` (`sb_remove`, which computes the sum when `index < length` and
`deleteLen > 0`). -/
def Call.noOverflow (w : Nat) (a : Allocator) (sb : StringBuilder) : Call → Prop
  | Call.ensure_capacity _ => True
  | Call.append_ex _ length => sizeFits w sb length = true
  | Call.insert_ex _ _ length => sizeFits w sb length = true
  | Call.remove index length => index < sb.length → 0 < length → index + length < 2 ^ w
  | Call.replace old_value new_value => sb_replace_fits w a sb old_value new_value = true
  | Call.clear => True

/-- The buffers that `sb_create` or `sb_create_and_allocate` followed by a finite sequence
of calls yields, whatever the allocator does at each call, when no call overflows. -/
inductive Reachable (w : Nat) : StringBuilder → Prop where
  | create : Reachable w sb_create
  | create_and_allocate (a a1 : Allocator) (capacity : Nat) (sb : StringBuilder) :
      sb_create_and_allocate w a capacity = some (sb, a1) → Reachable w sb
  | call (a a1 : Allocator) (sb sb1 : StringBuilder) (c : Call) :
      Reachable w sb → c.noOverflow w a sb → c.run w a sb = some (sb1, a1) →
      Reachable w sb1

/-- A call of one of the operations that take text as C strings (`none` for `NULL`), of
`sb_remove` or of `sb_clear`. -/
inductive TextCall where
  | append (value : Option (List Nat))
  | append_char (value : Nat)
  | append_line (value : Option (List Nat))
  | insert (index : Nat) (value : Option (List Nat))
  | remove (index length : Nat)
  | replace (old_value new_value : Option (List Nat))
  | clear

/-- The effect of such a call on the buffer and on the allocator. -/
def TextCall.run (w : Nat) (a : Allocator) (sb : StringBuilder) :
    TextCall → Option (StringBuilder × Allocator)
  | TextCall.append value => sb_append w a sb value
  | TextCall.append_char value => sb_append_char w a sb value
  | TextCall.append_line value => sb_append_line w a sb value
  | TextCall.insert index value => sb_insert w a sb index value
  | TextCall.remove index length => (sb_remove w sb index length).map (fun s => (s, a))
  | TextCall.replace old_value new_value => sb_replace w a sb old_value new_value
  | TextCall.clear => (sb_clear sb).map (fun s => (s, a))

/-- The proviso on the arguments: `index + length` of `sb_remove` does not overflow. -/
def TextCall.noOverflow (w : Nat) : TextCall → Prop
  | TextCall.remove index length => index + length < 2 ^ w
  | _ => True

/-- The buffers that `sb_create` followed by a finite sequence of such calls yields,
whatever the allocator does at each call. -/
inductive ReachableText (w : Nat) : StringBuilder → Prop where
  | create : ReachableText w sb_create
  | call (a a1 : Allocator) (sb sb1 : StringBuilder) (c : TextCall) :
      ReachableText w sb → c.noOverflow w → c.run w a sb = some (sb1, a1) →
      ReachableText w sb1

/-- The shape of the capacity: none with no content, or `16 * 2 ^ k` with room for the
content and its terminator. -/
def Shape (sb : StringBuilder) : Prop :=
  (sb.capacity = 0 ∧ sb.length = 0) ∨
    ((∃ k, sb.capacity = 16 * 2 ^ k) ∧ sb.length + 1 ≤ sb.capacity)

/-- The invariant of the buffers that sequences of calls yield: a block of `capacity`
bytes, the shape of the capacity, a capacity that is a `size_t` value, the terminator at
offset `length` once there is content, and no block when the capacity is 0. -/
def Sound (w : Nat) (sb : StringBuilder) : Prop :=
  WF sb ∧ Shape sb ∧ sb.capacity < 2 ^ w ∧
    (0 < sb.length → sb.block.get? sb.length = some 0) ∧ (sb.capacity = 0 → sb.value = none)

/-- The invariant of the buffers built from C strings: the buffer invariant, a content
without NUL, and a capacity that is a `size_t` value. -/
def NulFree (w : Nat) (sb : StringBuilder) : Prop :=
  Inv sb ∧ (∀ c, c ∈ sb.content → c ≠ 0) ∧ sb.capacity < 2 ^ w

/-! ## The reference substring replacement -/

/-- Reference replacement, after the words of the specification: scan `s` from left to
right; where `old` occurs, emit `new` and resume the scan right after the occurrence in
`s`, elsewhere emit the character and move on by one.  The fuel bounds the scan. -/
def replaceRef (old new : List Nat) : Nat → List Nat → List Nat
  | 0, s => s
  | _ + 1, [] => []
  | fuel + 1, c :: cs =>
    if old.isPrefixOf (c :: cs) then
      new ++ replaceRef old new fuel ((c :: cs).drop old.length)
    else c :: replaceRef old new fuel cs

/-- The non-overlapping left-to-right replacement of `old` by `new` in `s`. -/
def replaceAll (old new s : List Nat) : List Nat := replaceRef old new s.length s

/-- A size that some `16 * 2 ^ k` representable in a `size_t` of width `w` reaches. -/
def Fits (w n : Nat) : Prop := ∃ k, 16 * 2 ^ k < 2 ^ w ∧ n ≤ 16 * 2 ^ k

/-! ## Concrete data for the examples -/

/-- An allocator whose every call succeeds and hands out bytes `0xAA`. -/
def allocJunk : Allocator := fun _ => some (fun _ => 170)

/-- The buffer `"hi"` in a block of 16 bytes, the unused ones being `0xAA`. -/
def bufHi : StringBuilder :=
  { value := some ([104, 105, 0] ++ List.replicate 13 170), length := 2, capacity := 16 }

/-- The buffer `"ab"` in a block of 16 bytes. -/
def bufAb : StringBuilder :=
  { value := some ([97, 98, 0] ++ List.replicate 13 170), length := 2, capacity := 16 }

/-- The buffer `"hello"` in a block of 16 bytes. -/
def bufHello : StringBuilder :=
  { value := some ([104, 101, 108, 108, 111, 0] ++ List.replicate 10 170), length := 5,
    capacity := 16 }

/-- The buffer `"the cat sat"` in a block of 16 bytes. -/
def bufCat : StringBuilder :=
  { value := some ([116, 104, 101, 32, 99, 97, 116, 32, 115, 97, 116, 0] ++
      List.replicate 4 170), length := 11, capacity := 16 }

/-- The buffer `"banana"` in a block of 16 bytes. -/
def bufBanana : StringBuilder :=
  { value := some ([98, 97, 110, 97, 110, 97, 0] ++ List.replicate 9 170), length := 6,
    capacity := 16 }

/-- An allocator whose every call fails. -/
def allocFail : Allocator := fun _ => none

/-- An allocator whose first call fails and whose later calls succeed. -/
def allocFailFirst : Allocator := fun i => if i = 0 then none else some (fun _ => 170)

/-- The buffer `"aaa"` in a block of 16 bytes. -/
def bufAaa : StringBuilder :=
  { value := some ([97, 97, 97, 0] ++ List.replicate 12 170), length := 3, capacity := 16 }

/-! ## The doubling loop -/

theorem growLoop_exit (w min : Nat) :
    ∀ fuel cap c, growLoop w min fuel cap = some c → ¬ (c < min ∧ c > 0)
  | 0, _, _, h => by simp [growLoop] at h
  | fuel + 1, cap, c, h => by
    unfold growLoop at h
    split at h
    · exact growLoop_exit w min fuel _ c h
    · simp only [Option.some.injEq] at h
      subst h
      assumption

theorem pow_mod_pos_lt (w i : Nat) (h : 0 < 16 * 2 ^ i % 2 ^ w) : i < w := by
  by_contra hc
  have hle : w ≤ i := Nat.le_of_not_lt hc
  have hd : 2 ^ w ∣ 16 * 2 ^ i := Dvd.dvd.mul_left (Nat.pow_dvd_pow 2 hle) 16
  have := Nat.mod_eq_zero_of_dvd hd
  omega

theorem growLoop_terminates (w min : Nat) :
    ∀ fuel i, 1 ≤ fuel → w + 1 ≤ fuel + i →
      ∃ c, growLoop w min fuel (16 * 2 ^ i % 2 ^ w) = some c
  | 0, _, h, _ => by omega
  | fuel + 1, i, _, h => by
    unfold growLoop
    split
    · rename_i hc
      have hi : i < w := pow_mod_pos_lt w i hc.2
      have e : 16 * 2 ^ i % 2 ^ w * 2 % 2 ^ w = 16 * 2 ^ (i + 1) % 2 ^ w := by
        rw [Nat.mod_mul_mod, pow_succ, Nat.mul_assoc]
      rw [e]
      exact growLoop_terminates w min fuel (i + 1) (by omega) (by omega)
    · exact ⟨_, rfl⟩

theorem growLoop_least (w min : Nat) :
    ∀ fuel i c, (∀ j, j < i → 16 * 2 ^ j < min) →
      (∃ k, i ≤ k ∧ 16 * 2 ^ k < 2 ^ w ∧ min ≤ 16 * 2 ^ k) →
      growLoop w min fuel (16 * 2 ^ i) = some c →
      ∃ k0, c = 16 * 2 ^ k0 ∧ min ≤ c ∧ ∀ j, j < k0 → 16 * 2 ^ j < min
  | 0, _, _, _, _, h => by simp [growLoop] at h
  | fuel + 1, i, c, hlt, ⟨k, hik, hk, hmin⟩, h => by
    unfold growLoop at h
    split at h
    · rename_i hc
      have hne : i ≠ k := by
        rintro rfl
        omega
      have hik1 : i + 1 ≤ k := by omega
      have hmono : 16 * 2 ^ (i + 1) ≤ 16 * 2 ^ k :=
        Nat.mul_le_mul_left 16 (Nat.pow_le_pow_right (by decide) hik1)
      have e : 16 * 2 ^ i * 2 % 2 ^ w = 16 * 2 ^ (i + 1) := by
        rw [Nat.mul_assoc, ← pow_succ]
        exact Nat.mod_eq_of_lt (by omega)
      rw [e] at h
      refine growLoop_least w min fuel (i + 1) c ?_ ⟨k, hik1, hk, hmin⟩ h
      intro j hj
      rcases Nat.lt_succ_iff_lt_or_eq.mp hj with h1 | h1
      · exact hlt j h1
      · subst h1
        exact hc.1
    · rename_i hc
      simp only [Option.some.injEq] at h
      subst h
      have hpos : 0 < 16 * 2 ^ i := Nat.mul_pos (by decide) (Nat.pow_pos (by decide))
      exact ⟨i, rfl, by omega, hlt⟩

/-! ## `sb_ensure_capacity` -/

theorem realloc_success (a : Allocator) (junk : Nat → Nat) (old : Option (List Nat)) (n : Nat)
    (h : a 0 = some junk) :
    realloc a old n =
      (some ((old.getD []).take n ++ (List.range (n - (old.getD []).length)).map junk),
        a.next) := by
  simp [realloc, h]

theorem sb_ensure_capacity_noop (w : Nat) (a : Allocator) (sb : StringBuilder) (min : Nat)
    (h : min ≤ sb.capacity) : sb_ensure_capacity w a sb min = some (true, sb, a) := by
  simp [sb_ensure_capacity, Nat.not_lt.mpr h]

theorem sb_ensure_capacity_false {w : Nat} {a a1 : Allocator} {sb sb1 : StringBuilder}
    {min : Nat} (h : sb_ensure_capacity w a sb min = some (false, sb1, a1)) : sb1 = sb := by
  unfold sb_ensure_capacity at h
  split at h
  · split at h
    · simp at h
    · split at h
      · simp only [Option.some.injEq, Prod.mk.injEq, true_and] at h
        exact h.1.symm
      · split at h
        · simp only [Option.some.injEq, Prod.mk.injEq, true_and] at h
          exact h.1.symm
        · simp at h
  · simp at h

theorem sb_ensure_capacity_true {w : Nat} {a a1 : Allocator} {sb sb1 : StringBuilder}
    {min : Nat} (hwf : WF sb) (h : sb_ensure_capacity w a sb min = some (true, sb1, a1)) :
    sb1.length = sb.length ∧ min ≤ sb1.capacity ∧ sb.capacity ≤ sb1.capacity ∧ WF sb1 ∧
      ∃ junk, sb1.block = sb.block ++ junk := by
  unfold sb_ensure_capacity at h
  split at h
  · rename_i hlt
    split at h
    · simp at h
    · rename_i capacity hg
      have hex := growLoop_exit w min _ _ _ hg
      split at h
      · simp at h
      · rename_i hne
        have hmin : min ≤ capacity := by omega
        cases ha : a 0 with
        | none => simp [realloc, ha] at h
        | some junk =>
          rw [realloc_success a junk _ _ ha] at h
          simp only [Option.some.injEq, Prod.mk.injEq, true_and] at h
          obtain ⟨rfl, -⟩ := h
          simp only [WF, StringBuilder.block] at hwf ⊢
          have htake : List.take capacity (sb.value.getD []) = sb.value.getD [] :=
            List.take_of_length_le (by omega)
          refine ⟨trivial, hmin, by omega, ?_, ?_⟩
          · simp only [Option.getD_some, htake, List.length_append, List.length_map,
              List.length_range]
            omega
          · refine ⟨List.map junk (List.range (capacity - (sb.value.getD []).length)), ?_⟩
            simp only [Option.getD_some, htake]
  · rename_i hge
    simp only [Option.some.injEq, Prod.mk.injEq, true_and] at h
    obtain ⟨rfl, -⟩ := h
    exact ⟨rfl, by omega, le_refl _, hwf, [], by simp⟩

/-- The function `sb_ensure_capacity` always returns: its loop ends within `w + 1`
rounds. -/
theorem sb_ensure_capacity_defined (w : Nat) (a : Allocator) (sb : StringBuilder)
    (min : Nat) : ∃ r, sb_ensure_capacity w a sb min = some r := by
  unfold sb_ensure_capacity
  split
  · obtain ⟨c, hc⟩ := growLoop_terminates w min (w + 1) 0 (by omega) (by omega)
    rw [pow_zero, Nat.mul_one] at hc
    rw [hc]
    simp only
    split
    · exact ⟨_, rfl⟩
    · cases h : realloc a sb.value c with
      | mk v a1 => cases v <;> exact ⟨_, rfl⟩
  · exact ⟨_, rfl⟩

/-- A capacity request that some `16 * 2 ^ k` representable in `size_t` satisfies. -/
theorem sb_ensure_capacity_grow (w : Nat) (a : Allocator) (junk : Nat → Nat)
    (sb : StringBuilder) (min : Nat) (hlt : sb.capacity < min)
    (hfit : ∃ k, 16 * 2 ^ k < 2 ^ w ∧ min ≤ 16 * 2 ^ k) (ha : a 0 = some junk) :
    ∃ k, (min ≤ 16 * 2 ^ k ∧ ∀ j, min ≤ 16 * 2 ^ j → k ≤ j) ∧
      sb_ensure_capacity w a sb min =
        some (true, { sb with
          value := some (sb.block.take (16 * 2 ^ k) ++
            (List.range (16 * 2 ^ k - sb.block.length)).map junk),
          capacity := 16 * 2 ^ k }, a.next) := by
  obtain ⟨k, hk, hmin⟩ := hfit
  have h16 : 16 % 2 ^ w = 16 * 2 ^ 0 := by
    have : 16 * 2 ^ 0 ≤ 16 * 2 ^ k :=
      Nat.mul_le_mul_left 16 (Nat.pow_le_pow_right (by decide) (Nat.zero_le k))
    rw [Nat.mod_eq_of_lt (by omega)]
    norm_num
  obtain ⟨c, hc⟩ := growLoop_terminates w min (w + 1) 0 (by omega) (by omega)
  have hc0 : growLoop w min (w + 1) (16 % 2 ^ w) = some c := by
    rw [h16]
    rw [Nat.mod_eq_of_lt (by omega)] at hc
    exact hc
  have hc1 := hc0
  rw [h16] at hc1
  obtain ⟨k0, rfl, hmin0, hleast⟩ :=
    growLoop_least w min (w + 1) 0 c (by intro j hj; omega) ⟨k, Nat.zero_le k, hk, hmin⟩ hc1
  have hpos : 0 < 16 * 2 ^ k0 := Nat.mul_pos (by decide) (Nat.pow_pos (by decide))
  refine ⟨k0, ⟨hmin0, ?_⟩, ?_⟩
  · intro j hj
    by_contra hcon
    have := hleast j (by omega)
    omega
  · unfold sb_ensure_capacity
    rw [if_pos hlt, hc0]
    simp only [Nat.ne_of_gt hpos, if_false, realloc_success a junk _ _ ha]
    rfl

/-- C2: `sb_ensure_capacity` is a no-op returning `true` when `capacity >= min_capacity`;
otherwise, when some `16 * 2 ^ k` representable in `size_t` reaches `min_capacity` and the
allocator succeeds, it returns `true`, the new capacity is the smallest `16 * 2 ^ k` that
is `>= min_capacity`, and `length` and the old bytes (so the content) are unchanged. -/
theorem C2_sb_ensure_capacity_growth_rule (w : Nat) (a : Allocator) (sb : StringBuilder)
    (min_capacity : Nat) (hwf : WF sb) :
    (min_capacity ≤ sb.capacity →
      sb_ensure_capacity w a sb min_capacity = some (true, sb, a)) ∧
    (sb.capacity < min_capacity →
      (∃ k, 16 * 2 ^ k < 2 ^ w ∧ min_capacity ≤ 16 * 2 ^ k) → (a 0).isSome = true →
      ∃ sb1 k, sb_ensure_capacity w a sb min_capacity = some (true, sb1, a.next) ∧
        sb1.capacity = 16 * 2 ^ k ∧ min_capacity ≤ 16 * 2 ^ k ∧
        (∀ j, min_capacity ≤ 16 * 2 ^ j → 16 * 2 ^ k ≤ 16 * 2 ^ j) ∧
        WF sb1 ∧ sb1.length = sb.length ∧ sb1.block.take sb.capacity = sb.block ∧
        (sb.length ≤ sb.capacity → sb1.content = sb.content)) := by
  refine ⟨sb_ensure_capacity_noop w a sb min_capacity, ?_⟩
  intro hlt hfit ha
  obtain ⟨junk, hj⟩ := Option.isSome_iff_exists.mp ha
  obtain ⟨k, ⟨hmin, hleast⟩, he⟩ := sb_ensure_capacity_grow w a junk sb min_capacity hlt hfit hj
  obtain ⟨hlen, -, hcap, hwf1, tl, htl⟩ := sb_ensure_capacity_true hwf he
  refine ⟨_, k, he, rfl, hmin, ?_, hwf1, hlen, ?_, ?_⟩
  · intro j hj
    exact Nat.mul_le_mul_left 16 (Nat.pow_le_pow_right (by decide) (hleast j hj))
  · rw [htl, ← hwf, List.take_left']
    rfl
  · intro hle
    unfold StringBuilder.content
    rw [htl, hlen, List.take_append_of_le_length]
    rw [hwf]
    exact hle

/-- An instance of C2: growing the 16-byte buffer `"hi"` to at least 100 bytes gives
capacity 128, and a request for 10 bytes changes nothing. -/
theorem C2_sb_ensure_capacity_growth_rule_witness :
    (WF bufHi ∧ bufHi.capacity < 100 ∧ (∃ k, 16 * 2 ^ k < 2 ^ 64 ∧ 100 ≤ 16 * 2 ^ k) ∧
      ∃ sb1 k, sb_ensure_capacity 64 allocJunk bufHi 100 = some (true, sb1, allocJunk.next) ∧
        sb1.capacity = 16 * 2 ^ k ∧ 100 ≤ 16 * 2 ^ k ∧
        (∀ j, 100 ≤ 16 * 2 ^ j → 16 * 2 ^ k ≤ 16 * 2 ^ j) ∧
        WF sb1 ∧ sb1.length = bufHi.length ∧ sb1.block.take bufHi.capacity = bufHi.block ∧
        (bufHi.length ≤ bufHi.capacity → sb1.content = bufHi.content)) ∧
    sb_ensure_capacity 64 allocJunk bufHi 10 = some (true, bufHi, allocJunk) :=
  ⟨⟨by decide, by decide, ⟨3, by decide, by decide⟩,
      (C2_sb_ensure_capacity_growth_rule 64 allocJunk bufHi 100 (by decide)).2 (by decide)
        ⟨3, by decide, by decide⟩ rfl⟩,
    (C2_sb_ensure_capacity_growth_rule 64 allocJunk bufHi 10 (by decide)).1 (by decide)⟩

/-! ## Reads and writes in a block -/

theorem peek_eq {m : List Nat} {off n : Nat} (h : off + n ≤ m.length) :
    peek m off n = some ((m.drop off).take n) := by
  simp [peek, h]

theorem poke_eq {m src : List Nat} {off : Nat} (h : off + src.length ≤ m.length) :
    poke m off src = some (m.take off ++ src ++ m.drop (off + src.length)) := by
  simp [poke, h]

theorem poke_length {m m1 src : List Nat} {off : Nat} (h : poke m off src = some m1) :
    m1.length = m.length := by
  unfold poke at h
  split at h
  · simp only [Option.some.injEq] at h
    subst h
    simp only [List.length_append, List.length_take, List.length_drop]
    omega
  · simp at h

/-! ## `sb_append_ex` -/

/-- The state after a successful `sb_append_ex`, given the outcome of the growth step. -/
theorem sb_append_ex_eq {w : Nat} {a a1 : Allocator} {sb sb1 : StringBuilder}
    {value : List Nat} {n : Nat} (hwf : WF sb) (hle : sb.length ≤ sb.capacity)
    (hn : 0 < n) (hsrc : n ≤ value.length) (hno : sb.length + n + 1 < 2 ^ w)
    (hgrow : sb_ensure_capacity w a sb (sb.length + n + 1) = some (true, sb1, a1)) :
    sb_append_ex w a sb value n =
      some ({ value := some (sb.content ++ value.take n ++
                0 :: sb1.block.drop (sb.length + n + 1)),
              length := sb.length + n, capacity := sb1.capacity }, a1) := by
  obtain ⟨hlen, hmin, hcap, hwf1, junk, hjunk⟩ := sb_ensure_capacity_true hwf hgrow
  have hm : sb1.value = some sb1.block := by
    cases hv : sb1.value with
    | none =>
      simp only [WF, StringBuilder.block, hv, Option.getD_none, List.length_nil] at hwf1
      omega
    | some m => simp [StringBuilder.block, hv]
  unfold WF at hwf hwf1
  have hblk : (sb.block ++ junk).length = sb1.capacity := by rw [← hjunk, hwf1]
  have htk : List.take sb.length (sb.block ++ junk) = sb.content := by
    rw [List.take_append_of_le_length (by omega)]
    rfl
  have hct : sb.content.length = sb.length := by
    simp only [StringBuilder.content, List.length_take]
    omega
  unfold sb_append_ex
  rw [if_pos hn, Nat.mod_eq_of_lt hno, hgrow]
  simp only [hm, hlen]
  rw [peek_eq (by omega), Nat.mod_eq_of_lt (by omega)]
  simp only [List.drop_zero]
  have hvl : (List.take n value).length = n := by
    rw [List.length_take]
    omega
  rw [poke_eq (by rw [hvl, hwf1]; omega)]
  simp only [hvl]
  rw [poke_eq (by
    simp only [List.length_append, List.length_take, List.length_drop, List.length_singleton,
      hwf1, hvl]
    omega)]
  simp only [hjunk, htk, List.length_singleton]
  have e1 : List.take (sb.length + n)
      (sb.content ++ List.take n value ++ List.drop (sb.length + n) (sb.block ++ junk)) =
      sb.content ++ List.take n value := by
    rw [List.take_left']
    simp only [List.length_append, hct, hvl]
  have e2 : List.drop (sb.length + n + 1)
      (sb.content ++ List.take n value ++ List.drop (sb.length + n) (sb.block ++ junk)) =
      List.drop (sb.length + n + 1) (sb.block ++ junk) := by
    rw [List.drop_append_eq_append_drop, List.drop_of_length_le (by
      simp only [List.length_append, hct, hvl]
      omega)]
    simp only [List.length_append, hct, hvl, List.nil_append, List.drop_drop]
    congr 1
    omega
  rw [e1, e2]
  simp

/-- What a successful `sb_append_ex` establishes, given the outcome of the growth step. -/
theorem sb_append_ex_spec {w : Nat} {a a1 : Allocator} {sb sb1 : StringBuilder}
    {value : List Nat} {n : Nat} (hwf : WF sb) (hle : sb.length ≤ sb.capacity)
    (hn : 0 < n) (hsrc : n ≤ value.length) (hno : sb.length + n + 1 < 2 ^ w)
    (hgrow : sb_ensure_capacity w a sb (sb.length + n + 1) = some (true, sb1, a1)) :
    ∃ sb2, sb_append_ex w a sb value n = some (sb2, a1) ∧
      sb2.content = sb.content ++ value.take n ∧ sb2.length = sb.length + n ∧
      sb2.capacity = sb1.capacity ∧ Inv sb2 := by
  obtain ⟨hlen, hmin, hcap, hwf1, junk, hjunk⟩ := sb_ensure_capacity_true hwf hgrow
  refine ⟨_, sb_append_ex_eq hwf hle hn hsrc hno hgrow, ?_, rfl, rfl, ?_⟩
  all_goals
    unfold WF at hwf hwf1
    have hct : sb.content.length = sb.length := by
      simp only [StringBuilder.content, List.length_take]
      omega
    have hvl : (List.take n value).length = n := by
      rw [List.length_take]
      omega
    have hcv : (sb.content ++ List.take n value).length = sb.length + n := by
      simp only [List.length_append, hct, hvl]
  · show List.take (sb.length + n) (sb.content ++ List.take n value ++ _) = _
    exact List.take_left' hcv
  · refine ⟨?_, ?_, ?_⟩
    · simp only [WF, StringBuilder.block, Option.getD_some, List.length_append,
        List.length_cons, List.length_drop, hct, hvl]
      simp only [StringBuilder.block] at hwf1
      omega
    · simp only
      omega
    · intro _
      show List.get? (sb.content ++ List.take n value ++ _) (sb.length + n) = some 0
      rw [← hcv, List.get?_eq_getElem?, List.getElem?_append_right (le_refl _)]
      simp

/-- C3: on a buffer satisfying the invariant, when the growth to `length + n + 1` succeeds
without `size_t` overflow, `sb_append_ex` with `n > 0` input bytes returns, the content is
the old content followed by the `n` input bytes, `length` has grown by exactly `n`, and the
byte at the new `length` is NUL. -/
theorem C3_sb_append_ex_appends_input (w : Nat) (a a1 : Allocator) (sb sb1 : StringBuilder)
    (value : List Nat) (n : Nat) (hinv : Inv sb) (hn : 0 < n) (hsrc : n ≤ value.length)
    (hno : sb.length + n + 1 < 2 ^ w)
    (hgrow : sb_ensure_capacity w a sb (sb.length + n + 1) = some (true, sb1, a1)) :
    ∃ sb2, sb_append_ex w a sb value n = some (sb2, a1) ∧
      sb2.content = sb.content ++ value.take n ∧ sb2.length = sb.length + n ∧
      sb2.block.get? sb2.length = some 0 := by
  obtain ⟨sb2, he, hc, hl, hcap, hinv2⟩ :=
    sb_append_ex_spec hinv.1 hinv.2.1 hn hsrc hno hgrow
  obtain ⟨-, hmin, -⟩ := sb_ensure_capacity_true hinv.1 hgrow
  exact ⟨sb2, he, hc, hl, hinv2.2.2 (by omega)⟩

/-- An instance of C3: appending twenty bytes `'a'` to `"hi"`, which grows the block. -/
theorem C3_sb_append_ex_appends_input_witness :
    Inv bufHi ∧ 20 ≤ (List.replicate 20 97).length ∧
    ∃ sb2, sb_append_ex 64 allocJunk bufHi (List.replicate 20 97) 20 =
        some (sb2, allocJunk.next) ∧
      sb2.content = bufHi.content ++ (List.replicate 20 97).take 20 ∧
      sb2.length = bufHi.length + 20 ∧ sb2.block.get? sb2.length = some 0 :=
  ⟨by decide, by decide,
    C3_sb_append_ex_appends_input 64 allocJunk allocJunk.next bufHi
      { value := some (bufHi.block ++ List.replicate 16 170), length := 2, capacity := 32 }
      (List.replicate 20 97) 20 (by decide) (by decide) (by decide) (by decide) rfl⟩

theorem poke_mid {A X Y R : List Nat} {off : Nat} (hA : A.length = off)
    (h : X.length = Y.length) : poke (A ++ X ++ R) off Y = some (A ++ Y ++ R) := by
  subst hA
  rw [poke_eq (by simp only [List.length_append]; omega)]
  have e1 : (A ++ X ++ R).take A.length = A := by
    rw [List.append_assoc]
    exact List.take_left' rfl
  have e2 : (A ++ X ++ R).drop (A.length + Y.length) = R :=
    List.drop_left' (by simp only [List.length_append]; omega)
  rw [e1, e2]

theorem peek_mid {A X R : List Nat} {off n : Nat} (hA : A.length = off) (hX : X.length = n) :
    peek (A ++ X ++ R) off n = some X := by
  subst hA hX
  rw [peek_eq (by simp only [List.length_append]; omega)]
  rw [List.append_assoc, List.drop_left' rfl, List.take_left' rfl]

theorem subw_eq {w a b : Nat} (hb : b ≤ a) (ha : a < 2 ^ w) : subw w a b = a - b := by
  unfold subw
  rw [Nat.mod_eq_of_lt (by omega : b < 2 ^ w)]
  have e : a + (2 ^ w - b) = (a - b) + 2 ^ w := by omega
  rw [e, Nat.add_mod_right, Nat.mod_eq_of_lt (by omega)]

/-- A block that holds the content `S` of a buffer and `k` further bytes. -/
theorem block_split {m : List Nat} {L k : Nat} (h : L + k ≤ m.length) :
    ∃ U R, m = m.take L ++ U ++ R ∧ U.length = k ∧ (m.take L).length = L ∧
      R = m.drop (L + k) := by
  refine ⟨(m.drop L).take k, m.drop (L + k), ?_, ?_, ?_, rfl⟩
  · rw [List.append_assoc, ← List.drop_drop, List.take_append_drop, List.take_append_drop]
  · simp only [List.length_take, List.length_drop]
    omega
  · simp only [List.length_take]
    omega

/-- The memory steps of the shifting branch of `sb_insert_ex`, on a block that holds
`A ++ B` followed by at least `n + 1` bytes. -/
theorem insert_steps (A B U R bytes : List Nat) (r : Nat) (hU : U.length = bytes.length) :
    peek (A ++ B ++ U ++ r :: R) A.length B.length = some B ∧
    ∃ m1 m2, poke (A ++ B ++ U ++ r :: R) (A.length + bytes.length) B = some m1 ∧
      poke m1 A.length bytes = some m2 ∧
      poke m2 (A.length + B.length + bytes.length) [0] = some (A ++ bytes ++ B ++ 0 :: R) := by
  constructor
  · rw [List.append_assoc (A ++ B)]
    exact peek_mid rfl rfl
  · have hlen : (B ++ U).length = bytes.length + B.length := by
      simp only [List.length_append]
      omega
    have hZ : B ++ U = (B ++ U).take bytes.length ++ (B ++ U).drop bytes.length :=
      (List.take_append_drop _ _).symm
    have hZ1 : ((B ++ U).take bytes.length).length = bytes.length := by
      rw [List.length_take]
      omega
    have hZ2 : ((B ++ U).drop bytes.length).length = B.length := by
      rw [List.length_drop]
      omega
    have e0 : A ++ B ++ U ++ r :: R =
        (A ++ (B ++ U).take bytes.length) ++ (B ++ U).drop bytes.length ++ r :: R := by
      rw [List.append_assoc A B U, List.append_assoc A ((B ++ U).take bytes.length), ← hZ]
    refine ⟨(A ++ (B ++ U).take bytes.length) ++ B ++ r :: R,
      A ++ bytes ++ (B ++ r :: R), ?_, ?_, ?_⟩
    · rw [e0]
      exact poke_mid (by simp only [List.length_append, hZ1]) hZ2
    · rw [List.append_assoc (A ++ _)]
      exact poke_mid rfl hZ1
    · have e1 : A ++ bytes ++ (B ++ r :: R) = (A ++ bytes ++ B) ++ [r] ++ R := by simp
      have e2 : A ++ bytes ++ B ++ 0 :: R = (A ++ bytes ++ B) ++ [0] ++ R := by simp
      rw [e1, e2]
      exact poke_mid (by simp only [List.length_append]; omega) rfl

/-- A block made of a content `c`, a terminator and further bytes is a buffer that
satisfies the invariant and has content `c`. -/
theorem inv_mk (c R : List Nat) (len cap : Nat) (hl : c.length = len)
    (hc : (c ++ 0 :: R).length = cap) :
    Inv { value := some (c ++ 0 :: R), length := len, capacity := cap } ∧
      StringBuilder.content { value := some (c ++ 0 :: R), length := len, capacity := cap }
        = c := by
  subst hl hc
  refine ⟨⟨rfl, ?_, ?_⟩, ?_⟩
  · simp only [List.length_append, List.length_cons]
    omega
  · intro _
    show List.get? (c ++ 0 :: R) c.length = some 0
    rw [List.get?_eq_getElem?, List.getElem?_append_right (le_refl _)]
    simp
  · show List.take c.length (c ++ 0 :: R) = c
    exact List.take_left' rfl

/-- The block after a successful growth step for `n` more bytes: the content, `n` bytes,
one more byte and the rest. -/
theorem grown_block {w : Nat} {a a1 : Allocator} {sb sb1 : StringBuilder} {n : Nat}
    (hwf : WF sb) (hle : sb.length ≤ sb.capacity)
    (hgrow : sb_ensure_capacity w a sb (sb.length + n + 1) = some (true, sb1, a1)) :
    ∃ U r R, sb1.value = some (sb.content ++ U ++ r :: R) ∧ U.length = n ∧
      sb.content.length = sb.length ∧ sb1.length = sb.length ∧
      (sb.content ++ U ++ r :: R).length = sb1.capacity ∧
      R = sb1.block.drop (sb.length + n + 1) := by
  obtain ⟨hlen, hmin, hcap, hwf1, junk, hjunk⟩ := sb_ensure_capacity_true hwf hgrow
  have hm : sb1.value = some sb1.block := by
    cases hv : sb1.value with
    | none =>
      simp only [WF, StringBuilder.block, hv, Option.getD_none, List.length_nil] at hwf1
      omega
    | some m => simp [StringBuilder.block, hv]
  unfold WF at hwf hwf1
  obtain ⟨U, R0, hsplit, hU, hS, hR0⟩ :=
    block_split (m := sb1.block) (L := sb.length) (k := n) (by omega)
  have htk : List.take sb.length sb1.block = sb.content := by
    rw [hjunk, List.take_append_of_le_length (by omega)]
    rfl
  rw [htk] at hsplit hS
  have hR0len : R0.length = sb1.capacity - (sb.length + n) := by
    rw [hR0, List.length_drop, hwf1]
  cases hR : R0 with
  | nil =>
    rw [hR] at hR0len
    simp only [List.length_nil] at hR0len
    omega
  | cons r R =>
    refine ⟨U, r, R, ?_, hU, hS, hlen, ?_, ?_⟩
    · rw [hm, hsplit, hR]
    · rw [← hR, ← hsplit, hwf1]
    · have : List.drop 1 R0 = R := by rw [hR]; rfl
      rw [← this, hR0, List.drop_drop]

/-- What a successful shifting `sb_insert_ex` establishes. -/
theorem sb_insert_ex_spec {w : Nat} {a a1 : Allocator} {sb sb1 : StringBuilder}
    {value : List Nat} {index n : Nat} (hwf : WF sb) (hle : sb.length ≤ sb.capacity)
    (hidx : index < sb.length) (hn : 0 < n) (hsrc : n ≤ value.length)
    (hno : sb.length + n + 1 < 2 ^ w)
    (hgrow : sb_ensure_capacity w a sb (sb.length + n + 1) = some (true, sb1, a1)) :
    ∃ sb2, sb_insert_ex w a sb index value n = some (sb2, a1) ∧
      sb2.content = sb.content.take index ++ value.take n ++ sb.content.drop index ∧
      sb2.length = sb.length + n ∧ sb2.capacity = sb1.capacity ∧ Inv sb2 := by
  obtain ⟨U, r, R, hval, hU, hS, hlen, hcap, -⟩ := grown_block hwf hle hgrow
  have hA : (sb.content.take index).length = index := by
    rw [List.length_take, hS]
    omega
  have hB : (sb.content.drop index).length = sb.length - index := by
    rw [List.length_drop, hS]
  have hbl : (value.take n).length = n := by
    rw [List.length_take]
    omega
  have hsteps := insert_steps (sb.content.take index) (sb.content.drop index) U R
    (value.take n) r (by rw [hU, hbl])
  rw [List.take_append_drop, hA, hB, hbl] at hsteps
  obtain ⟨hpk, m1, m2, h1, h2, h3⟩ := hsteps
  have e3 : index + (sb.length - index) + n = sb.length + n := by omega
  rw [e3] at h3
  have hres := inv_mk (sb.content.take index ++ value.take n ++ sb.content.drop index) R
    (sb.length + n) sb1.capacity
    (by simp only [List.length_append, hA, hB, hbl]; omega)
    (by
      rw [← hcap]
      simp only [List.length_append, List.length_cons, hA, hB, hbl, hU, hS]
      omega)
  refine ⟨_, ?_, hres.2, rfl, rfl, hres.1⟩
  unfold sb_insert_ex
  rw [if_pos hidx, if_pos hn, Nat.mod_eq_of_lt hno, hgrow]
  simp only [hval, hlen]
  rw [subw_eq (by omega) (by omega), hpk]
  simp only
  rw [Nat.mod_eq_of_lt (by omega), h1]
  simp only
  rw [peek_eq (by omega)]
  simp only [List.drop_zero]
  rw [h2]
  simp only
  rw [Nat.mod_eq_of_lt (by omega), h3]

/-- C4: when the growth step succeeds, `sb_insert_ex` of `n > 0` bytes at any index `i`
returns, the content is `S[0..j) ++ T ++ S[j..L)` with `j = min i L`, the length is `L + n`
and the terminator is at `L + n`; and for every `i >= L` the call is the call of
`sb_append_ex` with the same text (same result, same state). -/
theorem C4_sb_insert_ex_clamped_splice (w : Nat) (a a1 : Allocator) (sb sb1 : StringBuilder)
    (index : Nat) (value : List Nat) (n : Nat) (hinv : Inv sb) (hn : 0 < n)
    (hsrc : n ≤ value.length) (hno : sb.length + n + 1 < 2 ^ w)
    (hgrow : sb_ensure_capacity w a sb (sb.length + n + 1) = some (true, sb1, a1)) :
    (∃ sb2, sb_insert_ex w a sb index value n = some (sb2, a1) ∧
      sb2.content = sb.content.take (min index sb.length) ++ value.take n ++
        sb.content.drop (min index sb.length) ∧
      sb2.length = sb.length + n ∧ sb2.block.get? (sb.length + n) = some 0) ∧
    (sb.length ≤ index →
      sb_insert_ex w a sb index value n = sb_append_ex w a sb value n) := by
  have happ : sb.length ≤ index →
      sb_insert_ex w a sb index value n = sb_append_ex w a sb value n := by
    intro h
    unfold sb_insert_ex
    rw [if_neg (by omega)]
  obtain ⟨-, hmin, -⟩ := sb_ensure_capacity_true hinv.1 hgrow
  refine ⟨?_, happ⟩
  by_cases hidx : index < sb.length
  · obtain ⟨sb2, he, hc, hl, hcap, hinv2⟩ :=
      sb_insert_ex_spec hinv.1 hinv.2.1 hidx hn hsrc hno hgrow
    refine ⟨sb2, he, ?_, hl, ?_⟩
    · rw [hc, Nat.min_eq_left (by omega)]
    · rw [← hl]
      exact hinv2.2.2 (by omega)
  · obtain ⟨sb2, he, hc, hl, hcap, hinv2⟩ :=
      sb_append_ex_spec hinv.1 hinv.2.1 hn hsrc hno hgrow
    have hS : sb.content.length = sb.length := by
      have := hinv.1
      unfold WF at this
      simp only [StringBuilder.content, List.length_take]
      have := hinv.2.1
      omega
    refine ⟨sb2, ?_, ?_, hl, ?_⟩
    · rw [happ (by omega)]
      exact he
    · have e1 : List.take sb.length sb.content = sb.content :=
        List.take_of_length_le (by omega)
      have e2 : List.drop sb.length sb.content = [] := List.drop_of_length_le (by omega)
      rw [hc, Nat.min_eq_right (by omega), e1, e2, List.append_nil]
    · rw [← hl]
      exact hinv2.2.2 (by omega)

/-- An instance of C4: `Insert(1000, "X")` on `"ab"` yields `"abX"`, like the append, and
`Insert(1, "XYZ")` on `"ab"` yields `"aXYZb"`. -/
theorem C4_sb_insert_ex_clamped_splice_witness :
    ((∃ sb2, sb_insert_ex 64 allocJunk bufAb 1000 [88] 1 = some (sb2, allocJunk) ∧
        sb2.content = [97, 98, 88] ∧ sb2.length = 3 ∧ sb2.block.get? 3 = some 0) ∧
      sb_insert_ex 64 allocJunk bufAb 1000 [88] 1 = sb_append_ex 64 allocJunk bufAb [88] 1) ∧
    ∃ sb2, sb_insert_ex 64 allocJunk bufAb 1 [88, 89, 90] 3 = some (sb2, allocJunk) ∧
      sb2.content = [97, 88, 89, 90, 98] ∧ sb2.length = 5 ∧ sb2.block.get? 5 = some 0 :=
  have h := C4_sb_insert_ex_clamped_splice 64 allocJunk allocJunk bufAb bufAb 1000 [88] 1
    (by decide) (by decide) (by decide) (by decide) rfl
  have h1 := C4_sb_insert_ex_clamped_splice 64 allocJunk allocJunk bufAb bufAb 1 [88, 89, 90] 3
    (by decide) (by decide) (by decide) (by decide) rfl
  ⟨⟨h.1, h.2 (by decide)⟩, h1.1⟩

/-! ## `sb_remove` -/

theorem sb_remove_noop (w : Nat) (sb : StringBuilder) (index d : Nat)
    (h : sb.length ≤ index ∨ d = 0) : sb_remove w sb index d = some sb := by
  unfold sb_remove
  rw [if_pos h]

/-- The block of a buffer that satisfies the invariant and is not empty: the content,
the terminator and the rest. -/
theorem inv_block {sb : StringBuilder} (hinv : Inv sb) (hpos : 0 < sb.length) :
    ∃ R, sb.value = some (sb.content ++ 0 :: R) ∧ sb.content.length = sb.length ∧
      (sb.content ++ 0 :: R).length = sb.capacity := by
  obtain ⟨hwf, hle, hterm⟩ := hinv
  have hterm := hterm (by omega)
  unfold WF at hwf
  have hm : sb.value = some sb.block := by
    cases hv : sb.value with
    | none =>
      simp only [StringBuilder.block, hv, Option.getD_none, List.length_nil] at hwf
      omega
    | some m => simp [StringBuilder.block, hv]
  have hlt : sb.length < sb.block.length := by
    rw [List.get?_eq_getElem?] at hterm
    exact (List.getElem?_eq_some_iff.mp hterm).1
  have hS : sb.content.length = sb.length := by
    simp only [StringBuilder.content, List.length_take]
    omega
  have hdrop : sb.block.drop sb.length = 0 :: sb.block.drop (sb.length + 1) := by
    rw [List.get?_eq_getElem?] at hterm
    obtain ⟨h1, h2⟩ := List.getElem?_eq_some_iff.mp hterm
    rw [List.drop_eq_getElem_cons h1, h2]
  have hsplit : sb.block = sb.content ++ 0 :: sb.block.drop (sb.length + 1) := by
    rw [← hdrop]
    exact (List.take_append_drop _ _).symm
  refine ⟨sb.block.drop (sb.length + 1), ?_, hS, ?_⟩
  · rw [hm]
    exact congrArg some hsplit
  · rw [← hsplit, hwf]

/-- The memory steps of the shifting branch of `sb_remove`. -/
theorem remove_steps (A D C T : List Nat) (hD : 0 < D.length) :
    peek (A ++ D ++ C ++ T) (A.length + D.length) C.length = some C ∧
    ∃ m1 Z, poke (A ++ D ++ C ++ T) A.length C = some m1 ∧
      poke m1 (A.length + C.length) [0] = some (A ++ C ++ 0 :: Z) ∧
      (A ++ C ++ 0 :: Z).length = (A ++ D ++ C ++ T).length := by
  constructor
  · exact peek_mid (by simp only [List.length_append]) rfl
  · have hlen : (D ++ C).length = C.length + D.length := by
      simp only [List.length_append]
      omega
    have hZ1 : ((D ++ C).take C.length).length = C.length := by
      rw [List.length_take]
      omega
    have hZ2 : ((D ++ C).drop C.length).length = D.length := by
      rw [List.length_drop]
      omega
    have e0 : A ++ D ++ C ++ T =
        A ++ (D ++ C).take C.length ++ ((D ++ C).drop C.length ++ T) := by
      rw [List.append_assoc A D C, List.append_assoc A ((D ++ C).take C.length),
        ← List.append_assoc ((D ++ C).take C.length), List.take_append_drop,
        List.append_assoc A (D ++ C)]
    cases hz : (D ++ C).drop C.length with
    | nil =>
      rw [hz] at hZ2
      simp only [List.length_nil] at hZ2
      omega
    | cons z Z3 =>
      rw [hz] at e0 hZ2
      refine ⟨A ++ C ++ (z :: Z3 ++ T), Z3 ++ T, ?_, ?_, ?_⟩
      · rw [e0]
        exact poke_mid rfl hZ1
      · have e1 : A ++ C ++ (z :: Z3 ++ T) = (A ++ C) ++ [z] ++ (Z3 ++ T) := by simp
        have e2 : A ++ C ++ 0 :: (Z3 ++ T) = (A ++ C) ++ [0] ++ (Z3 ++ T) := by simp
        rw [e1, e2]
        exact poke_mid (by simp only [List.length_append]) rfl
      · simp only [List.length_append, List.length_cons] at hZ2 ⊢
        omega

/-- What the shifting branch of `sb_remove` establishes. -/
theorem sb_remove_interior {w : Nat} {sb : StringBuilder} {index d : Nat} (hinv : Inv sb)
    (hsz : sb.length < 2 ^ w) (hd : 0 < d) (hlt : index + d < sb.length) :
    ∃ sb2, sb_remove w sb index d = some sb2 ∧
      sb2.content = sb.content.take index ++ sb.content.drop (index + d) ∧
      sb2.length = sb.length - d ∧ sb2.capacity = sb.capacity ∧ Inv sb2 := by
  obtain ⟨R, hval, hS, hcap⟩ := inv_block hinv (by omega)
  have hA : (sb.content.take index).length = index := by
    rw [List.length_take, hS]
    omega
  have hD : ((sb.content.drop index).take d).length = d := by
    rw [List.length_take, List.length_drop, hS]
    omega
  have hC : (sb.content.drop (index + d)).length = sb.length - d - index := by
    rw [List.length_drop, hS]
    omega
  have hdec : sb.content = sb.content.take index ++ (sb.content.drop index).take d ++
      sb.content.drop (index + d) := by
    rw [List.append_assoc, ← List.drop_drop, List.take_append_drop, List.take_append_drop]
  obtain ⟨hpk, m1, Z, h1, h2, h3⟩ := remove_steps (sb.content.take index)
    ((sb.content.drop index).take d) (sb.content.drop (index + d)) (0 :: R) (by omega)
  rw [← hdec, hA, hD, hC] at hpk
  rw [← hdec, hA] at h1
  rw [hA, hC] at h2
  rw [← hdec, hcap] at h3
  have e3 : index + (sb.length - d - index) = sb.length - d := by omega
  rw [e3] at h2
  have hres := inv_mk (sb.content.take index ++ sb.content.drop (index + d)) Z
    (sb.length - d) sb.capacity
    (by simp only [List.length_append, hA, hC]; omega) h3
  refine ⟨_, ?_, hres.2, rfl, rfl, hres.1⟩
  unfold sb_remove
  rw [if_neg (by omega), hval]
  simp only [sb_remove_shift]
  rw [Nat.mod_eq_of_lt (by omega), if_pos hlt, subw_eq (by omega) hsz,
    subw_eq (by omega) (by omega), hpk]
  simp only
  rw [h1]
  simp only
  rw [h2]

/-- What the truncating branch of `sb_remove` establishes. -/
theorem sb_remove_clip {w : Nat} {sb : StringBuilder} {index d : Nat} (hinv : Inv sb)
    (hd : 0 < d) (hidx : index < sb.length) (hge : sb.length ≤ (index + d) % 2 ^ w) :
    ∃ sb2, sb_remove w sb index d = some sb2 ∧ sb2.content = sb.content.take index ∧
      sb2.length = index ∧ sb2.capacity = sb.capacity ∧ Inv sb2 := by
  obtain ⟨R, hval, hS, hcap⟩ := inv_block hinv (by omega)
  have hA : (sb.content.take index).length = index := by
    rw [List.length_take, hS]
    omega
  cases hB : sb.content.drop index with
  | nil =>
    have := congrArg List.length hB
    rw [List.length_drop, hS] at this
    simp only [List.length_nil] at this
    omega
  | cons x B =>
    have hdec : sb.content ++ 0 :: R =
        sb.content.take index ++ [x] ++ (B ++ 0 :: R) := by
      have e := List.take_append_drop index sb.content
      rw [hB] at e
      conv_lhs => rw [← e]
      simp only [List.append_assoc, List.singleton_append, List.cons_append, List.nil_append]
    have hp : poke (sb.content ++ 0 :: R) index [0] =
        some (sb.content.take index ++ [0] ++ (B ++ 0 :: R)) := by
      rw [hdec]
      exact poke_mid hA rfl
    have hres := inv_mk (sb.content.take index) (B ++ 0 :: R) index sb.capacity hA
      (by
        rw [← hcap, hdec]
        simp only [List.length_append, List.length_cons, List.length_nil]
        omega)
    refine ⟨_, ?_, hres.2, rfl, rfl, hres.1⟩
    unfold sb_remove
    rw [if_neg (by omega), hval]
    simp only [sb_remove_shift]
    rw [if_neg (by omega)]
    simp only
    rw [hp]
    simp

/-- C1 (evaluation at the failing input): after `sb_create`, a successful
`sb_ensure_capacity(&sb, 1)` whose allocator hands out a block of bytes `0xAA` returns
`true` with `capacity = 16 > 0`, `length = 0` and the byte at offset `length` equal to
`0xAA`: the state does not satisfy the buffer invariant. -/
theorem C1_sb_ensure_capacity_leaves_no_terminator :
    ∃ sb, (sb_ensure_capacity 64 allocJunk sb_create 1).map (fun r => (r.1, r.2.1)) =
        some (true, sb) ∧
      0 < sb.capacity ∧ sb.block.get? sb.length = some 170 ∧ ¬ Inv sb :=
  ⟨{ value := some (List.replicate 16 170), length := 0, capacity := 16 },
    rfl, by decide, by decide, by decide⟩

/-- C5 (evaluation at the failing input): on `"hello"` the call `sb_remove(&sb, 3, SIZE_MAX)`
with a 64-bit `size_t` has `index < length` and `index + length >= 5` as integers, yet it
yields the content `"helllo"` of length 6 instead of `"hel"` of length 3. -/
theorem C5_sb_remove_size_max_does_not_clip :
    3 < bufHello.length ∧ 0 < 2 ^ 64 - 1 ∧ bufHello.length ≤ 3 + (2 ^ 64 - 1) ∧
    sb_remove 64 bufHello 3 (2 ^ 64 - 1) =
      some { value := some ([104, 101, 108, 108, 108, 111, 0] ++ List.replicate 9 170),
             length := 6, capacity := 16 } := by
  decide

/-- C6: on a buffer satisfying the invariant, `sb_remove(i, d)` with `d > 0` and
`i + d < L` returns, the content is `S[0..i) ++ S[i+d..L)`, the length is `L - d`, the
capacity is unchanged and the terminator is at `L - d`; and for `i >= L` or `d = 0` the
buffer is returned unchanged. -/
theorem C6_sb_remove_interior (w : Nat) (sb : StringBuilder) (index d : Nat)
    (hinv : Inv sb) (hsz : sb.length < 2 ^ w) :
    (0 < d → index + d < sb.length →
      ∃ sb2, sb_remove w sb index d = some sb2 ∧
        sb2.content = sb.content.take index ++ sb.content.drop (index + d) ∧
        sb2.length = sb.length - d ∧ sb2.capacity = sb.capacity ∧
        sb2.block.get? (sb.length - d) = some 0) ∧
    (sb.length ≤ index ∨ d = 0 → sb_remove w sb index d = some sb) := by
  refine ⟨?_, sb_remove_noop w sb index d⟩
  intro hd hlt
  obtain ⟨sb2, he, hc, hl, hcap, hinv2⟩ := sb_remove_interior hinv hsz hd hlt
  refine ⟨sb2, he, hc, hl, hcap, ?_⟩
  rw [← hl]
  have := hinv.2.1
  exact hinv2.2.2 (by omega)

/-- An instance of C6: removing two bytes at offset 1 of `"hello"` leaves `"hlo"`, and a
removal at offset 5 changes nothing. -/
theorem C6_sb_remove_interior_witness :
    (∃ sb2, sb_remove 64 bufHello 1 2 = some sb2 ∧ sb2.content = [104, 108, 111] ∧
        sb2.length = 3 ∧ sb2.capacity = 16 ∧ sb2.block.get? 3 = some 0) ∧
    sb_remove 64 bufHello 5 2 = some bufHello :=
  have h := C6_sb_remove_interior 64 bufHello
  ⟨(h 1 2 (by decide) (by decide)).1 (by decide) (by decide),
    (h 5 2 (by decide) (by decide)).2 (Or.inl (by decide))⟩

/-! ## Insertion followed by removal -/

/-- C9 (counterexample): on `"ab"`, `sb_insert_ex(1000, "X", 1)` appends and the following
`sb_remove(1000, 1)` is a no-op, so the content is `"abX"` and not `"ab"`. -/
theorem C9_insert_remove_past_end_counterexample :
    ∃ sb1 sb2, sb_insert_ex 64 allocJunk bufAb 1000 [88] 1 = some (sb1, allocJunk) ∧
      sb_remove 64 sb1 1000 1 = some sb2 ∧ sb2.content = [97, 98, 88] ∧
      sb2.content ≠ bufAb.content ∧ sb2.length ≠ bufAb.length :=
  ⟨{ value := some ([97, 98, 88, 0] ++ List.replicate 12 170), length := 3, capacity := 16 },
    { value := some ([97, 98, 88, 0] ++ List.replicate 12 170), length := 3, capacity := 16 },
    rfl, by decide, by decide, by decide, by decide⟩

theorem sb_insert_ex_zero (w : Nat) (a : Allocator) (sb : StringBuilder) (index : Nat)
    (value : List Nat) : sb_insert_ex w a sb index value 0 = some (sb, a) := by
  unfold sb_insert_ex sb_append_ex
  simp

/-- C9 (amended): on a buffer satisfying the invariant, for every index `i <= L` and every
text of `n` bytes, when the growth step (taken only for `n > 0`) succeeds, `sb_insert_ex`
followed by `sb_remove(i, n)` returns a buffer with the original content and length. -/
theorem C9_insert_remove_inverse_within_length (w : Nat) (a a1 : Allocator)
    (sb sb1 : StringBuilder) (index : Nat) (value : List Nat) (n : Nat) (hinv : Inv sb)
    (hidx : index ≤ sb.length) (hsrc : n ≤ value.length) (hno : sb.length + n + 1 < 2 ^ w)
    (hgrow : 0 < n →
      sb_ensure_capacity w a sb (sb.length + n + 1) = some (true, sb1, a1)) :
    ∃ sb2 a2 sb3, sb_insert_ex w a sb index value n = some (sb2, a2) ∧
      sb_remove w sb2 index n = some sb3 ∧ sb3.content = sb.content ∧
      sb3.length = sb.length := by
  rcases Nat.eq_zero_or_pos n with hn | hn
  · subst hn
    exact ⟨sb, a, sb, sb_insert_ex_zero w a sb index value,
      sb_remove_noop w sb index 0 (Or.inr rfl), rfl, rfl⟩
  · have hS : sb.content.length = sb.length := by
      have h1 := hinv.1
      have h2 := hinv.2.1
      unfold WF at h1
      simp only [StringBuilder.content, List.length_take]
      omega
    have hbl : (value.take n).length = n := by
      rw [List.length_take]
      omega
    rcases Nat.lt_or_ge index sb.length with hlt | hge
    · obtain ⟨sb2, he, hc, hl, -, hinv2⟩ :=
        sb_insert_ex_spec hinv.1 hinv.2.1 hlt hn hsrc hno (hgrow hn)
      obtain ⟨sb3, hr, hc3, hl3, -, -⟩ :=
        @sb_remove_interior w sb2 index n hinv2 (by omega) hn (by omega)
      refine ⟨sb2, a1, sb3, he, hr, ?_, by omega⟩
      have hA : (sb.content.take index).length = index := by
        rw [List.length_take, hS]
        omega
      have e1 : List.take index sb2.content = sb.content.take index := by
        rw [hc, List.append_assoc]
        exact List.take_left' hA
      have e2 : List.drop (index + n) sb2.content = sb.content.drop index := by
        rw [hc]
        exact List.drop_left' (by simp only [List.length_append, hA, hbl])
      rw [hc3, e1, e2, List.take_append_drop]
    · have hidx2 : index = sb.length := by omega
      subst hidx2
      have happ : sb_insert_ex w a sb sb.length value n = sb_append_ex w a sb value n := by
        unfold sb_insert_ex
        rw [if_neg (by omega)]
      obtain ⟨sb2, he, hc, hl, -, hinv2⟩ :=
        sb_append_ex_spec hinv.1 hinv.2.1 hn hsrc hno (hgrow hn)
      obtain ⟨sb3, hr, hc3, hl3, -, -⟩ :=
        @sb_remove_clip w sb2 sb.length n hinv2 hn (by omega)
          (by rw [Nat.mod_eq_of_lt (by omega)]; omega)
      refine ⟨sb2, a1, sb3, by rw [happ]; exact he, hr, ?_, hl3⟩
      rw [hc3, hc]
      exact List.take_left' hS

/-- An instance of the amended C9: inserting `"XY"` at offset 1 of `"hello"` and removing
two bytes at offset 1. -/
theorem C9_insert_remove_inverse_within_length_witness :
    ∃ sb2 a2 sb3, sb_insert_ex 64 allocJunk bufHello 1 [88, 89] 2 = some (sb2, a2) ∧
      sb_remove 64 sb2 1 2 = some sb3 ∧ sb3.content = bufHello.content ∧
      sb3.length = bufHello.length :=
  C9_insert_remove_inverse_within_length 64 allocJunk allocJunk bufHello bufHello 1 [88, 89] 2
    (by decide) (by decide) (by decide) (by decide) (fun _ => rfl)

/-! ## Operations under an allocator that always succeeds -/

theorem Allocator.succeeds_next {a : Allocator} (h : a.succeeds) : a.next.succeeds :=
  fun i => h (i + 1)

theorem Fits.mono {w n k : Nat} (h : Fits w n) (hk : k ≤ n) : Fits w k := by
  obtain ⟨j, h1, h2⟩ := h
  exact ⟨j, h1, by omega⟩

theorem Fits.lt {w n : Nat} (h : Fits w n) : n < 2 ^ w := by
  obtain ⟨j, h1, h2⟩ := h
  omega

theorem sb_ensure_capacity_succeeds {w : Nat} {a : Allocator} (sb : StringBuilder)
    {min : Nat} (ha : a.succeeds) (hfit : Fits w min) :
    ∃ sb1 a1, sb_ensure_capacity w a sb min = some (true, sb1, a1) ∧ a1.succeeds := by
  rcases Nat.lt_or_ge sb.capacity min with hlt | hge
  · obtain ⟨junk, hj⟩ := Option.isSome_iff_exists.mp (ha 0)
    obtain ⟨k, -, he⟩ := sb_ensure_capacity_grow w a junk sb min hlt hfit hj
    exact ⟨_, _, he, Allocator.succeeds_next ha⟩
  · exact ⟨sb, a, sb_ensure_capacity_noop w a sb min hge, ha⟩

/-- A non-empty `sb_append_ex` under an allocator that always succeeds. -/
theorem sb_append_ex_ok {w : Nat} {a : Allocator} {sb : StringBuilder} {value : List Nat}
    {n : Nat} (hinv : Inv sb) (ha : a.succeeds) (hfit : Fits w (sb.length + n + 1))
    (hn : 0 < n) (hsrc : n ≤ value.length) :
    ∃ sb2 a2, sb_append_ex w a sb value n = some (sb2, a2) ∧
      sb2.content = sb.content ++ value.take n ∧ sb2.length = sb.length + n ∧
      Inv sb2 ∧ a2.succeeds := by
  obtain ⟨sb1, a1, hgrow, ha1⟩ := sb_ensure_capacity_succeeds sb ha hfit
  obtain ⟨sb2, he, hc, hl, -, hinv2⟩ :=
    sb_append_ex_spec hinv.1 hinv.2.1 hn hsrc hfit.lt hgrow
  exact ⟨sb2, a1, he, hc, hl, hinv2, ha1⟩

theorem sb_append_ex_zero (w : Nat) (a : Allocator) (sb : StringBuilder) (value : List Nat) :
    sb_append_ex w a sb value 0 = some (sb, a) := by
  unfold sb_append_ex
  simp

/-- The calls `sb_append_char(c_1)`, ..., `sb_append_char(c_n)` on non-NUL characters. -/
theorem appendChars_spec (w : Nat) :
    ∀ (cs : List Nat) (a : Allocator) (sb : StringBuilder), Inv sb → a.succeeds →
      Fits w (sb.length + cs.length + 1) → (∀ c, c ∈ cs → c ≠ 0) →
      ∃ sb2 a2, appendChars w a sb cs = some (sb2, a2) ∧
        sb2.content = sb.content ++ cs ∧ sb2.length = sb.length + cs.length ∧
        Inv sb2 ∧ a2.succeeds
  | [], a, sb, hinv, ha, _, _ => ⟨sb, a, rfl, by simp, rfl, hinv, ha⟩
  | c :: cs, a, sb, hinv, ha, hfit, hnz => by
    have hc : c ≠ 0 := hnz c (List.mem_cons_self c cs)
    simp only [List.length_cons] at hfit
    obtain ⟨sb1, a1, he, hcont, hlen, hinv1, ha1⟩ :=
      @sb_append_ex_ok w a sb [c] 1 hinv ha (hfit.mono (by omega))
        (by decide) (by simp)
    obtain ⟨sb2, a2, he2, hcont2, hlen2, hinv2, ha2⟩ :=
      appendChars_spec w cs a1 sb1 hinv1 ha1 (hfit.mono (by omega))
        (fun x hx => hnz x (List.mem_cons_of_mem c hx))
    refine ⟨sb2, a2, ?_, ?_, ?_, hinv2, ha2⟩
    · unfold appendChars sb_append_char
      rw [if_pos hc, he]
      exact he2
    · rw [hcont2, hcont]
      simp
    · rw [hlen2, hlen, List.length_cons]
      omega

/-- C10: from a buffer satisfying the invariant, with every allocation succeeding and the
needed size `length + n + 1` reachable by doubling from 16 within `size_t`, the calls
`sb_append_char(c_1)`, ..., `sb_append_char(c_n)` on non-NUL characters and the single call
`sb_append_ex` of the `n`-character sequence both return, with the same content (the old
content followed by the characters) and the same length. -/
theorem C10_append_chars_equals_bulk_append (w : Nat) (a : Allocator) (sb : StringBuilder)
    (cs : List Nat) (hinv : Inv sb) (ha : a.succeeds)
    (hfit : Fits w (sb.length + cs.length + 1)) (hnz : ∀ c, c ∈ cs → c ≠ 0) :
    ∃ s1 a1 s2 a2, appendChars w a sb cs = some (s1, a1) ∧
      sb_append_ex w a sb cs cs.length = some (s2, a2) ∧
      s1.content = s2.content ∧ s1.length = s2.length ∧
      s1.content = sb.content ++ cs ∧ s1.length = sb.length + cs.length := by
  obtain ⟨s1, a1, h1, hc1, hl1, -, -⟩ := appendChars_spec w cs a sb hinv ha hfit hnz
  rcases Nat.eq_zero_or_pos cs.length with h0 | hpos
  · have hnil : cs = [] := List.length_eq_zero.mp h0
    subst hnil
    refine ⟨s1, a1, sb, a, h1, sb_append_ex_zero w a sb [], ?_, ?_, hc1, hl1⟩
    · rw [hc1]
      simp
    · rw [hl1]
      rfl
  · obtain ⟨s2, a2, h2, hc2, hl2, -, -⟩ :=
      @sb_append_ex_ok w a sb cs cs.length hinv ha hfit hpos (le_refl _)
    rw [List.take_length] at hc2
    exact ⟨s1, a1, s2, a2, h1, h2, by rw [hc1, hc2], by rw [hl1, hl2], hc1, hl1⟩

/-- An instance of C10: appending `'a'`, `'b'`, ..., twenty characters in all, to `"hi"`. -/
theorem C10_append_chars_equals_bulk_append_witness :
    ∃ s1 a1 s2 a2, appendChars 64 allocJunk bufHi (List.range' 97 20) = some (s1, a1) ∧
      sb_append_ex 64 allocJunk bufHi (List.range' 97 20) (List.range' 97 20).length =
        some (s2, a2) ∧
      s1.content = s2.content ∧ s1.length = s2.length ∧
      s1.content = bufHi.content ++ List.range' 97 20 ∧
      s1.length = bufHi.length + (List.range' 97 20).length :=
  C10_append_chars_equals_bulk_append 64 allocJunk bufHi (List.range' 97 20) (by decide)
    (fun _ => rfl) ⟨1, by decide, by decide⟩ (by decide)

/-! ## Strings and the search -/

theorem cstr_append_nul : ∀ (t r : List Nat), (∀ c, c ∈ t → c ≠ 0) →
    cstr (t ++ 0 :: r) = some t
  | [], r, _ => by simp [cstr]
  | c :: t, r, h => by
    have hc : c ≠ 0 := h c (List.mem_cons_self c t)
    have ih := cstr_append_nul t r (fun x hx => h x (List.mem_cons_of_mem c hx))
    show cstr (c :: (t ++ 0 :: r)) = some (c :: t)
    unfold cstr
    rw [if_neg hc, ih]
    rfl

theorem cstr_eq_some : ∀ (s t : List Nat), cstr s = some t →
    (∀ c, c ∈ t → c ≠ 0) ∧ ∃ r, s = t ++ 0 :: r
  | [], t, h => by simp [cstr] at h
  | c :: s, t, h => by
    unfold cstr at h
    split at h
    · rename_i hc
      simp only [Option.some.injEq] at h
      subst h hc
      exact ⟨by simp, s, rfl⟩
    · rename_i hc
      cases hs : cstr s with
      | none => simp [hs] at h
      | some t1 =>
        simp only [hs, Option.map_some', Option.some.injEq] at h
        subst h
        obtain ⟨h1, r, h2⟩ := cstr_eq_some s t1 hs
        refine ⟨?_, r, by rw [h2]; rfl⟩
        intro x hx
        rcases List.mem_cons.mp hx with rfl | hx
        · exact hc
        · exact h1 x hx

theorem isPrefixOf_true_iff (o h : List Nat) : o.isPrefixOf h = true ↔ ∃ t, h = o ++ t := by
  rw [ List.isPrefixOf_iff_prefix]
  constructor
  · rintro ⟨t, rfl⟩
    exact ⟨t, rfl⟩
  · rintro ⟨t, rfl⟩
    exact ⟨t, rfl⟩

/-- A found occurrence lies inside the text and splits it. -/
theorem findSub_some (o : List Nat) : ∀ (h : List Nat) (p : Nat), findSub o h = some p →
    p + o.length ≤ h.length ∧ h = h.take p ++ o ++ h.drop (p + o.length)
  | [], p, hf => by
    unfold findSub at hf
    split at hf
    · rename_i ho
      simp only [Option.some.injEq] at hf
      subst hf ho
      simp
    · simp at hf
  | c :: cs, p, hf => by
    unfold findSub at hf
    split at hf
    · rename_i hpre
      simp only [Option.some.injEq] at hf
      subst hf
      obtain ⟨t, ht⟩ := (isPrefixOf_true_iff o (c :: cs)).mp hpre
      rw [ht]
      simp
    · cases hs : findSub o cs with
      | none => simp [hs] at hf
      | some p1 =>
        simp only [hs, Option.map_some', Option.some.injEq] at hf
        subst hf
        obtain ⟨h1, h2⟩ := findSub_some o cs p1 hs
        refine ⟨by simp only [List.length_cons]; omega, ?_⟩
        have e : p1 + 1 + o.length = (p1 + o.length) + 1 := by omega
        rw [e, List.take_succ_cons, List.drop_succ_cons, List.cons_append, List.cons_append,
          ← h2]

/-! ## The reference replacement -/

theorem replaceRef_nil (o nw : List Nat) (fuel : Nat) : replaceRef o nw fuel [] = [] := by
  cases fuel <;> rfl

/-- With enough fuel the reference replacement does not depend on the fuel. -/
theorem replaceRef_fuel (o nw : List Nat) (ho : o ≠ []) :
    ∀ (f1 f2 : Nat) (s : List Nat), s.length ≤ f1 → s.length ≤ f2 →
      replaceRef o nw f1 s = replaceRef o nw f2 s
  | _, _, [], _, _ => by rw [replaceRef_nil, replaceRef_nil]
  | 0, _, c :: cs, h1, _ => by simp at h1
  | _ + 1, 0, c :: cs, _, h2 => by simp at h2
  | f1 + 1, f2 + 1, c :: cs, h1, h2 => by
    simp only [List.length_cons] at h1 h2
    have hol : 0 < o.length := List.length_pos.mpr ho
    unfold replaceRef
    split
    · have hd : ((c :: cs).drop o.length).length ≤ cs.length := by
        simp only [List.length_drop, List.length_cons]
        omega
      rw [replaceRef_fuel o nw ho f1 f2 _ (by omega) (by omega)]
    · rw [replaceRef_fuel o nw ho f1 f2 cs (by omega) (by omega)]

/-- Where `old` does not occur the text is returned as it is. -/
theorem replaceRef_none (o nw : List Nat) : ∀ (fuel : Nat) (s : List Nat),
    findSub o s = none → replaceRef o nw fuel s = s
  | 0, _, _ => rfl
  | _ + 1, [], _ => rfl
  | fuel + 1, c :: cs, h => by
    unfold findSub at h
    split at h
    · simp at h
    · rename_i hpre
      have hcs : findSub o cs = none := by
        cases hs : findSub o cs with
        | none => rfl
        | some p => simp [hs] at h
      unfold replaceRef
      rw [if_neg hpre, replaceRef_none o nw fuel cs hcs]

/-- At the first occurrence of `old` the reference replacement copies what precedes it,
emits `new` and goes on after the occurrence. -/
theorem replaceRef_some (o nw : List Nat) (ho : o ≠ []) :
    ∀ (s : List Nat) (fuel p : Nat), s.length ≤ fuel → findSub o s = some p →
      replaceRef o nw fuel s = s.take p ++ nw ++ replaceRef o nw fuel (s.drop (p + o.length))
  | [], fuel, p, _, h => by
    unfold findSub at h
    rw [if_neg ho] at h
    simp at h
  | c :: cs, 0, p, hf, _ => by simp at hf
  | c :: cs, fuel + 1, p, hf, h => by
    simp only [List.length_cons] at hf
    have hol : 0 < o.length := List.length_pos.mpr ho
    unfold findSub at h
    split at h
    · rename_i hpre
      simp only [Option.some.injEq] at h
      subst h
      have hd : ((c :: cs).drop o.length).length ≤ fuel := by
        simp only [List.length_drop, List.length_cons]
        omega
      conv_lhs => unfold replaceRef
      rw [if_pos hpre, replaceRef_fuel o nw ho fuel (fuel + 1) _ hd (by omega)]
      simp
    · rename_i hpre
      cases hs : findSub o cs with
      | none => simp [hs] at h
      | some p1 =>
        simp only [hs, Option.map_some', Option.some.injEq] at h
        subst h
        have ih := replaceRef_some o nw ho cs fuel p1 (by omega) hs
        have hd : (cs.drop (p1 + o.length)).length ≤ fuel := by
          simp only [List.length_drop]
          omega
        conv_lhs => unfold replaceRef
        rw [if_neg hpre, ih, replaceRef_fuel o nw ho fuel (fuel + 1) _ hd (by omega)]
        have e : p1 + 1 + o.length = (p1 + o.length) + 1 := by omega
        rw [e, List.take_succ_cons, List.drop_succ_cons]
        simp

/-! ## `sb_replace`, equal lengths -/

theorem strlen_of_cstr {s t : List Nat} (h : cstr s = some t) : strlen s = some t.length := by
  simp [strlen, h]

theorem peek_cstr {s t : List Nat} (h : cstr s = some t) : peek s 0 t.length = some t := by
  obtain ⟨-, r, rfl⟩ := cstr_eq_some s t h
  have := peek_mid (A := []) (X := t) (R := 0 :: r) (n := t.length) rfl rfl
  simpa using this

theorem strstr_block {T R old o : List Nat} (hT : ∀ c, c ∈ T → c ≠ 0)
    (hold : cstr old = some o) : strstr (T ++ 0 :: R) old = some (findSub o T) := by
  unfold strstr
  rw [cstr_append_nul T R hT, hold]

theorem replaceEqLoop_done (old new : List Nat) (n1 n2 fuel : Nat) (m : List Nat) :
    replaceEqLoop old new n1 n2 fuel m none = some m := by
  cases fuel <;> rfl

/-- The equal-length loop of `sb_replace` on a block that holds the already scanned part
`P`, the text `T` still to scan, the terminator and the rest. -/
theorem replaceEqLoop_spec {old new o nw : List Nat} (R : List Nat)
    (hold : cstr old = some o) (ho : o ≠ []) (hnew : cstr new = some nw)
    (hlen : o.length = nw.length) :
    ∀ (fuel : Nat) (P T : List Nat) (p : Nat), T.length ≤ fuel → (∀ c, c ∈ T → c ≠ 0) →
      findSub o T = some p →
      replaceEqLoop old new o.length nw.length fuel (P ++ T ++ 0 :: R) (some (P.length + p)) =
        some (P ++ replaceRef o nw fuel T ++ 0 :: R)
  | 0, P, T, p, hf, _, hfind => by
    have hT : T = [] := List.length_eq_zero.mp (by omega)
    subst hT
    unfold findSub at hfind
    rw [if_neg ho] at hfind
    simp at hfind
  | fuel + 1, P, T, p, hf, hT, hfind => by
    have hol : 0 < o.length := List.length_pos.mpr ho
    obtain ⟨hp, hsplit⟩ := findSub_some o T p hfind
    have htk : (T.take p).length = p := by
      rw [List.length_take]
      omega
    have hT' : ∀ c, c ∈ T.drop (p + o.length) → c ≠ 0 :=
      fun c hc => hT c (List.mem_of_mem_drop hc)
    have hd : (T.drop (p + o.length)).length ≤ fuel := by
      rw [List.length_drop]
      omega
    have hblock : P ++ T ++ 0 :: R =
        (P ++ T.take p) ++ o ++ (T.drop (p + o.length) ++ 0 :: R) := by
      conv_lhs => rw [hsplit]
      simp only [List.append_assoc]
    have hpoke : poke (P ++ T ++ 0 :: R) (P.length + p) nw =
        some ((P ++ T.take p) ++ nw ++ (T.drop (p + o.length) ++ 0 :: R)) := by
      rw [hblock]
      exact poke_mid (by simp only [List.length_append, htk]) hlen
    have hdrop : List.drop (P.length + p + o.length)
        ((P ++ T.take p) ++ nw ++ (T.drop (p + o.length) ++ 0 :: R)) =
        T.drop (p + o.length) ++ 0 :: R :=
      List.drop_left' (by simp only [List.length_append, htk, hlen])
    rw [replaceRef_some o nw ho T (fuel + 1) p hf hfind,
      replaceRef_fuel o nw ho (fuel + 1) fuel _ (by omega) hd]
    unfold replaceEqLoop
    rw [peek_cstr hnew]
    simp only
    rw [hpoke]
    simp only
    rw [hdrop, strstr_block hT' hold]
    simp only
    cases hnext : findSub o (T.drop (p + o.length)) with
    | none =>
      rw [Option.map_none', replaceEqLoop_done, replaceRef_none o nw fuel _ hnext]
      simp only [List.append_assoc]
    | some p1 =>
      have ih := replaceEqLoop_spec R hold ho hnew hlen fuel (P ++ T.take p ++ nw)
        (T.drop (p + o.length)) p1 hd hT' hnext
      have e : (P ++ T.take p ++ nw).length + p1 = P.length + p + o.length + p1 := by
        simp only [List.length_append, htk, hlen]
      rw [e] at ih
      rw [Option.map_some']
      simp only [List.append_assoc] at ih ⊢
      exact ih

theorem replaceRef_length_eq (o nw : List Nat) (hlen : o.length = nw.length) :
    ∀ (fuel : Nat) (s : List Nat), (replaceRef o nw fuel s).length = s.length
  | 0, _ => rfl
  | _ + 1, [] => rfl
  | fuel + 1, c :: cs => by
    unfold replaceRef
    split
    · rename_i hpre
      obtain ⟨t, ht⟩ := (isPrefixOf_true_iff o (c :: cs)).mp hpre
      rw [List.length_append, replaceRef_length_eq o nw hlen fuel, ht, List.drop_left' rfl,
        List.length_append, hlen]
    · rw [List.length_cons, replaceRef_length_eq o nw hlen fuel, List.length_cons]

theorem inv_content_length {sb : StringBuilder} (hinv : Inv sb) :
    sb.content.length = sb.length := by
  have h1 := hinv.1
  have h2 := hinv.2.1
  unfold WF at h1
  simp only [StringBuilder.content, List.length_take]
  omega

/-- C8: on a non-empty buffer satisfying the invariant with NUL-free content, `sb_replace`
with a non-empty `old_value` and a `new_value` of the same length returns, leaves `length`
and `capacity` unchanged, consumes no allocation, and the content is the reference
non-overlapping left-to-right replacement. -/
theorem C8_sb_replace_equal_length_in_place (w : Nat) (a : Allocator) (sb : StringBuilder)
    (old new o nw : List Nat) (hinv : Inv sb) (hpos : 0 < sb.length)
    (hS : ∀ c, c ∈ sb.content → c ≠ 0) (hold : cstr old = some o) (ho : o ≠ [])
    (hnew : cstr new = some nw) (hlen : o.length = nw.length) :
    ∃ sb2, sb_replace w a sb (some old) (some new) = some (sb2, a) ∧
      sb2.length = sb.length ∧ sb2.capacity = sb.capacity ∧
      sb2.content = replaceAll o nw sb.content := by
  obtain ⟨R, hval, hSl, hcap⟩ := inv_block hinv hpos
  have hol : 0 < o.length := List.length_pos.mpr ho
  unfold sb_replace
  simp only
  rw [if_neg (by omega), strlen_of_cstr hold, strlen_of_cstr hnew, hval]
  simp only
  rw [strstr_block hS hold]
  cases hfind : findSub o sb.content with
  | none =>
    refine ⟨sb, rfl, rfl, rfl, ?_⟩
    unfold replaceAll
    rw [replaceRef_none o nw _ _ hfind]
  | some p =>
    simp only
    rw [if_neg (by omega), if_pos hlen]
    have hloop := replaceEqLoop_spec R hold ho hnew hlen ((sb.content ++ 0 :: R).length + 1)
      [] sb.content p (by simp only [List.length_append]; omega) hS hfind
    simp only [List.nil_append, List.length_nil, Nat.zero_add] at hloop
    rw [hloop]
    have hfuel : replaceRef o nw ((sb.content ++ 0 :: R).length + 1) sb.content =
        replaceAll o nw sb.content :=
      replaceRef_fuel o nw ho _ _ _ (by simp only [List.length_append]; omega) (le_refl _)
    rw [hfuel]
    have hl : (replaceAll o nw sb.content).length = sb.length := by
      unfold replaceAll
      rw [replaceRef_length_eq o nw hlen, hSl]
    refine ⟨_, rfl, rfl, rfl, ?_⟩
    show List.take sb.length (replaceAll o nw sb.content ++ 0 :: R) = _
    exact List.take_left' hl

/-- An instance of C8: replacing `"cat"` with `"dog"` in `"the cat sat"`. -/
theorem C8_sb_replace_equal_length_in_place_witness :
    ∃ sb2, sb_replace 64 allocJunk bufCat (some [99, 97, 116, 0]) (some [100, 111, 103, 0]) =
        some (sb2, allocJunk) ∧
      sb2.length = 11 ∧ sb2.capacity = 16 ∧
      sb2.content = [116, 104, 101, 32, 100, 111, 103, 32, 115, 97, 116] :=
  C8_sb_replace_equal_length_in_place 64 allocJunk bufCat [99, 97, 116, 0] [100, 111, 103, 0]
    [99, 97, 116] [100, 111, 103] (by decide) (by decide) (by decide) rfl (by decide) rfl rfl

/-! ## `sb_replace`, unequal lengths -/

/-- Any `sb_append_ex`, empty or not, under an allocator that always succeeds. -/
theorem sb_append_ex_total {w : Nat} {a : Allocator} {sb : StringBuilder}
    {value : List Nat} {n : Nat} (hinv : Inv sb) (ha : a.succeeds)
    (hfit : Fits w (sb.length + n + 1)) (hsrc : n ≤ value.length) :
    ∃ sb2 a2, sb_append_ex w a sb value n = some (sb2, a2) ∧
      sb2.content = sb.content ++ value.take n ∧ sb2.length = sb.length + n ∧
      Inv sb2 ∧ a2.succeeds := by
  rcases Nat.eq_zero_or_pos n with h0 | hpos
  · subst h0
    exact ⟨sb, a, sb_append_ex_zero w a sb value, by simp, rfl, hinv, ha⟩
  · exact sb_append_ex_ok hinv ha hfit hpos hsrc

theorem replaceNeLoop_done (w : Nat) (m old new : List Nat) (n1 n2 fuel : Nat)
    (a : Allocator) (tmp : StringBuilder) (start : Nat) :
    replaceNeLoop w m old new n1 n2 fuel a tmp start none = some (tmp, start, a) := by
  cases fuel <;> rfl

/-- The unequal-length loop of `sb_replace` on a block that holds the already scanned part
`Pre`, the text `T` still to scan, the terminator and the rest: at the exit `tmp` followed
by the unscanned text `Tf` is the old `tmp` followed by the replacement of `T`. -/
theorem replaceNeLoop_spec {w : Nat} {old new o nw : List Nat} (R : List Nat)
    (hold : cstr old = some o) (ho : o ≠ []) (hnew : cstr new = some nw) :
    ∀ (fuel : Nat) (a : Allocator) (tmp : StringBuilder) (Pre T : List Nat) (p : Nat),
      T.length ≤ fuel → (∀ c, c ∈ T → c ≠ 0) → findSub o T = some p → Inv tmp →
      a.succeeds → Fits w (tmp.length + (replaceRef o nw fuel T).length + 1) →
      ∃ tmp1 start1 a1 Tf,
        replaceNeLoop w (Pre ++ T ++ 0 :: R) old new o.length nw.length fuel a tmp
          Pre.length (some (Pre.length + p)) = some (tmp1, start1, a1) ∧
        Inv tmp1 ∧ a1.succeeds ∧ (Pre ++ T ++ 0 :: R).drop start1 = Tf ++ 0 :: R ∧
        start1 + Tf.length = Pre.length + T.length ∧ (∀ c, c ∈ Tf → c ≠ 0) ∧
        tmp1.content ++ Tf = tmp.content ++ replaceRef o nw fuel T
  | 0, a, tmp, Pre, T, p, hf, _, hfind, _, _, _ => by
    have hT : T = [] := List.length_eq_zero.mp (by omega)
    subst hT
    unfold findSub at hfind
    rw [if_neg ho] at hfind
    simp at hfind
  | fuel + 1, a, tmp, Pre, T, p, hf, hT, hfind, hinv, ha, hfit => by
    have hol : 0 < o.length := List.length_pos.mpr ho
    obtain ⟨hp, hsplit⟩ := findSub_some o T p hfind
    obtain ⟨-, rnew, hnewsplit⟩ := cstr_eq_some new nw hnew
    have htk : (T.take p).length = p := by
      rw [List.length_take]
      omega
    have hT' : ∀ c, c ∈ T.drop (p + o.length) → c ≠ 0 :=
      fun c hc => hT c (List.mem_of_mem_drop hc)
    have hd : (T.drop (p + o.length)).length ≤ fuel := by
      rw [List.length_drop]
      omega
    have hdlen : (T.drop (p + o.length)).length = T.length - (p + o.length) :=
      List.length_drop _ _
    have href : replaceRef o nw (fuel + 1) T =
        T.take p ++ nw ++ replaceRef o nw fuel (T.drop (p + o.length)) := by
      rw [replaceRef_some o nw ho T (fuel + 1) p hf hfind,
        replaceRef_fuel o nw ho (fuel + 1) fuel _ (by omega) hd]
    rw [href] at hfit ⊢
    simp only [List.length_append, htk] at hfit
    have hblock : Pre ++ T ++ 0 :: R =
        (Pre ++ T.take p ++ o) ++ T.drop (p + o.length) ++ 0 :: R := by
      conv_lhs => rw [hsplit]
      simp only [List.append_assoc]
    have hdrop0 : (Pre ++ T ++ 0 :: R).drop Pre.length = T ++ 0 :: R := by
      rw [List.append_assoc]
      exact List.drop_left' rfl
    have hdrop1 : (Pre ++ T ++ 0 :: R).drop (Pre.length + p + o.length) =
        T.drop (p + o.length) ++ 0 :: R := by
      rw [hblock, List.append_assoc]
      exact List.drop_left' (by simp only [List.length_append, htk])
    obtain ⟨tmp1, a1, he1, hc1, hl1, hinv1, ha1⟩ :=
      @sb_append_ex_total w a tmp (T ++ 0 :: R) p hinv ha (hfit.mono (by omega))
        (by simp only [List.length_append]; omega)
    have htake1 : (T ++ 0 :: R).take p = T.take p :=
      List.take_append_of_le_length (by omega)
    rw [htake1] at hc1
    obtain ⟨tmp2, a2, he2, hc2, hl2, hinv2, ha2⟩ :=
      @sb_append_ex_total w a1 tmp1 new nw.length hinv1 ha1 (hfit.mono (by omega))
        (by rw [hnewsplit, List.length_append]; omega)
    have htake2 : new.take nw.length = nw := by
      rw [hnewsplit]
      exact List.take_left' rfl
    rw [htake2, hc1] at hc2
    unfold replaceNeLoop
    rw [hdrop0, Nat.add_sub_cancel_left, he1]
    simp only
    rw [he2]
    simp only
    rw [hdrop1, strstr_block hT' hold]
    simp only
    cases hnext : findSub o (T.drop (p + o.length)) with
    | none =>
      rw [Option.map_none', replaceNeLoop_done, replaceRef_none o nw fuel _ hnext]
      refine ⟨tmp2, Pre.length + p + o.length, a2, T.drop (p + o.length), rfl, hinv2, ha2,
        hdrop1, ?_, hT', ?_⟩
      · rw [hdlen]
        omega
      · rw [hc2]
        simp only [List.append_assoc]
    | some p1 =>
      have hfit2 : Fits w (tmp2.length +
          (replaceRef o nw fuel (T.drop (p + o.length))).length + 1) :=
        hfit.mono (by omega)
      obtain ⟨tmp3, start3, a3, Tf, he3, hinv3, ha3, hdrop3, hst3, hTf, hc3⟩ :=
        replaceNeLoop_spec R hold ho hnew fuel a2 tmp2 (Pre ++ T.take p ++ o)
          (T.drop (p + o.length)) p1 hd hT' hnext hinv2 ha2 hfit2
      have e : (Pre ++ T.take p ++ o).length = Pre.length + p + o.length := by
        simp only [List.length_append, htk]
      rw [e, ← hblock] at he3
      rw [← hblock] at hdrop3
      rw [Option.map_some']
      refine ⟨tmp3, start3, a3, Tf, he3, hinv3, ha3, hdrop3, ?_, hTf, ?_⟩
      · rw [hst3, e, hdlen]
        omega
      · rw [hc3, hc2]
        simp only [List.append_assoc]

theorem get?_of_drop {m T : List Nat} {start : Nat} (h : m.drop start = T) :
    m.get? start = T.head? := by
  rw [← h, List.get?_eq_getElem?, List.head?_drop]

/-- C7: on a non-empty buffer satisfying the invariant with NUL-free content, with every
allocation succeeding and the size of the result reachable by doubling from 16 within
`size_t`, `sb_replace` with a non-empty `old_value` and a `new_value` of another length
returns, and the content and the length are those of the reference non-overlapping
left-to-right replacement. -/
theorem C7_sb_replace_unequal_length (w : Nat) (a : Allocator) (sb : StringBuilder)
    (old new o nw : List Nat) (hinv : Inv sb) (hpos : 0 < sb.length)
    (hsz : sb.length < 2 ^ w) (hS : ∀ c, c ∈ sb.content → c ≠ 0)
    (hold : cstr old = some o) (ho : o ≠ []) (hnew : cstr new = some nw)
    (hne : nw.length ≠ o.length) (ha : a.succeeds)
    (hfit : Fits w ((replaceAll o nw sb.content).length + 1)) :
    ∃ sb2 a2, sb_replace w a sb (some old) (some new) = some (sb2, a2) ∧
      sb2.content = replaceAll o nw sb.content ∧
      sb2.length = (replaceAll o nw sb.content).length := by
  obtain ⟨R, hval, hSl, hcap⟩ := inv_block hinv hpos
  have hol : 0 < o.length := List.length_pos.mpr ho
  unfold sb_replace
  simp only
  rw [if_neg (by omega), strlen_of_cstr hold, strlen_of_cstr hnew, hval]
  simp only
  rw [strstr_block hS hold]
  cases hfind : findSub o sb.content with
  | none =>
    have e : replaceAll o nw sb.content = sb.content := by
      unfold replaceAll
      rw [replaceRef_none o nw _ _ hfind]
    exact ⟨sb, a, rfl, e.symm, by rw [e, hSl]⟩
  | some p =>
    simp only
    rw [if_neg (by omega), if_neg (by omega)]
    have hfuel : replaceRef o nw ((sb.content ++ 0 :: R).length + 1) sb.content =
        replaceAll o nw sb.content :=
      replaceRef_fuel o nw ho _ _ _ (by simp only [List.length_append]; omega) (le_refl _)
    obtain ⟨tmp1, start1, a1, Tf, he, hinv1, ha1, hdrop, hst, hTf, hc⟩ :=
      @replaceNeLoop_spec w old new o nw R hold ho hnew ((sb.content ++ 0 :: R).length + 1)
        a sb_create [] sb.content p (by simp only [List.length_append]; omega) hS hfind
        (by decide) ha (by
          rw [hfuel]
          exact hfit.mono (by
            show 0 + (replaceAll o nw sb.content).length + 1 ≤ _
            omega))
    simp only [List.nil_append, List.length_nil, Nat.zero_add] at he hdrop hst
    have hnil : sb_create.content = [] := rfl
    rw [hfuel, hnil, List.nil_append] at hc
    have hl1 := inv_content_length hinv1
    have hlen : tmp1.length + Tf.length = (replaceAll o nw sb.content).length := by
      rw [← hc, List.length_append, hl1]
    rw [he]
    simp only
    rw [get?_of_drop hdrop]
    cases hTf0 : Tf with
    | nil =>
      subst hTf0
      simp only [List.nil_append, List.head?_cons, ne_eq, not_true_eq_false, if_false]
      rw [List.append_nil] at hc
      simp only [List.length_nil] at hlen
      exact ⟨tmp1, a1, rfl, hc, by omega⟩
    | cons c rest =>
      have hc0 : c ≠ 0 := hTf c (by rw [hTf0]; exact List.mem_cons_self c rest)
      simp only [List.cons_append, List.head?_cons]
      rw [if_pos hc0, hdrop, subw_eq (by omega) hsz]
      have hn : sb.length - start1 = Tf.length := by omega
      rw [hn]
      obtain ⟨tmp2, a2, he2, hc2, hl2, -, -⟩ :=
        @sb_append_ex_total w a1 tmp1 (Tf ++ 0 :: R) Tf.length hinv1 ha1
          (hfit.mono (by omega)) (by simp only [List.length_append]; omega)
      rw [List.take_left' rfl, hc] at hc2
      exact ⟨tmp2, a2, he2, hc2, by omega⟩

/-- An instance of C7: replacing `"a"` with `"XY"` in `"banana"` yields `"bXYnXYnXY"`. -/
theorem C7_sb_replace_unequal_length_witness :
    ∃ sb2 a2, sb_replace 64 allocJunk bufBanana (some [97, 0]) (some [88, 89, 0]) =
        some (sb2, a2) ∧
      sb2.content = [98, 88, 89, 110, 88, 89, 110, 88, 89] ∧ sb2.length = 9 :=
  C7_sb_replace_unequal_length 64 allocJunk bufBanana [97, 0] [88, 89, 0] [97] [88, 89]
    (by decide) (by decide) (by decide) (by decide) rfl (by decide) rfl (by decide)
    (fun _ => rfl) ⟨0, by decide, by decide⟩

/-! ## Empty inputs -/

/-- C13: on every buffer state (the unallocated one included), at every index and with every
allocator, `sb_append(NULL)`, `sb_append("")`, `sb_append_ex(v, 0)`, `sb_insert(i, NULL)`,
`sb_insert(i, "")` and `sb_insert_ex(i, v, 0)` return the buffer as it was (value, length,
capacity and every byte) and leave the allocator untouched: no growth step is taken. -/
theorem C13_empty_input_noops (w : Nat) (a : Allocator) (sb : StringBuilder) (index : Nat)
    (v : List Nat) :
    sb_append w a sb none = some (sb, a) ∧
    (strlen v = some 0 → sb_append w a sb (some v) = some (sb, a)) ∧
    sb_append_ex w a sb v 0 = some (sb, a) ∧
    sb_insert w a sb index none = some (sb, a) ∧
    (strlen v = some 0 → sb_insert w a sb index (some v) = some (sb, a)) ∧
    sb_insert_ex w a sb index v 0 = some (sb, a) := by
  refine ⟨rfl, ?_, sb_append_ex_zero w a sb v, rfl, ?_, sb_insert_ex_zero w a sb index v⟩
  · intro h
    unfold sb_append
    simp only [h]
    exact sb_append_ex_zero w a sb v
  · intro h
    unfold sb_insert
    simp only [h]
    exact sb_insert_ex_zero w a sb index v

/-- An instance of C13: the empty string and `NULL` on the unallocated buffer, with an
allocator that would succeed. -/
theorem C13_empty_input_noops_witness :
    sb_append 64 allocJunk sb_create none = some (sb_create, allocJunk) ∧
    sb_append 64 allocJunk sb_create (some [0]) = some (sb_create, allocJunk) ∧
    sb_append_ex 64 allocJunk sb_create [0] 0 = some (sb_create, allocJunk) ∧
    sb_insert 64 allocJunk sb_create 7 none = some (sb_create, allocJunk) ∧
    sb_insert 64 allocJunk sb_create 7 (some [0]) = some (sb_create, allocJunk) ∧
    sb_insert_ex 64 allocJunk sb_create 7 [0] 0 = some (sb_create, allocJunk) :=
  have h := C13_empty_input_noops 64 allocJunk sb_create 7 [0]
  ⟨h.1, h.2.1 rfl, h.2.2.1, h.2.2.2.1, h.2.2.2.2.1 rfl, h.2.2.2.2.2⟩

/-! ## Capacity overflow -/

theorem pow16_mod (w i : Nat) :
    16 * 2 ^ i % 2 ^ w = 0 ∨ (16 * 2 ^ i % 2 ^ w = 16 * 2 ^ i ∧ 16 * 2 ^ i < 2 ^ w) := by
  rcases Nat.eq_zero_or_pos (16 * 2 ^ i % 2 ^ w) with h | h
  · exact Or.inl h
  · right
    have hi : i < w := pow_mod_pos_lt w i h
    have hlt : 16 * 2 ^ i < 2 ^ w := by
      by_contra hc
      have e : (16 : Nat) * 2 ^ i = 2 ^ (i + 4) := by
        rw [pow_add]
        norm_num
        exact Nat.mul_comm _ _
      rw [e] at hc h
      have hle : w ≤ i + 4 := by
        by_contra hw
        exact hc (Nat.pow_lt_pow_right (by decide) (by omega))
      have hd : 2 ^ w ∣ 2 ^ (i + 4) := Nat.pow_dvd_pow 2 hle
      have := Nat.mod_eq_zero_of_dvd hd
      omega
    exact ⟨Nat.mod_eq_of_lt hlt, hlt⟩

/-- Every value the doubling loop can end with is 0 or a representable `16 * 2 ^ k`. -/
theorem growLoop_shape (w min : Nat) :
    ∀ fuel i c, growLoop w min fuel (16 * 2 ^ i % 2 ^ w) = some c →
      c = 0 ∨ ∃ k, c = 16 * 2 ^ k ∧ 16 * 2 ^ k < 2 ^ w
  | 0, _, _, h => by simp [growLoop] at h
  | fuel + 1, i, c, h => by
    unfold growLoop at h
    split at h
    · have e : 16 * 2 ^ i % 2 ^ w * 2 % 2 ^ w = 16 * 2 ^ (i + 1) % 2 ^ w := by
        rw [Nat.mod_mul_mod, pow_succ, Nat.mul_assoc]
      rw [e] at h
      exact growLoop_shape w min fuel (i + 1) c h
    · simp only [Option.some.injEq] at h
      subst h
      rcases pow16_mod w i with h0 | ⟨h1, h2⟩
      · exact Or.inl h0
      · exact Or.inr ⟨i, h1, h2⟩

/-- C15: when `capacity < min_capacity` and every `16 * 2 ^ k` below `2 ^ w` is below
`min_capacity`, the doubling loop of `sb_ensure_capacity` ends with the candidate wrapped
to 0, and the call returns `false` with the buffer and the allocator untouched. -/
theorem C15_sb_ensure_capacity_overflow (w : Nat) (a : Allocator) (sb : StringBuilder)
    (min_capacity : Nat) (hlt : sb.capacity < min_capacity)
    (hbig : ∀ k, 16 * 2 ^ k < 2 ^ w → 16 * 2 ^ k < min_capacity) :
    growLoop w min_capacity (w + 1) (16 % 2 ^ w) = some 0 ∧
      sb_ensure_capacity w a sb min_capacity = some (false, sb, a) := by
  have h16 : 16 % 2 ^ w = 16 * 2 ^ 0 % 2 ^ w := by norm_num
  obtain ⟨c, hc⟩ := growLoop_terminates w min_capacity (w + 1) 0 (by omega) (by omega)
  rw [← h16] at hc
  have hex := growLoop_exit w min_capacity _ _ _ hc
  have hc0 : c = 0 := by
    have hc' := hc
    rw [h16] at hc'
    rcases growLoop_shape w min_capacity (w + 1) 0 c hc' with h0 | ⟨k, hk, hkw⟩
    · exact h0
    · have h1 := hbig k hkw
      have hpos : 0 < 16 * 2 ^ k := Nat.mul_pos (by decide) (Nat.pow_pos (by decide))
      exact absurd ⟨by omega, by omega⟩ hex
  subst hc0
  refine ⟨hc, ?_⟩
  unfold sb_ensure_capacity
  rw [if_pos hlt, hc]
  rfl

theorem pow16_le_half (w k : Nat) (h : 16 * 2 ^ k < 2 ^ w) : 16 * 2 ^ k ≤ 2 ^ (w - 1) := by
  have e : (16 : Nat) * 2 ^ k = 2 ^ (k + 4) := by
    rw [pow_add]
    norm_num
    exact Nat.mul_comm _ _
  rw [e] at h ⊢
  have hlt : k + 4 < w := (Nat.pow_lt_pow_iff_right (by decide)).mp h
  exact Nat.pow_le_pow_right (by decide) (by omega)

/-- An instance of C15: a request for `2 ^ 63 + 1` bytes with a 64-bit `size_t`. -/
theorem C15_sb_ensure_capacity_overflow_witness :
    growLoop 64 (2 ^ 63 + 1) (64 + 1) (16 % 2 ^ 64) = some 0 ∧
      sb_ensure_capacity 64 allocJunk bufHi (2 ^ 63 + 1) = some (false, bufHi, allocJunk) :=
  C15_sb_ensure_capacity_overflow 64 allocJunk bufHi (2 ^ 63 + 1) (by decide)
    (fun k hk => Nat.lt_succ_of_le (pow16_le_half 64 k hk))

/-! ## `sb_create_and_allocate` -/

theorem sb_ensure_capacity_fail (w : Nat) (a : Allocator) (sb : StringBuilder) (min : Nat)
    (hlt : sb.capacity < min) (ha : a 0 = none) :
    ∃ a1, sb_ensure_capacity w a sb min = some (false, sb, a1) := by
  obtain ⟨c, hc⟩ := growLoop_terminates w min (w + 1) 0 (by omega) (by omega)
  rw [pow_zero, Nat.mul_one] at hc
  unfold sb_ensure_capacity
  rw [if_pos hlt, hc]
  simp only
  split
  · exact ⟨a, rfl⟩
  · simp only [realloc, ha]
    exact ⟨a.next, rfl⟩

theorem inv_sb_init : Inv sb_init := by decide

/-- C14 (counterexample): `sb_create_and_allocate(16)` with a succeeding allocator returns
a buffer of capacity 16, which is less than `16 + 1`, and the following append of 16
characters reallocates: the capacity becomes 32. -/
theorem C14_create_and_allocate_16_counterexample :
    ∃ sb sb2, sb_create_and_allocate 64 allocJunk 16 = some (sb, allocJunk.next) ∧
      sb.capacity = 16 ∧ ¬ (16 + 1 ≤ sb.capacity) ∧
      sb_append_ex 64 allocJunk.next sb (List.replicate 16 97) 16 =
        some (sb2, allocJunk.next.next) ∧
      sb2.capacity = 32 ∧ sb2.capacity ≠ sb.capacity :=
  ⟨{ value := some (0 :: List.replicate 15 170), length := 0, capacity := 16 },
    { value := some (List.replicate 16 97 ++ 0 :: List.replicate 15 170), length := 16,
      capacity := 32 },
    rfl, rfl, by decide, rfl, rfl, by decide⟩

/-- C14 (amended): for `n > 0` reachable by doubling from 16 within `size_t` and a
succeeding allocation, `sb_create_and_allocate(n)` returns the empty string (length 0,
`value[0]` NUL, invariant satisfied) whose capacity is the least `16 * 2 ^ k >= n`, so that
a following append of `m` characters with `m + 1 <= n` keeps the capacity and asks the
allocator for nothing; for `n = 0`, and for `n > 0` when the allocation fails, it returns
the unallocated state. -/
theorem C14_create_and_allocate_reserves_capacity (w : Nat) (a : Allocator) (n : Nat) :
    (0 < n → Fits w n → (a 0).isSome = true →
      ∃ sb k, sb_create_and_allocate w a n = some (sb, a.next) ∧
        sb.length = 0 ∧ sb.block.get? 0 = some 0 ∧ Inv sb ∧
        sb.capacity = 16 * 2 ^ k ∧ n ≤ sb.capacity ∧
        (∀ j, n ≤ 16 * 2 ^ j → sb.capacity ≤ 16 * 2 ^ j) ∧
        ∀ (value : List Nat) (m : Nat), 0 < m → m + 1 ≤ n → m ≤ value.length →
          ∃ sb2, sb_append_ex w a.next sb value m = some (sb2, a.next) ∧
            sb2.capacity = sb.capacity ∧ sb2.content = value.take m) ∧
    (n = 0 → sb_create_and_allocate w a n = some (sb_init, a)) ∧
    (0 < n → a 0 = none → ∃ a1, sb_create_and_allocate w a n = some (sb_init, a1)) := by
  refine ⟨?_, ?_, ?_⟩
  · intro hn hfit ha
    obtain ⟨junk, hj⟩ := Option.isSome_iff_exists.mp ha
    have hlt : sb_init.capacity < n := hn
    obtain ⟨k, ⟨hmin, hleast⟩, he⟩ := sb_ensure_capacity_grow w a junk sb_init n hlt hfit hj
    have hpos : 0 < 16 * 2 ^ k := Nat.mul_pos (by decide) (Nat.pow_pos (by decide))
    cases hR : List.map junk (List.range (16 * 2 ^ k)) with
    | nil =>
      have := congrArg List.length hR
      simp only [List.length_map, List.length_range, List.length_nil] at this
      omega
    | cons r R =>
      have hlenR : (r :: R).length = 16 * 2 ^ k := by
        rw [← hR, List.length_map, List.length_range]
      have hblock : sb_init.block.take (16 * 2 ^ k) ++
          List.map junk (List.range (16 * 2 ^ k - sb_init.block.length)) = r :: R := by
        show List.take (16 * 2 ^ k) [] ++ List.map junk (List.range (16 * 2 ^ k - 0)) = r :: R
        rw [List.take_nil, List.nil_append, Nat.sub_zero, hR]
      rw [hblock] at he
      have hres := inv_mk [] R 0 (16 * 2 ^ k) rfl
        (by simp only [List.nil_append, List.length_cons] at hlenR ⊢; exact hlenR)
      simp only [List.nil_append] at hres
      have hcreate : sb_create_and_allocate w a n =
          some ({ value := some (0 :: R), length := 0, capacity := 16 * 2 ^ k }, a.next) := by
        unfold sb_create_and_allocate
        simp only
        rw [if_pos hn, he]
        simp only
        have hp : poke (r :: R) 0 [0] = some (0 :: R) :=
          @poke_mid [] [r] [0] R 0 rfl rfl
        rw [hp]
        rfl
      refine ⟨_, k, hcreate, rfl, ?_, hres.1, rfl, hmin, ?_, ?_⟩
      · rfl
      · intro j hj
        exact Nat.mul_le_mul_left 16 (Nat.pow_le_pow_right (by decide) (hleast j hj))
      · intro value m hm hmn hsrc
        have hnoop := sb_ensure_capacity_noop w a.next
          { value := some (0 :: R), length := 0, capacity := 16 * 2 ^ k } (0 + m + 1)
          (by show 0 + m + 1 ≤ 16 * 2 ^ k; omega)
        obtain ⟨sb2, he2, hc2, -, hcap2, -⟩ :=
          sb_append_ex_spec hres.1.1 hres.1.2.1 hm hsrc
            (by
              obtain ⟨j, hj1, hj2⟩ := hfit
              show 0 + m + 1 < 2 ^ w
              omega) hnoop
        refine ⟨sb2, he2, hcap2, ?_⟩
        rw [hc2, hres.2, List.nil_append]
  · intro hn
    subst hn
    rfl
  · intro hn ha
    obtain ⟨a1, he⟩ := sb_ensure_capacity_fail w a sb_init n hn ha
    refine ⟨a1, ?_⟩
    unfold sb_create_and_allocate
    simp only
    rw [if_pos hn, he]

/-- An instance of the amended C14: `sb_create_and_allocate(20)` reserves 32 bytes, an
append of 19 characters keeps them, and a failing allocator gives the unallocated state. -/
theorem C14_create_and_allocate_reserves_capacity_witness :
    (∃ sb k, sb_create_and_allocate 64 allocJunk 20 = some (sb, allocJunk.next) ∧
        sb.length = 0 ∧ sb.block.get? 0 = some 0 ∧ Inv sb ∧
        sb.capacity = 16 * 2 ^ k ∧ 20 ≤ sb.capacity ∧
        (∀ j, 20 ≤ 16 * 2 ^ j → sb.capacity ≤ 16 * 2 ^ j) ∧
        ∀ (value : List Nat) (m : Nat), 0 < m → m + 1 ≤ 20 → m ≤ value.length →
          ∃ sb2, sb_append_ex 64 allocJunk.next sb value m = some (sb2, allocJunk.next) ∧
            sb2.capacity = sb.capacity ∧ sb2.content = value.take m) ∧
    sb_create_and_allocate 64 allocJunk 0 = some (sb_init, allocJunk) ∧
    ∃ a1, sb_create_and_allocate 64 allocFail 20 = some (sb_init, a1) :=
  ⟨(C14_create_and_allocate_reserves_capacity 64 allocJunk 20).1 (by decide)
      ⟨1, by decide, by decide⟩ rfl,
    (C14_create_and_allocate_reserves_capacity 64 allocJunk 0).2.1 rfl,
    (C14_create_and_allocate_reserves_capacity 64 allocFail 20).2.2 (by decide) rfl⟩

/-! ## Removal followed by insertion -/

theorem inv_room {sb : StringBuilder} (hinv : Inv sb) (hpos : 0 < sb.length) :
    sb.length + 1 ≤ sb.capacity := by
  obtain ⟨R, -, hS, hcap⟩ := inv_block hinv hpos
  rw [← hcap, List.length_append, List.length_cons, hS]
  omega

/-- C20: on a buffer satisfying the invariant, for every `i < L` and `d > 0` with
`i + d <= L`, `sb_remove(i, d)` followed by `sb_insert_ex(i, R, d)`, where `R = S[i..i+d)`
is a copy of the removed bytes, returns a buffer with content `S`, length `L` and the
capacity it had; the allocator is not called. -/
theorem C20_remove_insert_inverse (w : Nat) (a : Allocator) (sb : StringBuilder)
    (index d : Nat) (hinv : Inv sb) (hcsz : sb.capacity < 2 ^ w) (hidx : index < sb.length)
    (hd : 0 < d) (hle : index + d ≤ sb.length) :
    ∃ sb1 sb2, sb_remove w sb index d = some sb1 ∧
      sb_insert_ex w a sb1 index ((sb.content.drop index).take d) d = some (sb2, a) ∧
      sb2.content = sb.content ∧ sb2.length = sb.length ∧ sb2.capacity = sb.capacity := by
  have hS := inv_content_length hinv
  have hroom := inv_room hinv (by omega)
  have hsz : sb.length < 2 ^ w := by omega
  have hRl : ((sb.content.drop index).take d).length = d := by
    rw [List.length_take, List.length_drop, hS]
    omega
  have hdec : sb.content.take index ++ (sb.content.drop index).take d ++
      sb.content.drop (index + d) = sb.content := by
    rw [List.append_assoc, ← List.drop_drop, List.take_append_drop, List.take_append_drop]
  have hA : (sb.content.take index).length = index := by
    rw [List.length_take, hS]
    omega
  have hRt : List.take d ((sb.content.drop index).take d) = (sb.content.drop index).take d :=
    List.take_of_length_le (by omega)
  rcases Nat.lt_or_ge (index + d) sb.length with hlt | hge
  · obtain ⟨sb1, hr, hc1, hl1, hcap1, hinv1⟩ := sb_remove_interior hinv hsz hd hlt
    have hnoop := sb_ensure_capacity_noop w a sb1 (sb1.length + d + 1) (by omega)
    obtain ⟨sb2, hi, hc2, hl2, hcap2, -⟩ :=
      @sb_insert_ex_spec w a a sb1 sb1 ((sb.content.drop index).take d) index d hinv1.1
        hinv1.2.1 (by omega) hd (by omega) (by omega) hnoop
    refine ⟨sb1, sb2, hr, hi, ?_, by omega, by omega⟩
    have e1 : List.take index sb1.content = sb.content.take index := by
      rw [hc1]
      exact List.take_left' hA
    have e2 : List.drop index sb1.content = sb.content.drop (index + d) := by
      rw [hc1]
      exact List.drop_left' hA
    rw [hc2, e1, e2, hRt, hdec]
  · have hIL : index + d = sb.length := by omega
    obtain ⟨sb1, hr, hc1, hl1, hcap1, hinv1⟩ :=
      @sb_remove_clip w sb index d hinv hd hidx (by rw [Nat.mod_eq_of_lt (by omega)]; omega)
    have hnoop := sb_ensure_capacity_noop w a sb1 (sb1.length + d + 1) (by omega)
    obtain ⟨sb2, hi, hc2, hl2, hcap2, -⟩ :=
      @sb_append_ex_spec w a a sb1 sb1 ((sb.content.drop index).take d) d hinv1.1
        hinv1.2.1 hd (by omega) (by omega) hnoop
    have happ : sb_insert_ex w a sb1 index ((sb.content.drop index).take d) d =
        sb_append_ex w a sb1 ((sb.content.drop index).take d) d := by
      unfold sb_insert_ex
      rw [if_neg (by omega)]
    refine ⟨sb1, sb2, hr, by rw [happ]; exact hi, ?_, by omega, by omega⟩
    have e3 : sb.content.drop (index + d) = [] :=
      List.drop_of_length_le (by omega)
    rw [e3, List.append_nil] at hdec
    rw [hc2, hc1, hRt, hdec]

/-- An instance of C20: removing and re-inserting `"el"` at offset 1 of `"hello"`, and
removing and re-inserting the final `"lo"`. -/
theorem C20_remove_insert_inverse_witness :
    (∃ sb1 sb2, sb_remove 64 bufHello 1 2 = some sb1 ∧
      sb_insert_ex 64 allocFail sb1 1 ((bufHello.content.drop 1).take 2) 2 =
        some (sb2, allocFail) ∧
      sb2.content = bufHello.content ∧ sb2.length = bufHello.length ∧
      sb2.capacity = bufHello.capacity) ∧
    ∃ sb1 sb2, sb_remove 64 bufHello 3 2 = some sb1 ∧
      sb_insert_ex 64 allocFail sb1 3 ((bufHello.content.drop 3).take 2) 2 =
        some (sb2, allocFail) ∧
      sb2.content = bufHello.content ∧ sb2.length = bufHello.length ∧
      sb2.capacity = bufHello.capacity :=
  ⟨C20_remove_insert_inverse 64 allocFail bufHello 1 2 (by decide) (by decide) (by decide)
      (by decide) (by decide),
    C20_remove_insert_inverse 64 allocFail bufHello 3 2 (by decide) (by decide) (by decide)
      (by decide) (by decide)⟩

/-! ## Formatted append -/

/-- A formatted append under an allocator that always succeeds, on either path. -/
theorem sb_append_format_list_ok {w : Nat} {a : Allocator} {sb : StringBuilder}
    {r : List Nat} (hinv : Inv sb) (ha : a.succeeds)
    (hfit : Fits w (sb.length + r.length + 1)) :
    ∃ sb2 a2, sb_append_format_list w a sb (some r) = some (sb2, a2) ∧
      sb2.content = sb.content ++ r ∧ sb2.length = sb.length + r.length ∧
      Inv sb2 ∧ a2.succeeds := by
  unfold sb_append_format_list vsnprintf
  simp only [Nat.reduceEqDiff, if_false]
  split
  · rename_i hsmall
    have htk : List.take (4096 - 1) r = r := List.take_of_length_le (by omega)
    rw [htk]
    obtain ⟨sb2, a2, he, hc, hl, hinv2, ha2⟩ :=
      @sb_append_ex_total w a sb (r ++ [0]) r.length hinv ha hfit
        (by simp only [List.length_append]; omega)
    rw [List.take_left' rfl] at hc
    exact ⟨sb2, a2, he, hc, hl, hinv2, ha2⟩
  · rename_i hbig
    obtain ⟨sb1, a1, hgrow, ha1⟩ := sb_ensure_capacity_succeeds sb ha hfit
    obtain ⟨U, r0, R, hval, hU, hS, hlen, hcap, -⟩ := grown_block hinv.1 hinv.2.1 hgrow
    have hlt := hfit.lt
    rw [Nat.mod_eq_of_lt hlt, hgrow]
    simp only [hval, hlen]
    rw [Nat.mod_eq_of_lt (by omega), if_neg (by omega), Nat.add_sub_cancel,
      List.take_of_length_le (le_refl _), Nat.mod_eq_of_lt (by omega)]
    have e1 : sb.content ++ U ++ r0 :: R = sb.content ++ (U ++ [r0]) ++ R := by simp
    have hp : poke (sb.content ++ U ++ r0 :: R) sb.length (r ++ [0]) =
        some (sb.content ++ (r ++ [0]) ++ R) := by
      rw [e1]
      exact poke_mid hS (by simp only [List.length_append, hU, List.length_singleton])
    rw [hp]
    have e2 : sb.content ++ (r ++ [0]) ++ R = (sb.content ++ r) ++ 0 :: R := by simp
    have hres := inv_mk (sb.content ++ r) R (sb.length + r.length) sb1.capacity
      (by rw [List.length_append, hS])
      (by
        rw [← hcap]
        simp only [List.length_append, List.length_cons, hU])
    rw [e2]
    exact ⟨_, a1, rfl, hres.2, rfl, hres.1, ha1⟩

/-- C17 (counterexample): the unallocated buffer of `sb_create` satisfies the invariant,
and with a succeeding allocator `sb_append_format_list` for the empty rendering (`m = 0`)
returns it unchanged: content `S ++ r` and length `L + m` hold, but no block is allocated,
so there is no byte at the new length and hence no terminator there. -/
theorem C17_empty_rendering_on_unallocated_counterexample :
    Inv sb_create ∧ allocJunk.succeeds ∧
    Fits 64 (sb_create.length + ([] : List Nat).length + 1) ∧
    ∃ sb2 a2, sb_append_format_list 64 allocJunk sb_create (some []) = some (sb2, a2) ∧
      sb2.content = sb_create.content ++ [] ∧
      sb2.length = sb_create.length + ([] : List Nat).length ∧
      sb2.value = none ∧ sb2.block.get? sb2.length = none ∧
      sb2.block.get? sb2.length ≠ some 0 :=
  ⟨by decide, fun _ => rfl, ⟨0, by decide, by decide⟩, sb_create, allocJunk, rfl, rfl, rfl,
    rfl, rfl, by decide⟩

/-- C17 (amended): on a buffer satisfying the invariant, with every allocation succeeding
and the needed size reachable by doubling from 16 within `size_t`, `sb_append_format_list`
for a rendering `r` of length `m` returns with content `S ++ r`, length `L + m` and the
invariant, whether `m < 4096` (scratch path) or `m >= 4096` (second rendering into the
tail of the buffer); the byte at the new length is NUL when `m > 0` or the buffer had
storage (`capacity > 0`). -/
theorem C17_sb_append_format_list_path_independent (w : Nat) (a : Allocator)
    (sb : StringBuilder) (r : List Nat) (hinv : Inv sb) (ha : a.succeeds)
    (hfit : Fits w (sb.length + r.length + 1)) :
    ∃ sb2 a2, sb_append_format_list w a sb (some r) = some (sb2, a2) ∧
      sb2.content = sb.content ++ r ∧ sb2.length = sb.length + r.length ∧ Inv sb2 ∧
      (0 < r.length ∨ 0 < sb.capacity → sb2.block.get? sb2.length = some 0) := by
  obtain ⟨sb2, a2, he, hc, hl, hinv2, -⟩ := sb_append_format_list_ok hinv ha hfit
  refine ⟨sb2, a2, he, hc, hl, hinv2, ?_⟩
  intro hpos
  apply hinv2.2.2
  rcases hpos with h | h
  · have := hinv2.2.1
    omega
  · rcases Nat.eq_zero_or_pos r.length with h0 | h0
    · have hr : r = [] := List.length_eq_zero.mp h0
      subst hr
      unfold sb_append_format_list vsnprintf at he
      simp only [List.length_nil, Nat.zero_lt_succ, if_true, Nat.reduceEqDiff, if_false,
        Nat.lt_irrefl, sb_append_ex] at he
      simp only [Option.some.injEq, Prod.mk.injEq] at he
      rw [← he.1]
      exact h
    · have := hinv2.2.1
      omega

/-- An instance of the amended C17: renderings of 4095 and of 4096 characters appended to
`"hi"`. -/
theorem C17_sb_append_format_list_path_independent_witness :
    (∃ sb2 a2, sb_append_format_list 64 allocJunk bufHi (some (List.replicate 4095 97)) =
        some (sb2, a2) ∧
      sb2.content = bufHi.content ++ List.replicate 4095 97 ∧
      sb2.length = bufHi.length + (List.replicate 4095 97).length ∧ Inv sb2 ∧
      (0 < (List.replicate 4095 97).length ∨ 0 < bufHi.capacity →
        sb2.block.get? sb2.length = some 0)) ∧
    ∃ sb2 a2, sb_append_format_list 64 allocJunk bufHi (some (List.replicate 4096 97)) =
        some (sb2, a2) ∧
      sb2.content = bufHi.content ++ List.replicate 4096 97 ∧
      sb2.length = bufHi.length + (List.replicate 4096 97).length ∧ Inv sb2 ∧
      (0 < (List.replicate 4096 97).length ∨ 0 < bufHi.capacity →
        sb2.block.get? sb2.length = some 0) :=
  ⟨C17_sb_append_format_list_path_independent 64 allocJunk bufHi (List.replicate 4095 97)
      (by decide) (fun _ => rfl)
      ⟨9, by decide, by rw [List.length_replicate]; decide⟩,
    C17_sb_append_format_list_path_independent 64 allocJunk bufHi (List.replicate 4096 97)
      (by decide) (fun _ => rfl)
      ⟨9, by decide, by rw [List.length_replicate]; decide⟩⟩

/-! ## The calls of `main` -/

theorem take_cstr {v t : List Nat} (h : cstr v = some t) :
    v.take t.length = t ∧ t.length ≤ v.length := by
  obtain ⟨-, r, rfl⟩ := cstr_eq_some v t h
  exact ⟨List.take_left' rfl, by simp only [List.length_append]; omega⟩

/-- The function `sb_append` on a C string under an allocator that always succeeds. -/
theorem sb_append_ok {w : Nat} {a : Allocator} {sb : StringBuilder} {v t : List Nat}
    (hinv : Inv sb) (ha : a.succeeds) (hv : cstr v = some t)
    (hfit : Fits w (sb.length + t.length + 1)) :
    ∃ sb2 a2, sb_append w a sb (some v) = some (sb2, a2) ∧
      sb2.content = sb.content ++ t ∧ sb2.length = sb.length + t.length ∧
      Inv sb2 ∧ a2.succeeds := by
  obtain ⟨htk, hle⟩ := take_cstr hv
  obtain ⟨sb2, a2, he, hc, hl, hinv2, ha2⟩ :=
    @sb_append_ex_total w a sb v t.length hinv ha hfit hle
  rw [htk] at hc
  refine ⟨sb2, a2, ?_, hc, hl, hinv2, ha2⟩
  unfold sb_append
  simp only [strlen_of_cstr hv]
  exact he

/-- The function `sb_append_line` on a C string under an allocator that always succeeds. -/
theorem sb_append_line_ok {w : Nat} {a : Allocator} {sb : StringBuilder} {v t : List Nat}
    (hinv : Inv sb) (ha : a.succeeds) (hv : cstr v = some t)
    (hfit : Fits w (sb.length + t.length + 2)) :
    ∃ sb2 a2, sb_append_line w a sb (some v) = some (sb2, a2) ∧
      sb2.content = sb.content ++ t ++ [10] ∧ sb2.length = sb.length + t.length + 1 ∧
      Inv sb2 ∧ a2.succeeds := by
  obtain ⟨sb1, a1, he1, hc1, hl1, hinv1, ha1⟩ := sb_append_ok hinv ha hv (hfit.mono (by omega))
  have hnl : cstr STRING_BUILDER_NEWLINE = some [10] := rfl
  obtain ⟨sb2, a2, he2, hc2, hl2, hinv2, ha2⟩ :=
    sb_append_ok hinv1 ha1 hnl
      (hfit.mono (by have := hl1; simp only [List.length_singleton]; omega))
  refine ⟨sb2, a2, ?_, by rw [hc2, hc1], by rw [hl2, hl1]; rfl, hinv2, ha2⟩
  unfold sb_append_line
  rw [he1]
  exact he2

/-- The function `sb_insert_ex` under an allocator that always succeeds, at any index. -/
theorem sb_insert_ex_total {w : Nat} {a : Allocator} {sb : StringBuilder}
    {value : List Nat} {index n : Nat} (hinv : Inv sb) (ha : a.succeeds)
    (hfit : Fits w (sb.length + n + 1)) (hsrc : n ≤ value.length) :
    ∃ sb2 a2, sb_insert_ex w a sb index value n = some (sb2, a2) ∧
      sb2.content = sb.content.take index ++ value.take n ++ sb.content.drop index ∧
      sb2.length = sb.length + n ∧ Inv sb2 ∧ a2.succeeds := by
  have hS := inv_content_length hinv
  rcases Nat.eq_zero_or_pos n with h0 | hpos
  · subst h0
    refine ⟨sb, a, sb_insert_ex_zero w a sb index value, ?_, rfl, hinv, ha⟩
    rw [List.take_zero, List.append_nil, List.take_append_drop]
  · rcases Nat.lt_or_ge index sb.length with hlt | hge
    · obtain ⟨sb1, a1, hgrow, ha1⟩ := sb_ensure_capacity_succeeds sb ha hfit
      obtain ⟨sb2, he, hc, hl, -, hinv2⟩ :=
        sb_insert_ex_spec hinv.1 hinv.2.1 hlt hpos hsrc hfit.lt hgrow
      exact ⟨sb2, a1, he, hc, hl, hinv2, ha1⟩
    · obtain ⟨sb2, a2, he, hc, hl, hinv2, ha2⟩ :=
        @sb_append_ex_ok w a sb value n hinv ha hfit hpos hsrc
      refine ⟨sb2, a2, ?_, ?_, hl, hinv2, ha2⟩
      · unfold sb_insert_ex
        rw [if_neg (by omega)]
        exact he
      · have e1 : List.take index sb.content = sb.content :=
          List.take_of_length_le (by omega)
        have e2 : List.drop index sb.content = [] := List.drop_of_length_le (by omega)
        rw [hc, e1, e2, List.append_nil]

/-- The function `sb_insert` on a C string under an allocator that always succeeds. -/
theorem sb_insert_ok {w : Nat} {a : Allocator} {sb : StringBuilder} {v t : List Nat}
    (index : Nat) (hinv : Inv sb) (ha : a.succeeds) (hv : cstr v = some t)
    (hfit : Fits w (sb.length + t.length + 1)) :
    ∃ sb2 a2, sb_insert w a sb index (some v) = some (sb2, a2) ∧
      sb2.content = sb.content.take index ++ t ++ sb.content.drop index ∧
      sb2.length = sb.length + t.length ∧ Inv sb2 ∧ a2.succeeds := by
  obtain ⟨htk, hle⟩ := take_cstr hv
  obtain ⟨sb2, a2, he, hc, hl, hinv2, ha2⟩ :=
    @sb_insert_ex_total w a sb v index t.length hinv ha hfit hle
  rw [htk] at hc
  refine ⟨sb2, a2, ?_, hc, hl, hinv2, ha2⟩
  unfold sb_insert
  simp only [strlen_of_cstr hv]
  exact he

/-- C16: from `sb_create()`, with every allocation succeeding, a `size_t` in which 76 bytes
are reachable by doubling from 16, and the formatting capability rendering the template
with (69, "nice") to the 38 characters of `renderedLine`, the calls
`sb_append("Some content...")`, `sb_append_line(" More content.")`, `sb_append_format(...)`
and `sb_insert(0, "First! ")` return, and the buffer holds exactly the 75 characters of
`expectedOutput`, with length 75 and the terminator at offset 75. -/
theorem C16_main_end_to_end (w : Nat) (a : Allocator) (ha : a.succeeds)
    (hfit : Fits w 76) :
    ∃ sb a1, main_calls w a (some renderedLine) = some (sb, a1) ∧
      sb.content = expectedOutput ∧ sb.length = 75 ∧ sb.block.get? 75 = some 0 := by
  have h1 : cstr strSomeContent = some (strSomeContent.take 15) := rfl
  have h2 : cstr strMoreContent = some (strMoreContent.take 14) := rfl
  have h4 : cstr strFirst = some (strFirst.take 7) := rfl
  have hl0 : sb_create.length = 0 := rfl
  obtain ⟨sb1, a1, he1, hc1, hl1, hinv1, ha1⟩ :=
    sb_append_ok (show Inv sb_create from inv_sb_init) ha h1 (hfit.mono (by decide))
  have hl1' : sb1.length = 15 := hl1
  obtain ⟨sb2, a2, he2, hc2, hl2, hinv2, ha2⟩ :=
    sb_append_line_ok hinv1 ha1 h2 (hfit.mono (by rw [hl1']; decide))
  have hl2' : sb2.length = 30 := by rw [hl2, hl1']; rfl
  obtain ⟨sb3, a3, he3, hc3, hl3, hinv3, ha3⟩ :=
    @sb_append_format_list_ok w a2 sb2 renderedLine hinv2 ha2
      (hfit.mono (by rw [hl2']; decide))
  have hl3' : sb3.length = 68 := by rw [hl3, hl2']; rfl
  obtain ⟨sb4, a4, he4, hc4, hl4, hinv4, ha4⟩ :=
    sb_insert_ok 0 hinv3 ha3 h4 (hfit.mono (by rw [hl3']; decide))
  have hl4' : sb4.length = 75 := by rw [hl4, hl3']; rfl
  refine ⟨sb4, a4, ?_, ?_, hl4', ?_⟩
  · unfold main_calls sb_append_format
    rw [he1]
    simp only
    rw [he2]
    simp only
    rw [he3]
    exact he4
  · have hc0 : sb_create.content = [] := rfl
    rw [hc4, hc3, hc2, hc1, hc0]
    rfl
  · rw [← hl4']
    have := hinv4.2.1
    exact hinv4.2.2 (by omega)

/-- An instance of C16: a 64-bit `size_t` and an allocator that hands out bytes `0xAA`. -/
theorem C16_main_end_to_end_witness :
    ∃ sb a1, main_calls 64 allocJunk (some renderedLine) = some (sb, a1) ∧
      sb.content = expectedOutput ∧ sb.length = 75 ∧ sb.block.get? 75 = some 0 :=
  C16_main_end_to_end 64 allocJunk (fun _ => rfl) ⟨3, by decide, by decide⟩

/-! ## The capacity under the operations -/

theorem sb_ensure_capacity_le {w : Nat} {a a1 : Allocator} {sb sb1 : StringBuilder}
    {min : Nat} {b : Bool} (h : sb_ensure_capacity w a sb min = some (b, sb1, a1)) :
    sb.capacity ≤ sb1.capacity ∧ sb1.length = sb.length := by
  unfold sb_ensure_capacity at h
  split at h
  · rename_i hlt
    split at h
    · simp at h
    · rename_i capacity hg
      have hex := growLoop_exit w min _ _ _ hg
      split at h
      · simp only [Option.some.injEq, Prod.mk.injEq] at h
        obtain ⟨-, rfl, -⟩ := h
        exact ⟨le_refl _, rfl⟩
      · split at h
        · simp only [Option.some.injEq, Prod.mk.injEq] at h
          obtain ⟨-, rfl, -⟩ := h
          exact ⟨le_refl _, rfl⟩
        · simp only [Option.some.injEq, Prod.mk.injEq] at h
          obtain ⟨-, rfl, -⟩ := h
          exact ⟨by simp only; omega, rfl⟩
  · simp only [Option.some.injEq, Prod.mk.injEq] at h
    obtain ⟨-, rfl, -⟩ := h
    exact ⟨le_refl _, rfl⟩

theorem sb_append_ex_capacity_le {w : Nat} {a a2 : Allocator} {sb sb2 : StringBuilder}
    {value : List Nat} {n : Nat} (h : sb_append_ex w a sb value n = some (sb2, a2)) :
    sb.capacity ≤ sb2.capacity := by
  unfold sb_append_ex at h
  split at h
  · split at h
    · simp at h
    · rename_i sb1 a1 he
      simp only [Option.some.injEq, Prod.mk.injEq] at h
      rw [← h.1]
      exact (sb_ensure_capacity_le he).1
    · rename_i sb1 a1 he
      have hle := (sb_ensure_capacity_le he).1
      repeat' split at h
      all_goals first
        | (simp at h; done)
        | (dsimp only at h
           split at h
           · simp at h
           · simp only [Option.some.injEq, Prod.mk.injEq] at h
             rw [← h.1]
             exact hle)
  · simp only [Option.some.injEq, Prod.mk.injEq] at h
    rw [← h.1]

theorem sb_insert_ex_capacity_le {w : Nat} {a a2 : Allocator} {sb sb2 : StringBuilder}
    {value : List Nat} {index n : Nat}
    (h : sb_insert_ex w a sb index value n = some (sb2, a2)) :
    sb.capacity ≤ sb2.capacity := by
  unfold sb_insert_ex at h
  split at h
  · split at h
    · split at h
      · simp at h
      · rename_i sb1 a1 he
        simp only [Option.some.injEq, Prod.mk.injEq] at h
        rw [← h.1]
        exact (sb_ensure_capacity_le he).1
      · rename_i sb1 a1 he
        have hle := (sb_ensure_capacity_le he).1
        repeat' split at h
        all_goals first
          | (simp at h; done)
          | (dsimp only at h
             split at h
             · simp at h
             · simp only [Option.some.injEq, Prod.mk.injEq] at h
               rw [← h.1]
               exact hle)
    · simp only [Option.some.injEq, Prod.mk.injEq] at h
      rw [← h.1]
  · exact sb_append_ex_capacity_le h

theorem sb_remove_capacity {w : Nat} {sb sb2 : StringBuilder} {index d : Nat}
    (h : sb_remove w sb index d = some sb2) : sb2.capacity = sb.capacity := by
  unfold sb_remove at h
  repeat' split at h
  all_goals first
    | (simp at h; done)
    | (simp only [Option.some.injEq] at h
       rw [← h])

theorem sb_clear_capacity {sb sb2 : StringBuilder} (h : sb_clear sb = some sb2) :
    sb2.capacity = sb.capacity := by
  unfold sb_clear at h
  repeat' split at h
  all_goals first
    | (simp at h; done)
    | (simp only [Option.some.injEq] at h
       rw [← h])

theorem sb_replace_equal_capacity {w : Nat} {a a2 : Allocator} {sb sb2 : StringBuilder}
    {old new : List Nat} (hlen : strlen old = strlen new)
    (h : sb_replace w a sb (some old) (some new) = some (sb2, a2)) :
    sb2.capacity = sb.capacity ∧ sb2.length = sb.length := by
  unfold sb_replace at h
  simp only at h
  split at h
  · simp only [Option.some.injEq, Prod.mk.injEq] at h
    rw [← h.1]
    exact ⟨rfl, rfl⟩
  · split at h
    · rename_i old_length new_length m ho hn hm
      rw [ho, hn] at hlen
      simp only [Option.some.injEq] at hlen
      split at h
      · simp at h
      · simp only [Option.some.injEq, Prod.mk.injEq] at h
        rw [← h.1]
        exact ⟨rfl, rfl⟩
      · split at h
        · simp only [Option.some.injEq, Prod.mk.injEq] at h
          rw [← h.1]
          exact ⟨rfl, rfl⟩
        · try rw [if_pos hlen] at h
          split at h
          · simp at h
          · simp only [Option.some.injEq, Prod.mk.injEq] at h
            rw [← h.1]
            exact ⟨rfl, rfl⟩
    · simp at h

/-- C11 (counterexample): on `"aaa"` (capacity 16) the unequal-length `sb_replace` of `"a"`
by `""` installs the temporary buffer, which was never allocated: the capacity drops from
16 to 0. -/
theorem C11_sb_replace_shrinks_capacity_counterexample :
    ∃ sb2 a2, sb_replace 64 allocJunk bufAaa (some [97, 0]) (some [0]) = some (sb2, a2) ∧
      sb2.capacity = 0 ∧ sb2.capacity < bufAaa.capacity :=
  ⟨sb_create, allocJunk, rfl, rfl, by decide⟩

/-- C11 (amended): on every buffer state, with every allocator and all arguments, the
capacity after `sb_ensure_capacity`, `sb_append_ex` and `sb_insert_ex` is at least the
capacity before, and the capacity after `sb_remove`, `sb_clear` and an `sb_replace` whose
two texts have the same length is the capacity before. -/
theorem C11_capacity_never_shrinks_in_place (w : Nat) (a : Allocator) (sb : StringBuilder) :
    (∀ min b sb1 a1, sb_ensure_capacity w a sb min = some (b, sb1, a1) →
      sb.capacity ≤ sb1.capacity) ∧
    (∀ value n sb1 a1, sb_append_ex w a sb value n = some (sb1, a1) →
      sb.capacity ≤ sb1.capacity) ∧
    (∀ index value n sb1 a1, sb_insert_ex w a sb index value n = some (sb1, a1) →
      sb.capacity ≤ sb1.capacity) ∧
    (∀ index d sb1, sb_remove w sb index d = some sb1 → sb1.capacity = sb.capacity) ∧
    (∀ sb1, sb_clear sb = some sb1 → sb1.capacity = sb.capacity) ∧
    (∀ old new sb1 a1, strlen old = strlen new →
      sb_replace w a sb (some old) (some new) = some (sb1, a1) →
      sb1.capacity = sb.capacity) :=
  ⟨fun _ _ _ _ h => (sb_ensure_capacity_le h).1,
    fun _ _ _ _ h => sb_append_ex_capacity_le h,
    fun _ _ _ _ _ h => sb_insert_ex_capacity_le h,
    fun _ _ _ h => sb_remove_capacity h,
    fun _ h => sb_clear_capacity h,
    fun _ _ _ _ hlen h => (sb_replace_equal_capacity hlen h).1⟩

/-- An instance of the amended C11: each of the six operations on `"hello"` or
`"the cat sat"` (capacity 16), the append being one that grows the block to 32 bytes. -/
theorem C11_capacity_never_shrinks_in_place_witness :
    (∃ sb1, sb_ensure_capacity 64 allocJunk bufHello 17 = some (true, sb1, allocJunk.next) ∧
      bufHello.capacity ≤ sb1.capacity) ∧
    (∃ sb1, sb_append_ex 64 allocJunk bufHello (List.replicate 11 97) 11 =
        some (sb1, allocJunk.next) ∧ bufHello.capacity ≤ sb1.capacity) ∧
    (∃ sb1, sb_insert_ex 64 allocJunk bufHello 1 [88] 1 = some (sb1, allocJunk) ∧
      bufHello.capacity ≤ sb1.capacity) ∧
    (∃ sb1, sb_remove 64 bufHello 1 2 = some sb1 ∧ sb1.capacity = bufHello.capacity) ∧
    (∃ sb1, sb_clear bufHello = some sb1 ∧ sb1.capacity = bufHello.capacity) ∧
    ∃ sb1, sb_replace 64 allocJunk bufCat (some [99, 97, 116, 0]) (some [100, 111, 103, 0]) =
        some (sb1, allocJunk) ∧ sb1.capacity = bufCat.capacity :=
  have h := C11_capacity_never_shrinks_in_place 64 allocJunk bufHello
  have hc := C11_capacity_never_shrinks_in_place 64 allocJunk bufCat
  ⟨⟨{ value := some (bufHello.block ++ List.replicate 16 170), length := 5, capacity := 32 },
      rfl, h.1 17 true _ allocJunk.next rfl⟩,
    ⟨{ value := some ([104, 101, 108, 108, 111] ++ List.replicate 11 97 ++
          0 :: List.replicate 15 170), length := 16, capacity := 32 },
      rfl, h.2.1 (List.replicate 11 97) 11 _ allocJunk.next rfl⟩,
    ⟨{ value := some ([104, 88, 101, 108, 108, 111, 0] ++ List.replicate 9 170), length := 6,
        capacity := 16 },
      rfl, h.2.2.1 1 [88] 1 _ allocJunk rfl⟩,
    ⟨{ value := some ([104, 108, 111, 0, 111, 0] ++ List.replicate 10 170), length := 3,
        capacity := 16 },
      rfl, h.2.2.2.1 1 2 _ rfl⟩,
    ⟨{ value := some ([0, 101, 108, 108, 111, 0] ++ List.replicate 10 170), length := 0,
        capacity := 16 },
      rfl, h.2.2.2.2.1 _ rfl⟩,
    ⟨{ value := some ([116, 104, 101, 32, 100, 111, 103, 32, 115, 97, 116, 0] ++
          List.replicate 4 170), length := 11, capacity := 16 },
      rfl, hc.2.2.2.2.2 [99, 97, 116, 0] [100, 111, 103, 0] _ allocJunk rfl rfl⟩⟩

/-! ## Allocation failure -/

/-- A failed growth step leaves `sb_append_ex` without effect on the buffer. -/
theorem sb_append_ex_alloc_fail (w : Nat) (a : Allocator) (sb : StringBuilder)
    (value : List Nat) (n : Nat) (ha : a 0 = none)
    (hgrow : sb.capacity < (sb.length + n + 1) % 2 ^ w) :
    ∃ a1, sb_append_ex w a sb value n = some (sb, a1) := by
  obtain ⟨a1, he⟩ := sb_ensure_capacity_fail w a sb _ hgrow ha
  unfold sb_append_ex
  split
  · rw [he]
    exact ⟨a1, rfl⟩
  · exact ⟨a, rfl⟩

/-- A failed growth step leaves `sb_insert_ex` without effect on the buffer. -/
theorem sb_insert_ex_alloc_fail (w : Nat) (a : Allocator) (sb : StringBuilder)
    (index : Nat) (value : List Nat) (n : Nat) (ha : a 0 = none)
    (hgrow : sb.capacity < (sb.length + n + 1) % 2 ^ w) :
    ∃ a1, sb_insert_ex w a sb index value n = some (sb, a1) := by
  obtain ⟨a1, he⟩ := sb_ensure_capacity_fail w a sb _ hgrow ha
  unfold sb_insert_ex
  split
  · split
    · rw [he]
      exact ⟨a1, rfl⟩
    · exact ⟨a, rfl⟩
  · exact sb_append_ex_alloc_fail w a sb value n ha hgrow

/-- C12 (evaluation at the failing input): on `"banana"`, `sb_replace` of `"a"` by `"XY"`
with an allocator that fails every request returns the unallocated buffer (content lost,
capacity 0), and with an allocator that fails the first request only it returns the
content `"XYnXYnXY"`, without the leading `"b"`. -/
theorem C12_sb_replace_loses_content_on_allocation_failure :
    bufBanana.content = [98, 97, 110, 97, 110, 97] ∧
    (sb_replace 64 allocFail bufBanana (some [97, 0]) (some [88, 89, 0])).map
        (fun r => r.1) = some sb_create ∧
    ∃ sb2, (sb_replace 64 allocFailFirst bufBanana (some [97, 0]) (some [88, 89, 0])).map
        (fun r => r.1) = some sb2 ∧
      sb2.content = [88, 89, 110, 88, 89, 110, 88, 89] ∧ sb2.length = 8 :=
  ⟨by decide, by decide,
    { value := some ([88, 89, 110, 88, 89, 110, 88, 89, 0] ++ List.replicate 7 170),
      length := 8, capacity := 16 },
    by decide, by decide, by decide⟩

/-! ## The shape of the capacity -/

theorem poke_bound {m m1 src : List Nat} {off : Nat} (h : poke m off src = some m1) :
    off + src.length ≤ m.length := by
  unfold poke at h
  split at h
  · assumption
  · simp at h

/-- Well-formed buffers whose capacity is 0 or some `16 * 2 ^ k`. -/
theorem sb_ensure_capacity_shape {w : Nat} {a a1 : Allocator} {sb sb1 : StringBuilder}
    {min : Nat} {b : Bool} (hwf : WF sb)
    (hcs : sb.capacity = 0 ∨ ∃ k, sb.capacity = 16 * 2 ^ k)
    (h : sb_ensure_capacity w a sb min = some (b, sb1, a1)) :
    WF sb1 ∧ (sb1.capacity = 0 ∨ ∃ k, sb1.capacity = 16 * 2 ^ k) ∧
      sb1.length = sb.length ∧ sb.capacity ≤ sb1.capacity := by
  have hle := sb_ensure_capacity_le h
  cases b with
  | false =>
    have := sb_ensure_capacity_false h
    subst this
    exact ⟨hwf, hcs, rfl, le_refl _⟩
  | true =>
    obtain ⟨-, -, -, hwf1, -⟩ := sb_ensure_capacity_true hwf h
    refine ⟨hwf1, ?_, hle.2, hle.1⟩
    unfold sb_ensure_capacity at h
    split at h
    · split at h
      · simp at h
      · rename_i capacity hg
        have h16 : 16 % 2 ^ w = 16 * 2 ^ 0 % 2 ^ w := by norm_num
        rw [h16] at hg
        have hsh := growLoop_shape w min _ 0 capacity hg
        split at h
        · simp at h
        · rename_i hne
          split at h
          · simp at h
          · simp only [Option.some.injEq, Prod.mk.injEq, true_and] at h
            obtain ⟨rfl, -⟩ := h
            rcases hsh with h0 | ⟨k, hk, -⟩
            · exact absurd h0 hne
            · exact Or.inr ⟨k, hk⟩
    · simp only [Option.some.injEq, Prod.mk.injEq, true_and] at h
      obtain ⟨rfl, -⟩ := h
      exact hcs

theorem shape_cap {sb : StringBuilder} (h : Shape sb) :
    sb.capacity = 0 ∨ ∃ k, sb.capacity = 16 * 2 ^ k := by
  rcases h with ⟨h0, -⟩ | ⟨hk, -⟩
  · exact Or.inl h0
  · exact Or.inr hk

/-! ## Buffers built from C strings -/

theorem sb_ensure_capacity_bound {w : Nat} {a a1 : Allocator} {sb sb1 : StringBuilder}
    {min : Nat} {b : Bool} (hb : sb.capacity < 2 ^ w)
    (h : sb_ensure_capacity w a sb min = some (b, sb1, a1)) : sb1.capacity < 2 ^ w := by
  unfold sb_ensure_capacity at h
  split at h
  · split at h
    · simp at h
    · rename_i capacity hg
      have h16 : 16 % 2 ^ w = 16 * 2 ^ 0 % 2 ^ w := by norm_num
      rw [h16] at hg
      have hsh := growLoop_shape w min _ 0 capacity hg
      split at h
      · simp only [Option.some.injEq, Prod.mk.injEq] at h
        rw [← h.2.1]
        exact hb
      · rename_i hne
        split at h
        · simp only [Option.some.injEq, Prod.mk.injEq] at h
          rw [← h.2.1]
          exact hb
        · simp only [Option.some.injEq, Prod.mk.injEq] at h
          rw [← h.2.1]
          rcases hsh with h0 | ⟨k, hk, hlt⟩
          · exact absurd h0 hne
          · show capacity < 2 ^ w
            omega
  · simp only [Option.some.injEq, Prod.mk.injEq] at h
    rw [← h.2.1]
    exact hb

theorem peek_some {m bytes : List Nat} {off n : Nat} (h : peek m off n = some bytes) :
    off + n ≤ m.length ∧ bytes.length = n := by
  unfold peek at h
  split at h
  · rename_i hle
    simp only [Option.some.injEq] at h
    subst h
    refine ⟨hle, ?_⟩
    rw [List.length_take, List.length_drop]
    omega
  · simp at h

theorem wf_value {sb : StringBuilder} {m : List Nat} (hwf : WF sb) (hv : sb.value = some m) :
    m.length = sb.capacity := by
  simp only [WF, StringBuilder.block, hv, Option.getD_some] at hwf
  exact hwf

/-- A defined non-empty `sb_append_ex` whose growth step succeeded did not overflow. -/
theorem sb_append_ex_room {w : Nat} {a a1 a2 : Allocator} {sb sb1 sb2 : StringBuilder}
    {value : List Nat} {n : Nat} (hwf : WF sb) (hb : sb.capacity < 2 ^ w) (hn : 0 < n)
    (he : sb_ensure_capacity w a sb ((sb.length + n + 1) % 2 ^ w) = some (true, sb1, a1))
    (h : sb_append_ex w a sb value n = some (sb2, a2)) :
    n ≤ value.length ∧ sb.length + n + 1 ≤ sb1.capacity ∧ sb1.capacity < 2 ^ w := by
  have hb1 := sb_ensure_capacity_bound hb he
  obtain ⟨hl1, -, -, hwf1, -⟩ := sb_ensure_capacity_true hwf he
  unfold sb_append_ex at h
  rw [if_pos hn, he] at h
  dsimp only at h
  split at h
  · simp at h
  · rename_i m hm
    have hcap := wf_value hwf1 hm
    split at h
    · simp at h
    · rename_i bytes hpk
      obtain ⟨hsrc, hbl⟩ := peek_some hpk
      split at h
      · simp at h
      · rename_i m1 hp1
        have hb1' := poke_bound hp1
        have hl1' := poke_length hp1
        split at h
        · simp at h
        · rename_i m2 hp2
          have hb2 := poke_bound hp2
          simp only [List.length_singleton] at hb2
          rw [Nat.mod_eq_of_lt (by omega)] at hb2
          exact ⟨by omega, by omega, hb1⟩

/-- What a defined `sb_append_ex` has done: nothing, or appended the `n` bytes. -/
theorem sb_append_ex_inv {w : Nat} {a a2 : Allocator} {sb sb2 : StringBuilder}
    {value : List Nat} {n : Nat} (hinv : Inv sb) (hb : sb.capacity < 2 ^ w)
    (h : sb_append_ex w a sb value n = some (sb2, a2)) :
    Inv sb2 ∧ sb2.capacity < 2 ^ w ∧
      (sb2.content = sb.content ∨
        (n ≤ value.length ∧ sb2.content = sb.content ++ value.take n)) := by
  rcases Nat.eq_zero_or_pos n with h0 | hn
  · subst h0
    rw [sb_append_ex_zero] at h
    simp only [Option.some.injEq, Prod.mk.injEq] at h
    rw [← h.1]
    exact ⟨hinv, hb, Or.inl rfl⟩
  · obtain ⟨⟨b, sb1, a1⟩, he⟩ :=
      sb_ensure_capacity_defined w a sb ((sb.length + n + 1) % 2 ^ w)
    cases b with
    | false =>
      have hsb := sb_ensure_capacity_false he
      subst hsb
      unfold sb_append_ex at h
      rw [if_pos hn, he] at h
      simp only [Option.some.injEq, Prod.mk.injEq] at h
      rw [← h.1]
      exact ⟨hinv, hb, Or.inl rfl⟩
    | true =>
      obtain ⟨hsrc, hroom, hb1⟩ := sb_append_ex_room hinv.1 hb hn he h
      have hno : sb.length + n + 1 < 2 ^ w := by omega
      rw [Nat.mod_eq_of_lt hno] at he
      obtain ⟨sb3, he3, hc3, -, hcap3, hinv3⟩ :=
        sb_append_ex_spec hinv.1 hinv.2.1 hn hsrc hno he
      rw [he3] at h
      simp only [Option.some.injEq, Prod.mk.injEq] at h
      rw [← h.1]
      exact ⟨hinv3, by omega, Or.inr ⟨hsrc, hc3⟩⟩

/-- A defined shifting `sb_insert_ex` whose growth step succeeded did not overflow. -/
theorem sb_insert_ex_room {w : Nat} {a a1 a2 : Allocator} {sb sb1 sb2 : StringBuilder}
    {value : List Nat} {index n : Nat} (hwf : WF sb) (hb : sb.capacity < 2 ^ w)
    (hidx : index < sb.length) (hn : 0 < n)
    (he : sb_ensure_capacity w a sb ((sb.length + n + 1) % 2 ^ w) = some (true, sb1, a1))
    (h : sb_insert_ex w a sb index value n = some (sb2, a2)) :
    n ≤ value.length ∧ (sb.length + n) % 2 ^ w + 1 ≤ sb1.capacity ∧
      index + n ≤ sb1.capacity ∧
      (index + n) % 2 ^ w + subw w sb.length index ≤ sb1.capacity ∧
      sb1.capacity < 2 ^ w := by
  have hb1 := sb_ensure_capacity_bound hb he
  obtain ⟨hl1, -, -, hwf1, -⟩ := sb_ensure_capacity_true hwf he
  unfold sb_insert_ex at h
  rw [if_pos hidx, if_pos hn, he] at h
  dsimp only at h
  split at h
  · simp at h
  · rename_i m hm
    have hcap := wf_value hwf1 hm
    split at h
    · simp at h
    · rename_i tail hpk0
      obtain ⟨-, htl⟩ := peek_some hpk0
      split at h
      · simp at h
      · rename_i m1 hp1
        have hb1' := poke_bound hp1
        have hl1' := poke_length hp1
        split at h
        · simp at h
        · rename_i bytes hpk
          obtain ⟨hsrc, hbl⟩ := peek_some hpk
          split at h
          · simp at h
          · rename_i m2 hp2
            have hb2 := poke_bound hp2
            have hl2 := poke_length hp2
            split at h
            · simp at h
            · rename_i m3 hp3
              have hb3 := poke_bound hp3
              simp only [List.length_singleton] at hb3
              rw [hl1] at htl hb3
              refine ⟨by omega, by omega, by omega, by omega, hb1⟩

/-- What a defined `sb_insert_ex` has done: nothing, or inserted the `n` bytes. -/
theorem sb_insert_ex_inv {w : Nat} {a a2 : Allocator} {sb sb2 : StringBuilder}
    {value : List Nat} {index n : Nat} (hinv : Inv sb) (hb : sb.capacity < 2 ^ w)
    (h : sb_insert_ex w a sb index value n = some (sb2, a2)) :
    Inv sb2 ∧ sb2.capacity < 2 ^ w ∧
      (sb2.content = sb.content ∨
        (n ≤ value.length ∧
          sb2.content = sb.content.take index ++ value.take n ++ sb.content.drop index)) := by
  have hS := inv_content_length hinv
  rcases Nat.lt_or_ge index sb.length with hidx | hge
  · rcases Nat.eq_zero_or_pos n with h0 | hn
    · subst h0
      rw [sb_insert_ex_zero] at h
      simp only [Option.some.injEq, Prod.mk.injEq] at h
      rw [← h.1]
      exact ⟨hinv, hb, Or.inl rfl⟩
    · obtain ⟨⟨b, sb1, a1⟩, he⟩ :=
        sb_ensure_capacity_defined w a sb ((sb.length + n + 1) % 2 ^ w)
      cases b with
      | false =>
        have hsb := sb_ensure_capacity_false he
        subst hsb
        unfold sb_insert_ex at h
        rw [if_pos hidx, if_pos hn, he] at h
        simp only [Option.some.injEq, Prod.mk.injEq] at h
        rw [← h.1]
        exact ⟨hinv, hb, Or.inl rfl⟩
      | true =>
        obtain ⟨hsrc, hroom, hin, hmv, hb1⟩ := sb_insert_ex_room hinv.1 hb hidx hn he h
        have hle := hinv.2.1
        rw [Nat.mod_eq_of_lt (by omega : index + n < 2 ^ w),
          subw_eq (by omega) (by omega)] at hmv
        have hno : sb.length + n + 1 < 2 ^ w := by
          rw [Nat.mod_eq_of_lt (by omega)] at hroom
          omega
        rw [Nat.mod_eq_of_lt hno] at he
        obtain ⟨sb3, he3, hc3, -, hcap3, hinv3⟩ :=
          sb_insert_ex_spec hinv.1 hinv.2.1 hidx hn hsrc hno he
        rw [he3] at h
        simp only [Option.some.injEq, Prod.mk.injEq] at h
        rw [← h.1]
        exact ⟨hinv3, by omega, Or.inr ⟨hsrc, hc3⟩⟩
  · have happ : sb_insert_ex w a sb index value n = sb_append_ex w a sb value n := by
      unfold sb_insert_ex
      rw [if_neg (by omega)]
    rw [happ] at h
    obtain ⟨hinv2, hb2, hc⟩ := sb_append_ex_inv hinv hb h
    refine ⟨hinv2, hb2, ?_⟩
    rcases hc with hc | ⟨hsrc, hc⟩
    · exact Or.inl hc
    · right
      refine ⟨hsrc, ?_⟩
      have e1 : List.take index sb.content = sb.content := List.take_of_length_le (by omega)
      have e2 : List.drop index sb.content = [] := List.drop_of_length_le (by omega)
      rw [hc, e1, e2, List.append_nil]

theorem nulFree_sb_create (w : Nat) : NulFree w sb_create :=
  ⟨inv_sb_init, fun c hc => by simp [sb_create, sb_init, StringBuilder.content,
    StringBuilder.block] at hc, Nat.pow_pos (by decide)⟩

theorem nulFree_sb_append_ex {w : Nat} {a a2 : Allocator} {sb sb2 : StringBuilder}
    {value : List Nat} {n : Nat} (hnf : NulFree w sb)
    (hv : ∀ c, c ∈ value.take n → c ≠ 0)
    (h : sb_append_ex w a sb value n = some (sb2, a2)) : NulFree w sb2 := by
  obtain ⟨hinv2, hb2, hc⟩ := sb_append_ex_inv hnf.1 hnf.2.2 h
  refine ⟨hinv2, ?_, hb2⟩
  rcases hc with hc | ⟨-, hc⟩
  · rw [hc]
    exact hnf.2.1
  · rw [hc]
    intro c hmem
    rcases List.mem_append.mp hmem with h1 | h1
    · exact hnf.2.1 c h1
    · exact hv c h1

theorem nulFree_sb_insert_ex {w : Nat} {a a2 : Allocator} {sb sb2 : StringBuilder}
    {value : List Nat} {index n : Nat} (hnf : NulFree w sb)
    (hv : ∀ c, c ∈ value.take n → c ≠ 0)
    (h : sb_insert_ex w a sb index value n = some (sb2, a2)) : NulFree w sb2 := by
  obtain ⟨hinv2, hb2, hc⟩ := sb_insert_ex_inv hnf.1 hnf.2.2 h
  refine ⟨hinv2, ?_, hb2⟩
  rcases hc with hc | ⟨-, hc⟩
  · rw [hc]
    exact hnf.2.1
  · rw [hc]
    intro c hmem
    rcases List.mem_append.mp hmem with h1 | h1
    · rcases List.mem_append.mp h1 with h2 | h2
      · exact hnf.2.1 c (List.mem_of_mem_take h2)
      · exact hv c h2
    · exact hnf.2.1 c (List.mem_of_mem_drop h1)

theorem strlen_some {v : List Nat} {n : Nat} (h : strlen v = some n) :
    ∃ t, cstr v = some t ∧ t.length = n ∧ v.take n = t ∧ ∀ c, c ∈ t → c ≠ 0 := by
  unfold strlen at h
  cases hc : cstr v with
  | none => simp [hc] at h
  | some t =>
    simp only [hc, Option.map_some', Option.some.injEq] at h
    obtain ⟨hnz, -⟩ := cstr_eq_some v t hc
    obtain ⟨htk, -⟩ := take_cstr hc
    rw [h] at htk
    exact ⟨t, rfl, h, htk, hnz⟩

theorem nulFree_sb_append {w : Nat} {a a2 : Allocator} {sb sb2 : StringBuilder}
    {value : Option (List Nat)} (hnf : NulFree w sb)
    (h : sb_append w a sb value = some (sb2, a2)) : NulFree w sb2 := by
  unfold sb_append at h
  split at h
  · simp only [Option.some.injEq, Prod.mk.injEq] at h
    rw [← h.1]
    exact hnf
  · split at h
    · simp at h
    · rename_i v n hs
      obtain ⟨t, -, -, htk, hnz⟩ := strlen_some hs
      exact nulFree_sb_append_ex hnf (by rw [htk]; exact hnz) h

theorem nulFree_sb_append_line {w : Nat} {a a2 : Allocator} {sb sb2 : StringBuilder}
    {value : Option (List Nat)} (hnf : NulFree w sb)
    (h : sb_append_line w a sb value = some (sb2, a2)) : NulFree w sb2 := by
  unfold sb_append_line at h
  split at h
  · simp at h
  · rename_i sb1 a1 he
    exact nulFree_sb_append (nulFree_sb_append hnf he) h

theorem nulFree_sb_append_char {w : Nat} {a a2 : Allocator} {sb sb2 : StringBuilder}
    {value : Nat} (hnf : NulFree w sb)
    (h : sb_append_char w a sb value = some (sb2, a2)) : NulFree w sb2 := by
  unfold sb_append_char at h
  split at h
  · rename_i hc
    refine nulFree_sb_append_ex hnf ?_ h
    intro c hmem
    simp only [List.take_succ_cons, List.take_zero, List.mem_singleton] at hmem
    rw [hmem]
    exact hc
  · simp only [Option.some.injEq, Prod.mk.injEq] at h
    rw [← h.1]
    exact hnf

theorem nulFree_sb_insert {w : Nat} {a a2 : Allocator} {sb sb2 : StringBuilder}
    {index : Nat} {value : Option (List Nat)} (hnf : NulFree w sb)
    (h : sb_insert w a sb index value = some (sb2, a2)) : NulFree w sb2 := by
  unfold sb_insert at h
  split at h
  · simp only [Option.some.injEq, Prod.mk.injEq] at h
    rw [← h.1]
    exact hnf
  · split at h
    · simp at h
    · rename_i v n hs
      obtain ⟨t, -, -, htk, hnz⟩ := strlen_some hs
      exact nulFree_sb_insert_ex hnf (by rw [htk]; exact hnz) h

/-- The function `sb_remove` when `index + length` does not overflow. -/
theorem sb_remove_total {w : Nat} {sb : StringBuilder} {index d : Nat} (hinv : Inv sb)
    (hsz : sb.length < 2 ^ w) (hno : index + d < 2 ^ w) :
    ∃ sb2, sb_remove w sb index d = some sb2 ∧ Inv sb2 ∧ sb2.capacity = sb.capacity ∧
      ∀ c, c ∈ sb2.content → c ∈ sb.content := by
  by_cases hnoop : sb.length ≤ index ∨ d = 0
  · exact ⟨sb, sb_remove_noop w sb index d hnoop, hinv, rfl, fun c hc => hc⟩
  · have hidx : index < sb.length := by omega
    have hd : 0 < d := by omega
    rcases Nat.lt_or_ge (index + d) sb.length with hlt | hge
    · obtain ⟨sb2, he, hc, -, hcap, hinv2⟩ := sb_remove_interior hinv hsz hd hlt
      refine ⟨sb2, he, hinv2, hcap, ?_⟩
      rw [hc]
      intro c hmem
      rcases List.mem_append.mp hmem with h1 | h1
      · exact List.mem_of_mem_take h1
      · exact List.mem_of_mem_drop h1
    · obtain ⟨sb2, he, hc, -, hcap, hinv2⟩ :=
        @sb_remove_clip w sb index d hinv hd hidx (by rw [Nat.mod_eq_of_lt hno]; exact hge)
      refine ⟨sb2, he, hinv2, hcap, ?_⟩
      rw [hc]
      intro c hmem
      exact List.mem_of_mem_take hmem

theorem nulFree_sb_remove {w : Nat} {sb sb2 : StringBuilder} {index d : Nat}
    (hnf : NulFree w sb) (hno : index + d < 2 ^ w)
    (h : sb_remove w sb index d = some sb2) : NulFree w sb2 := by
  have hle := hnf.1.2.1
  obtain ⟨sb3, he, hinv3, hcap, hmem⟩ :=
    @sb_remove_total w sb index d hnf.1 (by have := hnf.2.2; omega) hno
  rw [he] at h
  simp only [Option.some.injEq] at h
  rw [← h]
  exact ⟨hinv3, fun c hc => hnf.2.1 c (hmem c hc), by rw [hcap]; exact hnf.2.2⟩

theorem nulFree_sb_clear {w : Nat} {sb sb2 : StringBuilder} (hnf : NulFree w sb)
    (h : sb_clear sb = some sb2) : NulFree w sb2 := by
  obtain ⟨⟨hwf, hle, hterm⟩, -, hb⟩ := hnf
  unfold sb_clear at h
  split at h
  · rename_i hv
    simp only [Option.some.injEq] at h
    rw [← h]
    have hcap : sb.capacity = 0 := by
      simp only [WF, StringBuilder.block, hv, Option.getD_none, List.length_nil] at hwf
      exact hwf.symm
    refine ⟨⟨hwf, Nat.zero_le _, ?_⟩, ?_, hb⟩
    · intro hpos
      exact absurd hcap (Nat.ne_of_gt hpos)
    · intro c hc
      simp [StringBuilder.content] at hc
  · rename_i m hm
    split at h
    · simp at h
    · rename_i m1 hp
      simp only [Option.some.injEq] at h
      rw [← h]
      have hl := poke_length hp
      have hbd := poke_bound hp
      have hcap := wf_value hwf hm
      unfold poke at hp
      rw [if_pos hbd] at hp
      simp only [Option.some.injEq, List.take_zero, List.nil_append, List.length_singleton,
        Nat.zero_add, List.singleton_append] at hp
      refine ⟨⟨?_, Nat.zero_le _, ?_⟩, ?_, hb⟩
      · show m1.length = sb.capacity
        omega
      · intro _
        show List.get? m1 0 = some 0
        rw [← hp]
        rfl
      · intro c hc
        simp [StringBuilder.content] at hc

theorem replaceRef_nul_free (o nw : List Nat) (hnw : ∀ c, c ∈ nw → c ≠ 0) :
    ∀ (fuel : Nat) (s : List Nat), (∀ c, c ∈ s → c ≠ 0) →
      ∀ c, c ∈ replaceRef o nw fuel s → c ≠ 0
  | 0, s, hs, c, hc => hs c hc
  | _ + 1, [], _, c, hc => by simp [replaceRef] at hc
  | fuel + 1, x :: xs, hs, c, hc => by
    unfold replaceRef at hc
    split at hc
    · rcases List.mem_append.mp hc with h1 | h1
      · exact hnw c h1
      · exact replaceRef_nul_free o nw hnw fuel _
          (fun y hy => hs y (List.mem_of_mem_drop hy)) c h1
    · rcases List.mem_cons.mp hc with h1 | h1
      · rw [h1]
        exact hs x (List.mem_cons_self x xs)
      · exact replaceRef_nul_free o nw hnw fuel xs
          (fun y hy => hs y (List.mem_cons_of_mem x hy)) c h1

/-- The unequal-length loop of `sb_replace` whatever the allocator does: when it returns,
`tmp` is still a buffer without NUL that satisfies the invariant, and `start` is inside
the text. -/
theorem replaceNeLoop_nulFree {w : Nat} {old new o nw : List Nat} (R : List Nat)
    (hold : cstr old = some o) (ho : o ≠ []) (hnew : cstr new = some nw) :
    ∀ (fuel : Nat) (a : Allocator) (tmp : StringBuilder) (Pre T : List Nat) (p : Nat)
      (tmp1 : StringBuilder) (start1 : Nat) (a1 : Allocator),
      (∀ c, c ∈ T → c ≠ 0) → findSub o T = some p → NulFree w tmp →
      replaceNeLoop w (Pre ++ T ++ 0 :: R) old new o.length nw.length fuel a tmp
        Pre.length (some (Pre.length + p)) = some (tmp1, start1, a1) →
      NulFree w tmp1 ∧ ∃ Tf, (Pre ++ T ++ 0 :: R).drop start1 = Tf ++ 0 :: R ∧
        start1 + Tf.length = Pre.length + T.length ∧ (∀ c, c ∈ Tf → c ≠ 0)
  | 0, a, tmp, Pre, T, p, tmp1, start1, a1, _, _, _, h => by simp [replaceNeLoop] at h
  | fuel + 1, a, tmp, Pre, T, p, tmp1, start1, a1, hT, hfind, hnf, h => by
    obtain ⟨hp, hsplit⟩ := findSub_some o T p hfind
    obtain ⟨hnwz, rnew, hnewsplit⟩ := cstr_eq_some new nw hnew
    have htk : (T.take p).length = p := by
      rw [List.length_take]
      omega
    have hT' : ∀ c, c ∈ T.drop (p + o.length) → c ≠ 0 :=
      fun c hc => hT c (List.mem_of_mem_drop hc)
    have hdlen : (T.drop (p + o.length)).length = T.length - (p + o.length) :=
      List.length_drop _ _
    have hblock : Pre ++ T ++ 0 :: R =
        (Pre ++ T.take p ++ o) ++ T.drop (p + o.length) ++ 0 :: R := by
      conv_lhs => rw [hsplit]
      simp only [List.append_assoc]
    have hdrop0 : (Pre ++ T ++ 0 :: R).drop Pre.length = T ++ 0 :: R := by
      rw [List.append_assoc]
      exact List.drop_left' rfl
    have hdrop1 : (Pre ++ T ++ 0 :: R).drop (Pre.length + p + o.length) =
        T.drop (p + o.length) ++ 0 :: R := by
      rw [hblock, List.append_assoc]
      exact List.drop_left' (by simp only [List.length_append, htk])
    have htake1 : (T ++ 0 :: R).take p = T.take p :=
      List.take_append_of_le_length (by omega)
    have htake2 : new.take nw.length = nw := by
      rw [hnewsplit]
      exact List.take_left' rfl
    have e : (Pre ++ T.take p ++ o).length = Pre.length + p + o.length := by
      simp only [List.length_append, htk]
    unfold replaceNeLoop at h
    rw [hdrop0, Nat.add_sub_cancel_left, hdrop1, strstr_block hT' hold] at h
    split at h
    · simp at h
    · rename_i tmp2 a2 he2
      have hnf2 : NulFree w tmp2 :=
        nulFree_sb_append_ex hnf
          (by rw [htake1]; exact fun c hc => hT c (List.mem_of_mem_take hc)) he2
      split at h
      · simp at h
      · rename_i tmp3 a3 he3
        have hnf3 : NulFree w tmp3 :=
          nulFree_sb_append_ex hnf2 (by rw [htake2]; exact hnwz) he3
        dsimp only at h
        cases hnext : findSub o (T.drop (p + o.length)) with
        | none =>
          rw [hnext, Option.map_none', replaceNeLoop_done] at h
          simp only [Option.some.injEq, Prod.mk.injEq] at h
          obtain ⟨rfl, rfl, -⟩ := h
          exact ⟨hnf3, T.drop (p + o.length), hdrop1, by rw [hdlen]; omega, hT'⟩
        | some p1 =>
          rw [hnext, Option.map_some', hblock, ← e] at h
          obtain ⟨hnf1, Tf, hd, hst, hTf⟩ :=
            replaceNeLoop_nulFree R hold ho hnew fuel a3 tmp3 (Pre ++ T.take p ++ o)
              (T.drop (p + o.length)) p1 tmp1 start1 a1 hT' hnext hnf3 h
          rw [← hblock] at hd
          exact ⟨hnf1, Tf, hd, by rw [hst, e, hdlen]; omega, hTf⟩

theorem nulFree_sb_replace {w : Nat} {a a2 : Allocator} {sb sb2 : StringBuilder}
    {old new : Option (List Nat)} (hnf : NulFree w sb)
    (h : sb_replace w a sb old new = some (sb2, a2)) : NulFree w sb2 := by
  unfold sb_replace at h
  split at h
  · rename_i old new
    split at h
    · simp only [Option.some.injEq, Prod.mk.injEq] at h
      rw [← h.1]
      exact hnf
    · rename_i hL
      split at h
      · rename_i ol nl m hso hsn hm
        obtain ⟨o, hold, hol, -, -⟩ := strlen_some hso
        obtain ⟨nw, hnew, hnl, -, hnwz⟩ := strlen_some hsn
        subst hol hnl
        obtain ⟨R, hval, hS, hcap⟩ := inv_block hnf.1 (by omega)
        rw [hval] at hm
        simp only [Option.some.injEq] at hm
        subst hm
        rw [strstr_block hnf.2.1 hold] at h
        cases hfind : findSub o sb.content with
        | none =>
          rw [hfind] at h
          simp only [Option.some.injEq, Prod.mk.injEq] at h
          rw [← h.1]
          exact hnf
        | some p =>
          rw [hfind] at h
          dsimp only at h
          split at h
          · simp only [Option.some.injEq, Prod.mk.injEq] at h
            rw [← h.1]
            exact hnf
          · rename_i hne0
            have ho : o ≠ [] := fun hc => hne0 (by rw [hc]; rfl)
            have hfuel : sb.content.length ≤ (sb.content ++ 0 :: R).length + 1 := by
              simp only [List.length_append]
              omega
            split at h
            · rename_i hlen
              have hloop := replaceEqLoop_spec R hold ho hnew hlen
                ((sb.content ++ 0 :: R).length + 1) [] sb.content p hfuel hnf.2.1 hfind
              simp only [List.nil_append, List.length_nil, Nat.zero_add] at hloop
              rw [hloop] at h
              simp only [Option.some.injEq, Prod.mk.injEq] at h
              rw [← h.1]
              have hres := inv_mk
                (replaceRef o nw ((sb.content ++ 0 :: R).length + 1) sb.content) R
                sb.length sb.capacity
                (by rw [replaceRef_length_eq o nw hlen, hS])
                (by
                  rw [← hcap]
                  simp only [List.length_append, replaceRef_length_eq o nw hlen])
              refine ⟨hres.1, ?_, hnf.2.2⟩
              rw [hres.2]
              exact replaceRef_nul_free o nw hnwz _ _ hnf.2.1
            · split at h
              · simp at h
              · rename_i tmp start a1 hloop
                obtain ⟨hnft, Tf, hd, hst, hTf⟩ :=
                  replaceNeLoop_nulFree R hold ho hnew ((sb.content ++ 0 :: R).length + 1)
                    a sb_create [] sb.content p tmp start a1 hnf.2.1 hfind
                    (nulFree_sb_create w)
                    (by
                      simp only [List.nil_append, List.length_nil, Nat.zero_add]
                      exact hloop)
                simp only [List.nil_append, List.length_nil, Nat.zero_add] at hd hst
                rw [get?_of_drop hd] at h
                cases hTf0 : Tf with
                | nil =>
                  rw [hTf0] at h
                  simp only [List.nil_append, List.head?_cons, ne_eq, not_true_eq_false,
                    if_false, Option.some.injEq, Prod.mk.injEq] at h
                  rw [← h.1]
                  exact hnft
                | cons c rest =>
                  have hc0 : c ≠ 0 := hTf c (by rw [hTf0]; exact List.mem_cons_self c rest)
                  rw [hTf0] at h
                  simp only [List.cons_append, List.head?_cons] at h
                  rw [if_pos hc0, hd] at h
                  have hlen : sb.length < 2 ^ w := by
                    have := hnf.1.2.1
                    have := hnf.2.2
                    omega
                  rw [subw_eq (by omega) hlen] at h
                  have hn : sb.length - start = Tf.length := by omega
                  rw [hn] at h
                  refine nulFree_sb_append_ex hnft ?_ h
                  rw [List.take_left' rfl]
                  exact hTf
      · simp at h
  · simp only [Option.some.injEq, Prod.mk.injEq] at h
    rw [← h.1]
    exact hnf

theorem nulFree_call {w : Nat} {a a1 : Allocator} {sb sb1 : StringBuilder} {c : TextCall}
    (hnf : NulFree w sb) (hno : c.noOverflow w) (h : c.run w a sb = some (sb1, a1)) :
    NulFree w sb1 := by
  cases c with
  | append value => exact nulFree_sb_append hnf h
  | append_char value => exact nulFree_sb_append_char hnf h
  | append_line value => exact nulFree_sb_append_line hnf h
  | insert index value => exact nulFree_sb_insert hnf h
  | remove index d =>
    simp only [TextCall.run, Option.map_eq_some'] at h
    obtain ⟨sb2, he, heq⟩ := h
    simp only [Prod.mk.injEq] at heq
    rw [← heq.1]
    exact nulFree_sb_remove hnf hno he
  | replace old new => exact nulFree_sb_replace hnf h
  | clear =>
    simp only [TextCall.run, Option.map_eq_some'] at h
    obtain ⟨sb2, he, heq⟩ := h
    simp only [Prod.mk.injEq] at heq
    rw [← heq.1]
    exact nulFree_sb_clear hnf he

theorem reachableText_nulFree {w : Nat} {sb : StringBuilder} (h : ReachableText w sb) :
    NulFree w sb := by
  induction h with
  | create => exact nulFree_sb_create w
  | call a a1 sb sb1 c _ hno he ih => exact nulFree_call ih hno he

/-- The block of a buffer that satisfies the invariant and has storage: the content, the
terminator and the rest. -/
theorem inv_block_of_capacity {sb : StringBuilder} (hinv : Inv sb) (hpos : 0 < sb.capacity) :
    ∃ R, sb.block = sb.content ++ 0 :: R := by
  obtain ⟨hwf, hle, hterm⟩ := hinv
  have hterm := hterm hpos
  rw [List.get?_eq_getElem?] at hterm
  obtain ⟨h1, h2⟩ := List.getElem?_eq_some_iff.mp hterm
  refine ⟨sb.block.drop (sb.length + 1), ?_⟩
  have hdrop : sb.block.drop sb.length = 0 :: sb.block.drop (sb.length + 1) := by
    rw [List.drop_eq_getElem_cons h1, h2]
  rw [← hdrop]
  exact (List.take_append_drop _ _).symm

/-- C19: in every buffer that `sb_create` followed by a finite sequence of `sb_append`,
`sb_append_char`, `sb_append_line`, `sb_insert`, `sb_remove` (with `index + length` not
overflowing), `sb_replace` and `sb_clear` calls yields, whatever the allocator does, no
byte below `length` is NUL, and when the buffer has storage the C-string length of `value`
is `length`. -/
theorem C19_cstring_length_agreement (w : Nat) (sb : StringBuilder)
    (h : ReachableText w sb) :
    (∀ c, c ∈ sb.content → c ≠ 0) ∧ sb.content.length = sb.length ∧
      (0 < sb.capacity → strlen sb.block = some sb.length) := by
  obtain ⟨hinv, hnz, -⟩ := reachableText_nulFree h
  have hS := inv_content_length hinv
  refine ⟨hnz, hS, ?_⟩
  intro hpos
  obtain ⟨R, hR⟩ := inv_block_of_capacity hinv hpos
  rw [hR, strlen_of_cstr (cstr_append_nul sb.content R hnz), hS]

/-- An instance of C19: the buffer after `sb_append("hello")`, `sb_insert(1, "XY")`,
`sb_replace("l", "LL")` and `sb_remove(0, 1)`. -/
theorem C19_cstring_length_agreement_witness :
    ∃ sb : StringBuilder, sb.content = [88, 89, 101, 76, 76, 76, 76, 111] ∧
      ((∀ c, c ∈ sb.content → c ≠ 0) ∧ sb.content.length = sb.length ∧
        (0 < sb.capacity → strlen sb.block = some sb.length)) :=
  ⟨{ value := some ([88, 89, 101, 76, 76, 76, 76, 111, 0, 0] ++ List.replicate 6 170),
      length := 8, capacity := 16 },
    rfl,
    C19_cstring_length_agreement 64 _
      (ReachableText.call allocJunk allocJunk
        { value := some ([104, 88, 89, 101, 76, 76, 76, 76, 111, 0] ++ List.replicate 6 170),
          length := 9, capacity := 16 } _ (TextCall.remove 0 1)
        (ReachableText.call allocJunk allocJunk
          { value := some ([104, 88, 89, 101, 108, 108, 111, 0] ++ List.replicate 8 170),
            length := 7, capacity := 16 } _
          (TextCall.replace (some [108, 0]) (some [76, 76, 0]))
          (ReachableText.call allocJunk allocJunk
            { value := some ([104, 101, 108, 108, 111, 0] ++ List.replicate 10 170),
              length := 5, capacity := 16 } _
            (TextCall.insert 1 (some [88, 89, 0]))
            (ReachableText.call allocJunk allocJunk sb_create _
              (TextCall.append (some [104, 101, 108, 108, 111, 0]))
              ReachableText.create trivial rfl)
            trivial rfl)
          trivial rfl)
        (show 0 + 1 < 2 ^ 64 by decide) rfl)⟩

/-! ## The capacity shape along sequences of calls -/

theorem sound_sb_init (w : Nat) : Sound w sb_init :=
  ⟨rfl, Or.inl ⟨rfl, rfl⟩, Nat.pos_pow_of_pos w (by decide), fun h => absurd h (by decide),
    fun _ => rfl⟩

theorem sound_room {w : Nat} {sb : StringBuilder} (hs : Sound w sb) :
    sb.length ≤ sb.capacity ∧ sb.length < 2 ^ w := by
  obtain ⟨-, hsh, hb, -, -⟩ := hs
  rcases hsh with ⟨h0, h1⟩ | ⟨-, h1⟩
  · omega
  · omega

theorem sound_inv {w : Nat} {sb : StringBuilder} (hs : Sound w sb) (hpos : 0 < sb.length) :
    Inv sb :=
  ⟨hs.1, (sound_room hs).1, fun _ => hs.2.2.2.1 hpos⟩

/-- A buffer with storage that satisfies the buffer invariant, with a capacity `16 * 2 ^ k`
that is a `size_t` value and has room for the content and its terminator. -/
theorem sound_of_inv {w : Nat} {sb : StringBuilder} (hinv : Inv sb)
    (hk : ∃ k, sb.capacity = 16 * 2 ^ k) (hroom : sb.length + 1 ≤ sb.capacity)
    (hb : sb.capacity < 2 ^ w) : Sound w sb :=
  ⟨hinv.1, Or.inr ⟨hk, hroom⟩, hb, fun _ => hinv.2.2 (by omega), fun h0 => by omega⟩

theorem sound_sb_ensure_capacity {w : Nat} {a a1 : Allocator} {sb sb1 : StringBuilder}
    {min : Nat} {b : Bool} (hs : Sound w sb)
    (h : sb_ensure_capacity w a sb min = some (b, sb1, a1)) : Sound w sb1 := by
  obtain ⟨hwf, hsh, hb, hterm, hnone⟩ := hs
  obtain ⟨hwf1, hcs1, hl, hc⟩ := sb_ensure_capacity_shape hwf (shape_cap hsh) h
  have hb1 := sb_ensure_capacity_bound hb h
  cases b with
  | false =>
    have := sb_ensure_capacity_false h
    subst this
    exact ⟨hwf, hsh, hb, hterm, hnone⟩
  | true =>
    obtain ⟨-, hmin, -, -, junk, hjunk⟩ := sb_ensure_capacity_true hwf h
    refine ⟨hwf1, ?_, hb1, ?_, ?_⟩
    · rcases hcs1 with h0 | ⟨k, hk⟩
      · left
        rcases hsh with ⟨-, h2⟩ | ⟨-, h2⟩
        · exact ⟨h0, by omega⟩
        · omega
      · right
        refine ⟨⟨k, hk⟩, ?_⟩
        have hpos : 0 < 2 ^ k := Nat.pos_pow_of_pos k (by decide)
        rcases hsh with ⟨-, h2⟩ | ⟨-, h2⟩
        · omega
        · omega
    · intro hpos
      rw [hl] at hpos ⊢
      have ht := hterm hpos
      have hlt : sb.length < sb.block.length := by
        rcases Nat.lt_or_ge sb.length sb.block.length with h1 | h1
        · exact h1
        · rw [List.get?_eq_none.mpr h1] at ht
          simp at ht
      rw [hjunk, List.get?_eq_getElem?, List.getElem?_append_left hlt,
        ← List.get?_eq_getElem?]
      exact ht
    · intro h0
      have hm : min = 0 := by omega
      subst hm
      rw [sb_ensure_capacity_noop w a sb 0 (Nat.zero_le _)] at h
      simp only [Option.some.injEq, Prod.mk.injEq, true_and] at h
      rw [← h.1] at h0 ⊢
      exact hnone h0

theorem sizeFits_eq {w : Nat} {sb : StringBuilder} {n : Nat} (h : sizeFits w sb n = true)
    (hn : 0 < n) : sb.length + n + 1 < 2 ^ w := by
  unfold sizeFits at h
  exact (of_decide_eq_true h) hn

/-- The call `sb_append_ex` on a buffer of the invariant returns whatever the allocator
does, when the source has `n` bytes and the size does not overflow; the buffer it returns
satisfies the invariant, the room for the terminator being what the growth has reserved. -/
theorem sound_sb_append_ex_total {w : Nat} (a : Allocator) {sb : StringBuilder}
    {value : List Nat} {n : Nat} (hs : Sound w sb) (hsrc : n ≤ value.length)
    (hfit : sizeFits w sb n = true) :
    ∃ sb2 a2, sb_append_ex w a sb value n = some (sb2, a2) ∧ Sound w sb2 := by
  rcases Nat.eq_zero_or_pos n with h0 | hn
  · subst h0
    exact ⟨sb, a, sb_append_ex_zero w a sb value, hs⟩
  · have hno := sizeFits_eq hfit hn
    obtain ⟨⟨b, sb1, a1⟩, he⟩ := sb_ensure_capacity_defined w a sb (sb.length + n + 1)
    cases b with
    | false =>
      have := sb_ensure_capacity_false he
      subst this
      refine ⟨sb1, a1, ?_, hs⟩
      unfold sb_append_ex
      rw [if_pos hn, Nat.mod_eq_of_lt hno, he]
    | true =>
      obtain ⟨-, hmin, -, -, -⟩ := sb_ensure_capacity_true hs.1 he
      obtain ⟨-, hcs1, -, -⟩ := sb_ensure_capacity_shape hs.1 (shape_cap hs.2.1) he
      have hb1 := sb_ensure_capacity_bound hs.2.2.1 he
      obtain ⟨sb2, he2, -, hl2, hc2, hinv2⟩ :=
        sb_append_ex_spec hs.1 (sound_room hs).1 hn hsrc hno he
      refine ⟨sb2, a1, he2, sound_of_inv hinv2 ?_ ?_ ?_⟩
      · rw [hc2]
        rcases hcs1 with h0 | hk
        · omega
        · exact hk
      · rw [hc2, hl2]
        exact hmin
      · rw [hc2]
        exact hb1

/-- A call `sb_append_ex` that returns has either changed nothing or read `n` bytes of its
source. -/
theorem sb_append_ex_source {w : Nat} {a a2 : Allocator} {sb sb2 : StringBuilder}
    {value : List Nat} {n : Nat} (h : sb_append_ex w a sb value n = some (sb2, a2)) :
    sb2 = sb ∨ n ≤ value.length := by
  unfold sb_append_ex at h
  split at h
  · split at h
    · simp at h
    · rename_i sb1 a1 he
      simp only [Option.some.injEq, Prod.mk.injEq] at h
      rw [← h.1]
      exact Or.inl (sb_ensure_capacity_false he)
    · split at h
      · simp at h
      · split at h
        · simp at h
        · rename_i bytes hp
          have := (peek_some hp).1
          exact Or.inr (by omega)
  · simp only [Option.some.injEq, Prod.mk.injEq] at h
    exact Or.inl h.1.symm

theorem sound_sb_append_ex {w : Nat} {a a2 : Allocator} {sb sb2 : StringBuilder}
    {value : List Nat} {n : Nat} (hs : Sound w sb) (hfit : sizeFits w sb n = true)
    (h : sb_append_ex w a sb value n = some (sb2, a2)) : Sound w sb2 := by
  rcases sb_append_ex_source h with heq | hsrc
  · rw [heq]
    exact hs
  · obtain ⟨sb3, a3, he, hs3⟩ := sound_sb_append_ex_total a hs hsrc hfit
    rw [he] at h
    simp only [Option.some.injEq, Prod.mk.injEq] at h
    rw [← h.1]
    exact hs3

/-- The call `sb_insert_ex` on a buffer of the invariant returns whatever the allocator
does, when the source has `n` bytes and the size does not overflow; the buffer it returns
satisfies the invariant. -/
theorem sound_sb_insert_ex_total {w : Nat} (a : Allocator) {sb : StringBuilder} (index : Nat)
    {value : List Nat} {n : Nat} (hs : Sound w sb) (hsrc : n ≤ value.length)
    (hfit : sizeFits w sb n = true) :
    ∃ sb2 a2, sb_insert_ex w a sb index value n = some (sb2, a2) ∧ Sound w sb2 := by
  rcases Nat.lt_or_ge index sb.length with hidx | hidx
  · rcases Nat.eq_zero_or_pos n with h0 | hn
    · subst h0
      exact ⟨sb, a, sb_insert_ex_zero w a sb index value, hs⟩
    · have hno := sizeFits_eq hfit hn
      obtain ⟨⟨b, sb1, a1⟩, he⟩ := sb_ensure_capacity_defined w a sb (sb.length + n + 1)
      cases b with
      | false =>
        have := sb_ensure_capacity_false he
        subst this
        refine ⟨sb1, a1, ?_, hs⟩
        unfold sb_insert_ex
        rw [if_pos hidx, if_pos hn, Nat.mod_eq_of_lt hno, he]
      | true =>
        obtain ⟨-, hmin, -, -, -⟩ := sb_ensure_capacity_true hs.1 he
        obtain ⟨-, hcs1, -, -⟩ := sb_ensure_capacity_shape hs.1 (shape_cap hs.2.1) he
        have hb1 := sb_ensure_capacity_bound hs.2.2.1 he
        obtain ⟨sb2, he2, -, hl2, hc2, hinv2⟩ :=
          sb_insert_ex_spec hs.1 (sound_room hs).1 hidx hn hsrc hno he
        refine ⟨sb2, a1, he2, sound_of_inv hinv2 ?_ ?_ ?_⟩
        · rw [hc2]
          rcases hcs1 with h0 | hk
          · omega
          · exact hk
        · rw [hc2, hl2]
          exact hmin
        · rw [hc2]
          exact hb1
  · have e : sb_insert_ex w a sb index value n = sb_append_ex w a sb value n := by
      unfold sb_insert_ex
      rw [if_neg (by omega)]
    rw [e]
    exact sound_sb_append_ex_total a hs hsrc hfit

/-- A call `sb_insert_ex` that returns has either changed nothing or read `n` bytes of its
source. -/
theorem sb_insert_ex_source {w : Nat} {a a2 : Allocator} {sb sb2 : StringBuilder}
    {value : List Nat} {index n : Nat}
    (h : sb_insert_ex w a sb index value n = some (sb2, a2)) :
    sb2 = sb ∨ n ≤ value.length := by
  unfold sb_insert_ex at h
  split at h
  · split at h
    · split at h
      · simp at h
      · rename_i sb1 a1 he
        simp only [Option.some.injEq, Prod.mk.injEq] at h
        rw [← h.1]
        exact Or.inl (sb_ensure_capacity_false he)
      · split at h
        · simp at h
        · split at h
          · simp at h
          · split at h
            · simp at h
            · split at h
              · simp at h
              · rename_i bytes hp
                have := (peek_some hp).1
                exact Or.inr (by omega)
    · simp only [Option.some.injEq, Prod.mk.injEq] at h
      exact Or.inl h.1.symm
  · exact sb_append_ex_source h

theorem sound_sb_insert_ex {w : Nat} {a a2 : Allocator} {sb sb2 : StringBuilder}
    {value : List Nat} {index n : Nat} (hs : Sound w sb) (hfit : sizeFits w sb n = true)
    (h : sb_insert_ex w a sb index value n = some (sb2, a2)) : Sound w sb2 := by
  rcases sb_insert_ex_source h with heq | hsrc
  · rw [heq]
    exact hs
  · obtain ⟨sb3, a3, he, hs3⟩ := sound_sb_insert_ex_total a index hs hsrc hfit
    rw [he] at h
    simp only [Option.some.injEq, Prod.mk.injEq] at h
    rw [← h.1]
    exact hs3

/-- The call `sb_remove` on a buffer of the invariant returns when `index + length` does
not overflow; the length does not grow and the capacity is unchanged, so the room that
the terminator had is still there. -/
theorem sound_sb_remove_total {w : Nat} {sb : StringBuilder} {index d : Nat}
    (hs : Sound w sb) (hno : index < sb.length → 0 < d → index + d < 2 ^ w) :
    ∃ sb2, sb_remove w sb index d = some sb2 ∧ Sound w sb2 := by
  by_cases hnoop : sb.length ≤ index ∨ d = 0
  · exact ⟨sb, sb_remove_noop w sb index d hnoop, hs⟩
  · have hidx : index < sb.length := by omega
    have hd : 0 < d := by omega
    have hno := hno hidx hd
    have hinv := sound_inv hs (by omega)
    have hroom : sb.length + 1 ≤ sb.capacity := by
      rcases hs.2.1 with ⟨-, h2⟩ | ⟨-, h2⟩
      · omega
      · exact h2
    have hk : ∃ k, sb.capacity = 16 * 2 ^ k := by
      rcases hs.2.1 with ⟨h1, -⟩ | ⟨h1, -⟩
      · omega
      · exact h1
    rcases Nat.lt_or_ge (index + d) sb.length with hlt | hge
    · obtain ⟨sb2, he, -, hl2, hc2, hinv2⟩ :=
        sb_remove_interior hinv (sound_room hs).2 hd hlt
      refine ⟨sb2, he, sound_of_inv hinv2 ?_ ?_ ?_⟩
      · rw [hc2]
        exact hk
      · rw [hc2, hl2]
        omega
      · rw [hc2]
        exact hs.2.2.1
    · obtain ⟨sb2, he, -, hl2, hc2, hinv2⟩ :=
        @sb_remove_clip w sb index d hinv hd hidx (by rw [Nat.mod_eq_of_lt hno]; exact hge)
      refine ⟨sb2, he, sound_of_inv hinv2 ?_ ?_ ?_⟩
      · rw [hc2]
        exact hk
      · rw [hc2, hl2]
        omega
      · rw [hc2]
        exact hs.2.2.1

theorem sound_sb_remove {w : Nat} {sb sb2 : StringBuilder} {index d : Nat}
    (hs : Sound w sb) (hno : index < sb.length → 0 < d → index + d < 2 ^ w)
    (h : sb_remove w sb index d = some sb2) : Sound w sb2 := by
  obtain ⟨sb3, he, hs3⟩ := sound_sb_remove_total hs hno
  rw [he] at h
  simp only [Option.some.injEq] at h
  rw [← h]
  exact hs3

/-- The call `sb_clear` on a buffer of the invariant returns: a buffer that has a block
has a capacity of at least 16, so the terminator is written inside the block. -/
theorem sound_sb_clear_total {w : Nat} {sb : StringBuilder} (hs : Sound w sb) :
    ∃ sb2, sb_clear sb = some sb2 ∧ Sound w sb2 := by
  obtain ⟨hwf, hsh, hb, hterm, hnone⟩ := hs
  cases hv : sb.value with
  | none =>
    have hcap : sb.capacity = 0 := by
      simp only [WF, StringBuilder.block, hv, Option.getD_none, List.length_nil] at hwf
      exact hwf.symm
    refine ⟨{ sb with length := 0 }, ?_, ?_⟩
    · unfold sb_clear
      rw [hv]
    · exact ⟨hwf, Or.inl ⟨hcap, rfl⟩, hb, fun h => absurd h (Nat.lt_irrefl 0), hnone⟩
  | some m =>
    have hcap : sb.capacity ≠ 0 := by
      intro h0
      rw [hnone h0] at hv
      simp at hv
    have hm := wf_value hwf hv
    have hk : ∃ k, sb.capacity = 16 * 2 ^ k := by
      rcases hsh with ⟨h1, -⟩ | ⟨h1, -⟩
      · omega
      · exact h1
    obtain ⟨m1, hp⟩ : ∃ m1, poke m 0 [0] = some m1 :=
      ⟨_, poke_eq (by simp only [List.length_singleton]; omega)⟩
    refine ⟨{ sb with value := some m1, length := 0 }, ?_, ?_⟩
    · unfold sb_clear
      rw [hv]
      simp only
      rw [hp]
    · refine ⟨?_, Or.inr ⟨hk, ?_⟩, hb, fun h => absurd h (Nat.lt_irrefl 0),
        fun h0 => absurd h0 hcap⟩
      · simp only [WF, StringBuilder.block, Option.getD_some]
        rw [poke_length hp]
        exact hm
      · show 0 + 1 ≤ sb.capacity
        omega

theorem sound_sb_clear {w : Nat} {sb sb2 : StringBuilder} (hs : Sound w sb)
    (h : sb_clear sb = some sb2) : Sound w sb2 := by
  obtain ⟨sb3, he, hs3⟩ := sound_sb_clear_total hs
  rw [he] at h
  simp only [Option.some.injEq] at h
  rw [← h]
  exact hs3

/-- The call `sb_create_and_allocate` returns whatever the allocator does, and what it
returns satisfies the invariant: the block it has obtained has at least `capacity >= 1`
bytes, so the terminator of the empty string is written inside the block. -/
theorem sound_sb_create_and_allocate_total (w : Nat) (a : Allocator) (n : Nat) :
    ∃ sb a1, sb_create_and_allocate w a n = some (sb, a1) ∧ Sound w sb := by
  rcases Nat.eq_zero_or_pos n with h0 | hn
  · subst h0
    exact ⟨sb_init, a, rfl, sound_sb_init w⟩
  · obtain ⟨⟨b, sb1, a1⟩, he⟩ := sb_ensure_capacity_defined w a sb_init n
    have hs1 := sound_sb_ensure_capacity (sound_sb_init w) he
    cases b with
    | false =>
      refine ⟨sb1, a1, ?_, hs1⟩
      unfold sb_create_and_allocate
      simp only
      rw [if_pos hn, he]
    | true =>
      obtain ⟨hl1, hmin, -, hwf1, -⟩ := sb_ensure_capacity_true (sound_sb_init w).1 he
      obtain ⟨-, hsh1, hb1, -, hnone1⟩ := hs1
      have hk : ∃ k, sb1.capacity = 16 * 2 ^ k := by
        rcases hsh1 with ⟨h1, -⟩ | ⟨h1, -⟩
        · omega
        · exact h1
      cases hv : sb1.value with
      | none =>
        exfalso
        simp only [WF, StringBuilder.block, hv, Option.getD_none, List.length_nil] at hwf1
        omega
      | some m =>
        have hm := wf_value hwf1 hv
        obtain ⟨m1, hp⟩ : ∃ m1, poke m 0 [0] = some m1 :=
          ⟨_, poke_eq (by simp only [List.length_singleton]; omega)⟩
        refine ⟨{ sb1 with value := some m1 }, a1, ?_, ?_⟩
        · unfold sb_create_and_allocate
          simp only
          rw [if_pos hn, he]
          simp only
          rw [hv]
          simp only
          rw [hp]
        · refine ⟨?_, Or.inr ⟨hk, ?_⟩, hb1, ?_, fun h0 => ?_⟩
          · simp only [WF, StringBuilder.block, Option.getD_some]
            rw [poke_length hp]
            exact hm
          · show sb1.length + 1 ≤ sb1.capacity
            rw [hl1]
            show 0 + 1 ≤ sb1.capacity
            omega
          · intro hpos
            exfalso
            have : sb1.length = 0 := hl1
            have hpos1 : 0 < sb1.length := hpos
            omega
          · exfalso
            have : sb1.capacity = 0 := h0
            omega


theorem cstr_defined : ∀ (l : List Nat), 0 ∈ l → ∃ H, cstr l = some H
  | [], h => by simp at h
  | c :: cs, h => by
    unfold cstr
    by_cases hc : c = 0
    · exact ⟨[], by rw [if_pos hc]⟩
    · have hmem : 0 ∈ cs := by
        rcases List.mem_cons.mp h with h1 | h1
        · exact absurd h1.symm hc
        · exact h1
      obtain ⟨H, hH⟩ := cstr_defined cs hmem
      exact ⟨c :: H, by rw [if_neg hc, hH]; rfl⟩

/-- The block of a non-empty buffer of the invariant: the string that `strstr` sees in it
ends at the first NUL, which is at offset `length` or before it. -/
theorem first_string {sb : StringBuilder} (hinv : Inv sb) (hpos : 0 < sb.length) :
    ∃ H R, sb.value = some (H ++ 0 :: R) ∧ (∀ c, c ∈ H → c ≠ 0) ∧ H.length ≤ sb.length ∧
      (H ++ 0 :: R).length = sb.capacity ∧ (H ++ 0 :: R).get? sb.length = some 0 := by
  obtain ⟨R0, hval, hSl, hcap⟩ := inv_block hinv hpos
  have hmem : (0 : Nat) ∈ sb.content ++ 0 :: R0 := by simp
  obtain ⟨H, hH⟩ := cstr_defined _ hmem
  obtain ⟨hHz, R, hsplit⟩ := cstr_eq_some _ _ hH
  have hget : (sb.content ++ 0 :: R0).get? sb.length = some 0 := by
    rw [List.get?_eq_getElem?, List.getElem?_append_right (by omega), hSl, Nat.sub_self]
    exact List.getElem?_cons_zero
  rw [hsplit] at hval hcap hget
  refine ⟨H, R, hval, hHz, ?_, hcap, hget⟩
  by_contra hlt
  have hlt : sb.length < H.length := by omega
  rw [List.get?_eq_getElem?, List.getElem?_append_left hlt] at hget
  exact hHz 0 (List.getElem?_mem hget) rfl

/-- The unequal-length loop of `sb_replace` whatever the allocator does: when none of its
`sb_append_ex` calls overflows it returns, `tmp` satisfies the invariant, and `start` is
inside the text. -/
theorem replaceNeLoop_sound {w : Nat} {old new o nw : List Nat} (R : List Nat)
    (hold : cstr old = some o) (ho : o ≠ []) (hnew : cstr new = some nw) :
    ∀ (fuel : Nat) (a : Allocator) (tmp : StringBuilder) (Pre T : List Nat) (p : Nat),
      T.length ≤ fuel → (∀ c, c ∈ T → c ≠ 0) → findSub o T = some p → Sound w tmp →
      replaceNeLoopFits w (Pre ++ T ++ 0 :: R) old new o.length nw.length fuel a tmp
        Pre.length (some (Pre.length + p)) = true →
      ∃ tmp1 start1 a1 Tf,
        replaceNeLoop w (Pre ++ T ++ 0 :: R) old new o.length nw.length fuel a tmp
          Pre.length (some (Pre.length + p)) = some (tmp1, start1, a1) ∧
        Sound w tmp1 ∧ (Pre ++ T ++ 0 :: R).drop start1 = Tf ++ 0 :: R ∧
        start1 + Tf.length = Pre.length + T.length ∧ (∀ c, c ∈ Tf → c ≠ 0)
  | 0, a, tmp, Pre, T, p, hf, _, hfind, _, _ => by
    have hT : T = [] := List.length_eq_zero.mp (by omega)
    subst hT
    unfold findSub at hfind
    rw [if_neg ho] at hfind
    simp at hfind
  | fuel + 1, a, tmp, Pre, T, p, hf, hT, hfind, hs, hfit => by
    have hol : 0 < o.length := List.length_pos.mpr ho
    obtain ⟨hp, hsplit⟩ := findSub_some o T p hfind
    obtain ⟨-, rnew, hnewsplit⟩ := cstr_eq_some new nw hnew
    have htk : (T.take p).length = p := by
      rw [List.length_take]
      omega
    have hT' : ∀ c, c ∈ T.drop (p + o.length) → c ≠ 0 :=
      fun c hc => hT c (List.mem_of_mem_drop hc)
    have hd : (T.drop (p + o.length)).length ≤ fuel := by
      rw [List.length_drop]
      omega
    have hdlen : (T.drop (p + o.length)).length = T.length - (p + o.length) :=
      List.length_drop _ _
    have hblock : Pre ++ T ++ 0 :: R =
        (Pre ++ T.take p ++ o) ++ T.drop (p + o.length) ++ 0 :: R := by
      conv_lhs => rw [hsplit]
      simp only [List.append_assoc]
    have hdrop0 : (Pre ++ T ++ 0 :: R).drop Pre.length = T ++ 0 :: R := by
      rw [List.append_assoc]
      exact List.drop_left' rfl
    have hdrop1 : (Pre ++ T ++ 0 :: R).drop (Pre.length + p + o.length) =
        T.drop (p + o.length) ++ 0 :: R := by
      rw [hblock, List.append_assoc]
      exact List.drop_left' (by simp only [List.length_append, htk])
    unfold replaceNeLoopFits at hfit
    rw [hdrop0, Nat.add_sub_cancel_left, Bool.and_eq_true] at hfit
    obtain ⟨hfit1, hfit⟩ := hfit
    obtain ⟨tmp1, a1, he1, hs1⟩ :=
      @sound_sb_append_ex_total w a tmp (T ++ 0 :: R) p hs
        (by simp only [List.length_append]; omega) hfit1
    rw [he1] at hfit
    simp only [Bool.and_eq_true] at hfit
    obtain ⟨hfit2, hfit⟩ := hfit
    obtain ⟨tmp2, a2, he2, hs2⟩ :=
      @sound_sb_append_ex_total w a1 tmp1 new nw.length hs1
        (by rw [hnewsplit, List.length_append]; omega) hfit2
    rw [he2] at hfit
    simp only at hfit
    rw [hdrop1, strstr_block hT' hold] at hfit
    simp only at hfit
    unfold replaceNeLoop
    rw [hdrop0, Nat.add_sub_cancel_left, he1]
    simp only
    rw [he2]
    simp only
    rw [hdrop1, strstr_block hT' hold]
    simp only
    cases hnext : findSub o (T.drop (p + o.length)) with
    | none =>
      rw [Option.map_none', replaceNeLoop_done]
      refine ⟨tmp2, Pre.length + p + o.length, a2, T.drop (p + o.length), rfl, hs2,
        hdrop1, ?_, hT'⟩
      rw [hdlen]
      omega
    | some p1 =>
      have e : (Pre ++ T.take p ++ o).length = Pre.length + p + o.length := by
        simp only [List.length_append, htk]
      rw [hnext, Option.map_some'] at hfit
      obtain ⟨tmp3, start3, a3, Tf, he3, hs3, hdrop3, hst3, hTf⟩ :=
        replaceNeLoop_sound R hold ho hnew fuel a2 tmp2 (Pre ++ T.take p ++ o)
          (T.drop (p + o.length)) p1 hd hT' hnext hs2 (by
            rw [e, ← hblock]
            exact hfit)
      rw [e, ← hblock] at he3
      rw [← hblock] at hdrop3
      rw [Option.map_some']
      refine ⟨tmp3, start3, a3, Tf, he3, hs3, hdrop3, ?_, hTf⟩
      rw [hst3, e, hdlen]
      omega

/-- The call `sb_replace` on a buffer of the invariant returns whatever the allocator
does, when its text arguments are `NULL` or terminated strings and none of its
`sb_append_ex` calls overflows; the buffer it returns satisfies the invariant. -/
theorem sound_sb_replace_total {w : Nat} (a : Allocator) {sb : StringBuilder}
    {old_value new_value : Option (List Nat)} (hs : Sound w sb)
    (hvalid : ∀ old new, old_value = some old → new_value = some new → sb.length ≠ 0 →
      (strlen old).isSome = true ∧ (strlen new).isSome = true)
    (hfit : sb_replace_fits w a sb old_value new_value = true) :
    ∃ sb2 a2, sb_replace w a sb old_value new_value = some (sb2, a2) ∧ Sound w sb2 := by
  cases old_value with
  | none => exact ⟨sb, a, rfl, hs⟩
  | some old =>
    cases new_value with
    | none => exact ⟨sb, a, rfl, hs⟩
    | some new =>
      by_cases hL : sb.length = 0
      · refine ⟨sb, a, ?_, hs⟩
        unfold sb_replace
        simp only
        rw [if_pos hL]
      · obtain ⟨hso, hsn⟩ := hvalid old new rfl rfl hL
        obtain ⟨ol, hol⟩ := Option.isSome_iff_exists.mp hso
        obtain ⟨nl, hnl⟩ := Option.isSome_iff_exists.mp hsn
        obtain ⟨o, hold, holen, -, -⟩ := strlen_some hol
        obtain ⟨nw, hnew, hnlen, -, -⟩ := strlen_some hnl
        subst holen hnlen
        have hpos : 0 < sb.length := by omega
        have hinv := sound_inv hs hpos
        have hroom : sb.length + 1 ≤ sb.capacity := inv_room hinv hpos
        obtain ⟨H, R, hval, hHz, hHl, hcap, hget⟩ := first_string hinv hpos
        unfold sb_replace_fits at hfit
        simp only at hfit
        rw [hol, hnl, hval] at hfit
        simp only at hfit
        rw [strstr_block hHz hold] at hfit
        unfold sb_replace
        simp only
        rw [if_neg hL, hol, hnl, hval]
        simp only
        rw [strstr_block hHz hold]
        cases hfind : findSub o H with
        | none => exact ⟨sb, a, rfl, hs⟩
        | some p =>
          rw [hfind] at hfit
          simp only at hfit ⊢
          by_cases ho0 : o.length = 0
          · rw [if_pos ho0]
            exact ⟨sb, a, rfl, hs⟩
          · rw [if_neg ho0]
            have ho : o ≠ [] := fun hc => ho0 (by rw [hc]; rfl)
            have hfuel : H.length ≤ (H ++ 0 :: R).length + 1 := by
              simp only [List.length_append]
              omega
            by_cases hlen : o.length = nw.length
            · rw [if_pos hlen]
              have hloop := replaceEqLoop_spec R hold ho hnew hlen
                ((H ++ 0 :: R).length + 1) [] H p hfuel hHz hfind
              simp only [List.nil_append, List.length_nil, Nat.zero_add] at hloop
              rw [hloop]
              have hX : (replaceRef o nw ((H ++ 0 :: R).length + 1) H).length = H.length :=
                replaceRef_length_eq o nw hlen _ _
              refine ⟨_, a, rfl, ?_, hs.2.1, hs.2.2.1, fun _ => ?_, fun h0 => ?_⟩
              · simp only [WF, StringBuilder.block, Option.getD_some]
                rw [← hcap, List.length_append, hX, List.length_append]
              · show (replaceRef o nw ((H ++ 0 :: R).length + 1) H ++ 0 :: R).get? sb.length =
                  some 0
                rw [List.get?_eq_getElem?, List.getElem?_append_right (by omega), hX]
                rw [List.get?_eq_getElem?, List.getElem?_append_right hHl] at hget
                exact hget
              · exfalso
                have : sb.capacity = 0 := h0
                omega
            · rw [if_neg hlen]
              rw [if_neg (by simp only [hL, ho0, hlen, or_self, not_false_eq_true]),
                Bool.and_eq_true] at hfit
              obtain ⟨hfitL, hfitT⟩ := hfit
              obtain ⟨tmp1, start1, a1, Tf, he, hs1, hdrop, hst, hTf⟩ :=
                @replaceNeLoop_sound w old new o nw R hold ho hnew
                  ((H ++ 0 :: R).length + 1) a sb_create [] H p hfuel hHz hfind
                  (sound_sb_init w) (by
                    simp only [List.nil_append, List.length_nil, Nat.zero_add]
                    exact hfitL)
              simp only [List.nil_append, List.length_nil, Nat.zero_add] at he hdrop hst
              rw [he] at hfitT ⊢
              simp only at hfitT ⊢
              rw [get?_of_drop hdrop] at hfitT ⊢
              cases hTf0 : Tf with
              | nil =>
                simp only [List.nil_append, List.head?_cons, ne_eq, not_true_eq_false,
                  if_false]
                exact ⟨tmp1, a1, rfl, hs1⟩
              | cons c rest =>
                have hc0 : c ≠ 0 := hTf c (by rw [hTf0]; exact List.mem_cons_self c rest)
                rw [hTf0] at hfitT
                simp only [List.cons_append, List.head?_cons] at hfitT ⊢
                rw [if_pos hc0] at hfitT ⊢
                rw [hdrop]
                apply sound_sb_append_ex_total a1 hs1 _ hfitT
                rw [subw_eq (by omega) (sound_room hs).2]
                have hcap2 : H.length + (R.length + 1) = sb.capacity := by
                  rw [← hcap]
                  simp only [List.length_append, List.length_cons]
                simp only [List.length_append, List.length_cons]
                omega

/-- A call `sb_replace` that returns on a non-empty buffer was given terminated strings. -/
theorem sb_replace_args {w : Nat} {a a2 : Allocator} {sb sb2 : StringBuilder}
    {old_value new_value : Option (List Nat)}
    (h : sb_replace w a sb old_value new_value = some (sb2, a2)) :
    ∀ old new, old_value = some old → new_value = some new → sb.length ≠ 0 →
      (strlen old).isSome = true ∧ (strlen new).isSome = true := by
  intro old new ho hn hL
  subst ho hn
  unfold sb_replace at h
  simp only at h
  rw [if_neg hL] at h
  cases hso : strlen old with
  | none =>
    rw [hso] at h
    simp at h
  | some ol =>
    cases hsn : strlen new with
    | none =>
      rw [hso, hsn] at h
      simp at h
    | some nl => exact ⟨rfl, rfl⟩

theorem sound_sb_replace {w : Nat} {a a2 : Allocator} {sb sb2 : StringBuilder}
    {old_value new_value : Option (List Nat)} (hs : Sound w sb)
    (hfit : sb_replace_fits w a sb old_value new_value = true)
    (h : sb_replace w a sb old_value new_value = some (sb2, a2)) : Sound w sb2 := by
  obtain ⟨sb3, a3, he, hs3⟩ := sound_sb_replace_total a hs (sb_replace_args h) hfit
  rw [he] at h
  simp only [Option.some.injEq, Prod.mk.injEq] at h
  rw [← h.1]
  exact hs3

/-- Progress: on a buffer of the invariant, a call with well-formed arguments that does
not overflow returns, whatever the allocator does, and the buffer it returns satisfies
the invariant. -/
theorem sound_call_total {w : Nat} (a : Allocator) {sb : StringBuilder} {c : Call}
    (hs : Sound w sb) (hv : c.valid) (hno : c.noOverflow w a sb) :
    ∃ sb1 a1, c.run w a sb = some (sb1, a1) ∧ Sound w sb1 := by
  cases c with
  | ensure_capacity min =>
    obtain ⟨⟨b, sb1, a1⟩, he⟩ := sb_ensure_capacity_defined w a sb min
    refine ⟨sb1, a1, ?_, sound_sb_ensure_capacity hs he⟩
    simp only [Call.run, he, Option.map_some']
  | append_ex value n => exact sound_sb_append_ex_total a hs hv hno
  | insert_ex index value n => exact sound_sb_insert_ex_total a index hs hv hno
  | remove index d =>
    obtain ⟨sb2, he, hs2⟩ := sound_sb_remove_total hs hno
    refine ⟨sb2, a, ?_, hs2⟩
    simp only [Call.run, he, Option.map_some']
  | replace old new =>
    exact sound_sb_replace_total a hs
      (fun o n ho hn _ => ⟨hv.1 o ho, hv.2 n hn⟩) hno
  | clear =>
    obtain ⟨sb2, he, hs2⟩ := sound_sb_clear_total hs
    refine ⟨sb2, a, ?_, hs2⟩
    simp only [Call.run, he, Option.map_some']

/-- Preservation: a call that does not overflow and returns on a buffer of the invariant
returns a buffer of the invariant. -/
theorem sound_call {w : Nat} {a a1 : Allocator} {sb sb1 : StringBuilder} {c : Call}
    (hs : Sound w sb) (hno : c.noOverflow w a sb) (h : c.run w a sb = some (sb1, a1)) :
    Sound w sb1 := by
  cases c with
  | ensure_capacity min =>
    simp only [Call.run, Option.map_eq_some'] at h
    obtain ⟨⟨b, sb2, a2⟩, he, heq⟩ := h
    simp only [Prod.mk.injEq] at heq
    rw [← heq.1]
    exact sound_sb_ensure_capacity hs he
  | append_ex value n => exact sound_sb_append_ex hs hno h
  | insert_ex index value n => exact sound_sb_insert_ex hs hno h
  | remove index d =>
    simp only [Call.run, Option.map_eq_some'] at h
    obtain ⟨sb2, he, heq⟩ := h
    simp only [Prod.mk.injEq] at heq
    rw [← heq.1]
    exact sound_sb_remove hs hno he
  | replace old new => exact sound_sb_replace hs hno h
  | clear =>
    simp only [Call.run, Option.map_eq_some'] at h
    obtain ⟨sb2, he, heq⟩ := h
    simp only [Prod.mk.injEq] at heq
    rw [← heq.1]
    exact sound_sb_clear hs he

theorem reachable_sound {w : Nat} {sb : StringBuilder} (h : Reachable w sb) : Sound w sb := by
  induction h with
  | create => exact sound_sb_init w
  | create_and_allocate a a1 capacity sb he =>
    obtain ⟨sb2, a2, he2, hs2⟩ := sound_sb_create_and_allocate_total w a capacity
    rw [he2] at he
    simp only [Option.some.injEq, Prod.mk.injEq] at he
    rw [← he.1]
    exact hs2
  | call a a1 sb sb1 c _ hno he ih => exact sound_call ih hno he

/-- C18: every buffer that `sb_create` or `sb_create_and_allocate` followed by a finite
sequence of `sb_ensure_capacity`, `sb_append_ex`, `sb_insert_ex`, `sb_remove`,
`sb_replace` and `sb_clear` calls yields, whatever the allocator does, when no call
overflows a `size_t` in `length + inputLen + 1` or in `index + deleteLen`, has either
capacity 0 and length 0, or a capacity `16 * 2 ^ k` with `length + 1 <= capacity`, and its
block has exactly `capacity` bytes.  Such sequences exist for all arguments: on such a
buffer every call with well-formed arguments that does not overflow returns, and so does
every `sb_create_and_allocate` call. -/
theorem C18_capacity_shape_invariant (w : Nat) (sb : StringBuilder) (h : Reachable w sb) :
    (((sb.capacity = 0 ∧ sb.length = 0) ∨
        ((∃ k, sb.capacity = 16 * 2 ^ k) ∧ sb.length + 1 ≤ sb.capacity)) ∧
      sb.block.length = sb.capacity) ∧
    (∀ (a : Allocator) (c : Call), c.valid → c.noOverflow w a sb →
      ∃ sb1 a1, c.run w a sb = some (sb1, a1)) ∧
    ∀ (a : Allocator) (capacity : Nat),
      ∃ sb1 a1, sb_create_and_allocate w a capacity = some (sb1, a1) :=
  ⟨⟨(reachable_sound h).2.1, (reachable_sound h).1⟩,
    fun a _ hv hno =>
      (sound_call_total a (reachable_sound h) hv hno).imp fun _ hx => hx.imp fun _ hy => hy.1,
    fun a capacity =>
      (sound_sb_create_and_allocate_total w a capacity).imp fun _ hx =>
        hx.imp fun _ hy => hy.1⟩

/-- An instance of C18: the buffer after `sb_create_and_allocate(20)`, an append of
`"hello"`, a replacement of `"l"` by `"LL"` and a removal of one character. -/
theorem C18_capacity_shape_invariant_witness :
    ∃ sb : StringBuilder, sb.content = [104, 76, 76, 76, 76, 111] ∧ sb.capacity = 16 ∧
      ((((sb.capacity = 0 ∧ sb.length = 0) ∨
          ((∃ k, sb.capacity = 16 * 2 ^ k) ∧ sb.length + 1 ≤ sb.capacity)) ∧
        sb.block.length = sb.capacity) ∧
      (∀ (a : Allocator) (c : Call), c.valid → c.noOverflow 64 a sb →
        ∃ sb1 a1, c.run 64 a sb = some (sb1, a1)) ∧
      ∀ (a : Allocator) (capacity : Nat),
        ∃ sb1 a1, sb_create_and_allocate 64 a capacity = some (sb1, a1)) :=
  ⟨{ value := some ([104, 76, 76, 76, 76, 111, 0, 0] ++ List.replicate 8 170), length := 6,
      capacity := 16 },
    rfl, rfl,
    C18_capacity_shape_invariant 64 _
      (Reachable.call allocJunk allocJunk
        { value := some ([104, 101, 76, 76, 76, 76, 111, 0] ++ List.replicate 8 170),
          length := 7, capacity := 16 } _ (Call.remove 1 1)
        (Reachable.call allocJunk allocJunk
          { value := some ([104, 101, 108, 108, 111, 0] ++ List.replicate 26 170),
            length := 5, capacity := 32 } _
          (Call.replace (some [108, 0]) (some [76, 76, 0]))
          (Reachable.call allocJunk allocJunk
            { value := some (0 :: List.replicate 31 170), length := 0, capacity := 32 } _
            (Call.append_ex [104, 101, 108, 108, 111] 5)
            (Reachable.create_and_allocate allocJunk allocJunk 20 _ rfl)
            (show sizeFits 64 _ 5 = true by decide)
            rfl)
          (show sb_replace_fits 64 allocJunk _ (some [108, 0]) (some [76, 76, 0]) = true
            by decide)
          rfl)
        (fun _ _ => by decide)
        rfl)⟩

end SB
